import Mathlib

/-!
# Adaptive local Wiener filters and transform engine of `icarussigproc`

Shallow embedding of `src/icarussigproc/Deconvolve.cxx` (the filters of class `Deconvolve`)
and of `src/icarussigproc/ICARUSFFT.h` (the transform engine `ICARUSFFT<T>`).

Modelling conventions.

* Samples live in an arbitrary linearly ordered field `α` (exact arithmetic: the
  rounding of `float`/`double` is not modelled).  Every definition is executable
  at `α = ℚ`.
* A value of type `Option α` is an IEEE value: `some v` is the finite number `v`,
  `none` is a non-finite one (NaN or an infinity).  Non-finite values arise from a
  division by zero or the square root of a negative number only, and propagate
  through every later operation of the cell (a comparison with NaN is false and
  selects the blending branch, whose result is again non-finite).
* `std::vector<std::vector<T>>` is `List (List _)`; `int`/`size_t`/`unsigned`
  values are unbounded integers (array sizes and half windows are assumed to be
  below `2^30`, so that no `int` computation wraps).
* A filter returns `Except Failure _`: the final content of its output argument, or the
  exception it was left by.  A function of `ICARUSFFT<T>` returns an `Outcome`: the final
  content of the reference argument it writes, together with the exception thrown, if any.
* The two transforms of the FFTW library are parameters of the engine (`r2c`, `c2r`); what
  the library documents of them is the hypothesis `FFTWContract`.
-/

namespace icarussigproc

/-- Failure raised by the bounds-checked accessor `std::vector::at`. -/
inductive Failure where
  | outOfRange
  deriving DecidableEq, Repr

section Defs

variable {α : Type} [LinearOrderedField α]

/-- Floating-point quotient `a / b`: a zero divisor gives a non-finite value. -/
def fdiv (a b : α) : Option α :=
  if b = 0 then none else some (a / b)

/-- `std::vector::resize(n)`: keeps the first `n` entries and pads with the
value-initialised element `d`. -/
def resize {β : Type} (v : List β) (n : Nat) (d : β) : List β :=
  v.take n ++ List.replicate (n - v.length) d

/-- `waveLessCoherent[ix][iy]` (unchecked `operator[]`).  The default `0` stands for the
undefined value of an access out of bounds; the gathering loops never make one on a
rectangular array (`mem_windowIndices`). -/
def at2 (w : List (List α)) (ix iy : Nat) : α :=
  (w.getD ix []).getD iy 0

/-- `deconvolvedWaveform[i][j] = v`. -/
def set2 {β : Type} (out : List (List β)) (i j : Nat) (v : β) : List (List β) :=
  out.set i ((out.getD i []).set j v)

/-- `std::accumulate(x.begin(), x.end(), 0.0)`: a left fold of `+` from `0`. -/
def accumulate (x : List α) : α :=
  x.foldl (fun acc v => acc + v) 0

/-- `std::inner_product(x.begin(), x.end(), weight.begin(), 0.0)`. -/
def inner_product (x weight : List α) : α :=
  (List.zip x weight).foldl (fun acc p => acc + p.1 * p.2) 0

/-- `size_t lowerBound = std::max(i - halfWindow, 0)` (lines 62, 64, 66, 68). -/
def lowerBound (i halfWindow : Nat) : Nat :=
  (max ((i : Int) - (halfWindow : Int)) 0).toNat

/-- `size_t upperBound = std::min(i + halfWindow, (int) size)` (lines 63, 65, 67, 69). -/
def upperBound (i halfWindow size : Nat) : Nat :=
  (min ((i : Int) + (halfWindow : Int)) (size : Int)).toNat

/-- The index pairs `(ix, iy)` visited by the two gathering loops
`for ix in [lowerBoundx, upperBoundx)`, `for iy in [lowerBoundy, upperBoundy)`
(lines 74-79), in the order of the `push_back`s. -/
def windowIndices (numChannels nTicks sx sy i j : Nat) : List (Nat × Nat) :=
  let xHalfWindowSize := sx / 2
  let yHalfWindowSize := sy / 2
  let lowerBoundx := lowerBound i xHalfWindowSize
  let upperBoundx := upperBound i xHalfWindowSize numChannels
  let lowerBoundy := lowerBound j yHalfWindowSize
  let upperBoundy := upperBound j yHalfWindowSize nTicks
  (List.range' lowerBoundx (upperBoundx - lowerBoundx)).flatMap fun ix =>
    (List.range' lowerBoundy (upperBoundy - lowerBoundy)).map fun iy => (ix, iy)

/-- The vector `x` of gathered samples (line 76). -/
def gatherX (w : List (List α)) (numChannels nTicks sx sy i j : Nat) : List α :=
  (windowIndices numChannels nTicks sx sy i j).map fun p => at2 w p.1 p.2

/-- The vector `xsq` of squared gathered samples (line 77). -/
def gatherXsq (w : List (List α)) (numChannels nTicks sx sy i j : Nat) : List α :=
  (windowIndices numChannels nTicks sx sy i j).map fun p => at2 w p.1 p.2 * at2 w p.1 p.2

/-- The blend written at the end of every filter variant (lines 83-88, 173-178,
286-291, 394-399): the flat estimate if `noiseVar > localVar`, otherwise
`flat + (1 - noiseVar / localVar) * (observed - flat)`. -/
def blend (flat localVar noiseVar observed : α) : Option α :=
  if noiseVar > localVar then some flat
  else (fdiv noiseVar localVar).map fun q => flat + (1 - q) * (observed - flat)

/-- The pair `(localMean, localVar)` of `filterLee<T>` for cell `(i, j)` (lines 62-82). -/
def leeStats (w : List (List α)) (numChannels nTicks sx sy i j : Nat) : Option (α × α) :=
  let x := gatherX w numChannels nTicks sx sy i j
  let xsq := gatherXsq w numChannels nTicks sx sy i j
  (fdiv (accumulate x) (x.length : α)).bind fun localMean =>
  (fdiv (accumulate xsq) (x.length : α)).bind fun localSquare =>
  let localVar := localSquare - localMean * localMean
  some (localMean, localVar)

/-- The value `filterLee<T>` stores in `deconvolvedWaveform[i][j]` (lines 62-88). -/
def leeCell (w : List (List α)) (numChannels nTicks : Nat) (noiseVar : α)
    (sx sy i j : Nat) : Option α :=
  (leeStats w numChannels nTicks sx sy i j).bind fun s =>
    blend s.1 s.2 noiseVar (at2 w i j)

/-- The resizing of the output argument (lines 54-57): `numChannels` rows of
`nTicks` entries each, old entries kept, new ones value-initialised. -/
def resizeOutput (out : List (List (Option α))) (numChannels nTicks : Nat) :
    List (List (Option α)) :=
  (resize out numChannels []).map fun row => resize row nTicks (some 0)

/-- The two nested cell loops `for i < numChannels`, `for j < nTicks`, each
iteration storing `cell i j` in `out[i][j]`. -/
def fillCells {β : Type} (out : List (List β)) (numChannels nTicks : Nat)
    (cell : Nat → Nat → β) : List (List β) :=
  (List.range numChannels).foldl
    (fun o i => (List.range nTicks).foldl (fun o j => set2 o i j (cell i j)) o) out

/-- Template `Deconvolve::filterLee<T>` (lines 41-92).  `out` is the previous
content of `deconvolvedWaveform`; the result is its final content, or the failure
thrown by `waveLessCoherent.at(0)`. -/
def filterLee (out : List (List (Option α))) (w : List (List α)) (noiseVar : α)
    (sx sy : Nat) : Except Failure (List (List (Option α))) :=
  match w with
  | [] => Except.error Failure.outOfRange
  | row0 :: _ =>
    let numChannels := w.length
    let nTicks := row0.length
    let out1 := resizeOutput out numChannels nTicks
    Except.ok (fillCells out1 numChannels nTicks
      (fun i j => leeCell w numChannels nTicks noiseVar sx sy i j))

/-- The pair `(localMedian, localVar)` of `MMWF<T>` for cell `(i, j)` (lines 151-172).
`computeMedian` is `MiscUtils::computeMedian`, whose definition is not part of the
sources at hand: it is a parameter. -/
def mmwfStats (computeMedian : List α → α) (w : List (List α))
    (numChannels nTicks sx sy i j : Nat) : Option (α × α) :=
  let x := gatherX w numChannels nTicks sx sy i j
  let xsq := gatherXsq w numChannels nTicks sx sy i j
  (fdiv (accumulate x) (x.length : α)).bind fun localMean =>
  (fdiv (accumulate xsq) (x.length : α)).bind fun localSquare =>
  let localVar := localSquare - localMean * localMean
  let localMedian := computeMedian x
  some (localMedian, localVar)

/-- The value `MMWF<T>` stores in `deconvolvedWaveform[i][j]` (lines 151-178). -/
def mmwfCell (computeMedian : List α → α) (w : List (List α)) (numChannels nTicks : Nat)
    (noiseVar : α) (sx sy i j : Nat) : Option α :=
  (mmwfStats computeMedian w numChannels nTicks sx sy i j).bind fun s =>
    blend s.1 s.2 noiseVar (at2 w i j)

/-- Template `Deconvolve::MMWF<T>` (lines 128-182). -/
def MMWF (computeMedian : List α → α) (out : List (List (Option α))) (w : List (List α))
    (noiseVar : α) (sx sy : Nat) : Except Failure (List (List (Option α))) :=
  match w with
  | [] => Except.error Failure.outOfRange
  | row0 :: _ =>
    let numChannels := w.length
    let nTicks := row0.length
    let out1 := resizeOutput out numChannels nTicks
    Except.ok (fillCells out1 numChannels nTicks
      (fun i j => mmwfCell computeMedian w numChannels nTicks noiseVar sx sy i j))

/-- The pair `(localMedian, localVar)` of the first pass of `MMWFStar<T>` for cell
`(i, j)` (lines 253-274); `localVar` is non-finite when the window is empty. -/
def starStats (computeMedian : List α → α) (w : List (List α))
    (numChannels nTicks sx sy i j : Nat) : α × Option α :=
  let x := gatherX w numChannels nTicks sx sy i j
  let xsq := gatherXsq w numChannels nTicks sx sy i j
  let localMean := fdiv (accumulate x) (x.length : α)
  let localSquare := fdiv (accumulate xsq) (x.length : α)
  let localMedian := computeMedian x
  let localVar := localMean.bind fun m => localSquare.bind fun s =>
    some (s - 2 * m * localMedian + m ^ 2)
  (localMedian, localVar)

/-- State of the first pass of `MMWFStar<T>`: `localMedians`, `localVars` and
`localVarTemp`. -/
structure StarState (α : Type) where
  localMedians : List (List (Option α))
  localVars : List (List (Option α))
  localVarTemp : List (Option α)

/-- The state before the first pass of `MMWFStar<T>` (lines 234-248): `localMedians` and
`localVars` resized to the shape of the input, `localVarTemp` empty. -/
def starInit (numChannels nTicks : Nat) : StarState α :=
  { localMedians := resizeOutput [] numChannels nTicks
    localVars := resizeOutput [] numChannels nTicks
    localVarTemp := [] }

/-- The first pair of nested loops of `MMWFStar<T>` (lines 250-279). -/
def starPass1 (computeMedian : List α → α) (w : List (List α))
    (numChannels nTicks sx sy : Nat) (init : StarState α) : StarState α :=
  (List.range numChannels).foldl
    (fun st i => (List.range nTicks).foldl
      (fun st j =>
        let s := starStats computeMedian w numChannels nTicks sx sy i j
        { localMedians := set2 st.localMedians i j (some s.1)
          localVarTemp := st.localVarTemp ++ [s.2]
          localVars := set2 st.localVars i j s.2 }) st) init

/-- The call `utils.computeMedian(localVarTemp)` (line 281).  The median of a
sequence holding a non-finite value is taken to be non-finite; the output does not
depend on this choice, since a non-finite `localVars[i][j]` makes the blend of
cell `(i, j)` non-finite whatever the noise estimate is. -/
def medianOfValues (computeMedian : List α → α) (vals : List (Option α)) : Option α :=
  if vals.all Option.isSome then some (computeMedian (vals.filterMap id)) else none

/-- The value the second pass of `MMWFStar<T>` stores in `deconvolvedWaveform[i][j]`
(lines 286-291). -/
def starCell (w : List (List α)) (st : StarState α) (noiseMedian : Option α)
    (i j : Nat) : Option α :=
  noiseMedian.bind fun nm =>
  ((st.localVars.getD i []).getD j none).bind fun v =>
  ((st.localMedians.getD i []).getD j none).bind fun med =>
    blend med v nm (at2 w i j)

/-- Template `Deconvolve::MMWFStar<T>` (lines 215-296); the print of the noise
estimate on line 282 is not modelled. -/
def MMWFStar (computeMedian : List α → α) (out : List (List (Option α)))
    (w : List (List α)) (sx sy : Nat) : Except Failure (List (List (Option α))) :=
  match w with
  | [] => Except.error Failure.outOfRange
  | row0 :: _ =>
    let numChannels := w.length
    let nTicks := row0.length
    let out1 := resizeOutput out numChannels nTicks
    let st := starPass1 computeMedian w numChannels nTicks sx sy (starInit numChannels nTicks)
    let noiseMedian := medianOfValues computeMedian st.localVarTemp
    Except.ok (fillCells out1 numChannels nTicks (fun i j => starCell w st noiseMedian i j))

/-- Turns a vector of IEEE values into a vector of finite numbers, if all are finite. -/
def allFinite : List (Option α) → Option (List α)
  | [] => some []
  | none :: _ => none
  | some v :: rest => (allFinite rest).map fun t => v :: t

/-- `float eps = std::pow(epsilon * std::sqrt(noiseVar), 2)` (line 377): the square
root of a negative number is NaN, otherwise the square of the root of `noiseVar`
is `noiseVar`. -/
def enhancedEps (epsilon noiseVar : α) : Option α :=
  if noiseVar < 0 then none else some (epsilon ^ 2 * noiseVar)

/-- `float w = 1.0 / (1.0 + a * std::max(eps, fsq))` with
`fsq = (center - neighbour)^2` (lines 378-379). -/
def enhancedWeight (a eps center neighbour : α) : Option α :=
  let fsq := (center - neighbour) ^ 2
  fdiv 1 (1 + a * max eps fsq)

/-- The vector `weight` after the normalising loop (lines 375-388). -/
def enhancedWeights (w : List (List α)) (numChannels nTicks : Nat) (noiseVar : α)
    (sx sy : Nat) (a epsilon : α) (i j : Nat) : Option (List α) :=
  let x := gatherX w numChannels nTicks sx sy i j
  (enhancedEps epsilon noiseVar).bind fun eps =>
  (allFinite (x.map fun v => enhancedWeight a eps (at2 w i j) v)).bind fun weight =>
  let normWeight := accumulate weight
  allFinite (weight.map fun wk => fdiv wk normWeight)

/-- The pair `(localMean, localVar)` of `filterLeeEnhanced<T>` for cell `(i, j)`
(lines 361-393). -/
def enhancedStats (w : List (List α)) (numChannels nTicks : Nat) (noiseVar : α)
    (sx sy : Nat) (a epsilon : α) (i j : Nat) : Option (α × α) :=
  let x := gatherX w numChannels nTicks sx sy i j
  let xsq := gatherXsq w numChannels nTicks sx sy i j
  (enhancedWeights w numChannels nTicks noiseVar sx sy a epsilon i j).bind fun weight =>
  (fdiv (inner_product x weight) (x.length : α)).bind fun localMean =>
  (fdiv (inner_product xsq weight) (x.length : α)).bind fun localSquare =>
  let localVar := localSquare - localMean * localMean
  some (localMean, localVar)

/-- The value `filterLeeEnhanced<T>` stores in `deconvolvedWaveform[i][j]`
(lines 361-399). -/
def enhancedCell (w : List (List α)) (numChannels nTicks : Nat) (noiseVar : α)
    (sx sy : Nat) (a epsilon : α) (i j : Nat) : Option α :=
  (enhancedStats w numChannels nTicks noiseVar sx sy a epsilon i j).bind fun s =>
    blend s.1 s.2 noiseVar (at2 w i j)

/-- Template `Deconvolve::filterLeeEnhanced<T>` (lines 338-403). -/
def filterLeeEnhanced (out : List (List (Option α))) (w : List (List α)) (noiseVar : α)
    (sx sy : Nat) (a epsilon : α) : Except Failure (List (List (Option α))) :=
  match w with
  | [] => Except.error Failure.outOfRange
  | row0 :: _ =>
    let numChannels := w.length
    let nTicks := row0.length
    let out1 := resizeOutput out numChannels nTicks
    Except.ok (fillCells out1 numChannels nTicks
      (fun i j => enhancedCell w numChannels nTicks noiseVar sx sy a epsilon i j))

/-- Conversion `float → unsigned int` of a function argument: truncation towards
zero (defined for values in `(-1, 2^32)`, which is all the model covers). -/
def floatToUnsigned [FloorRing α] (v : α) : Nat :=
  Nat.floor v

/-- Conversion `unsigned int → float` of a function argument (exact below `2^24`). -/
def unsignedToFloat (n : Nat) : α :=
  (n : α)

/-- Public overloads `Deconvolve::filterLee(out, in, noiseVar, sx, sy)` (lines 8-39):
each calls `filterLee<T>(deconvolvedWaveform, waveLessCoherent, sx, sy, noiseVar)`,
whose parameters are `(out, in, noiseVar, sx, sy)` in this order (line 41-47 and
`Deconvolve.h` lines 148-154). -/
def filterLeePublic [FloorRing α] (out : List (List (Option α))) (w : List (List α))
    (noiseVar : α) (sx sy : Nat) : Except Failure (List (List (Option α))) :=
  filterLee out w (unsignedToFloat sx) sy (floatToUnsigned noiseVar)

/-- Public overloads `Deconvolve::MMWF(out, in, noiseVar, sx, sy)` (lines 95-126):
each calls `MMWF<T>(deconvolvedWaveform, waveLessCoherent, noiseVar, sx, sy)`. -/
def MMWFPublic (computeMedian : List α → α) (out : List (List (Option α)))
    (w : List (List α)) (noiseVar : α) (sx sy : Nat) :
    Except Failure (List (List (Option α))) :=
  MMWF computeMedian out w noiseVar sx sy

/-- Public overloads `Deconvolve::filterLeeEnhanced(out, in, noiseVar, sx, sy, a, epsilon)`
(lines 299-336): each calls
`filterLeeEnhanced<T>(deconvolvedWaveform, waveLessCoherent, sx, sy, noiseVar, a, epsilon)`,
whose parameters are `(out, in, noiseVar, sx, sy, a, epsilon)` in this order. -/
def filterLeeEnhancedPublic [FloorRing α] (out : List (List (Option α)))
    (w : List (List α)) (noiseVar : α) (sx sy : Nat) (a epsilon : α) :
    Except Failure (List (List (Option α))) :=
  filterLeeEnhanced out w (unsignedToFloat sx) sy (floatToUnsigned noiseVar) a epsilon

/-- The array whose entry `(i, j)` is `cell i j`, with `numChannels` rows of `nTicks`
entries. -/
def table {β : Type} (numChannels nTicks : Nat) (cell : Nat → Nat → β) : List (List β) :=
  (List.range numChannels).map fun i => (List.range nTicks).map fun j => cell i j

/-- The window of cell `(i, j)` in the words of the specification: the in-bounds
index pairs `(ix, iy)` with `max(i - sx/2, 0) ≤ ix < min(i + sx/2, numChannels)` and
`max(j - sy/2, 0) ≤ iy < min(j + sy/2, nTicks)`. -/
def refWindow (numChannels nTicks sx sy i j : Nat) : Finset (Nat × Nat) :=
  (Finset.range numChannels ×ˢ Finset.range nTicks).filter fun p =>
    max ((i : Int) - ((sx / 2 : Nat) : Int)) 0 ≤ (p.1 : Int) ∧
    (p.1 : Int) < min ((i : Int) + ((sx / 2 : Nat) : Int)) (numChannels : Int) ∧
    max ((j : Int) - ((sy / 2 : Nat) : Int)) 0 ≤ (p.2 : Int) ∧
    (p.2 : Int) < min ((j : Int) + ((sy / 2 : Nat) : Int)) (nTicks : Int)

/-- Arithmetic mean of the samples of the window (specification). -/
def refMean (w : List (List α)) (numChannels nTicks sx sy i j : Nat) : α :=
  (∑ p ∈ refWindow numChannels nTicks sx sy i j, at2 w p.1 p.2) /
    ((refWindow numChannels nTicks sx sy i j).card : α)

/-- Mean of the squared samples of the window (specification). -/
def refSecondMoment (w : List (List α)) (numChannels nTicks sx sy i j : Nat) : α :=
  (∑ p ∈ refWindow numChannels nTicks sx sy i j, at2 w p.1 p.2 ^ 2) /
    ((refWindow numChannels nTicks sx sy i j).card : α)

/-- Local variance `V = (mean of squares) - F^2` (specification). -/
def refVar (w : List (List α)) (numChannels nTicks sx sy i j : Nat) : α :=
  refSecondMoment w numChannels nTicks sx sy i j - refMean w numChannels nTicks sx sy i j ^ 2

/-- The blend rule of the specification for flat estimate `F`, variance `V`, noise
variance `s2` and observed sample `obs`: `F` if `s2 > V`, otherwise
`F + (1 - s2 / V) * (obs - F)`, which is not a finite number when `V = 0`. -/
def refBlend (F V s2 obs : α) : Option α :=
  if s2 > V then some F
  else if V = 0 then none
  else some (F + (1 - s2 / V) * (obs - F))

/-- Reference definition of the Lee filter at cell `(i, j)` (specification). -/
def leeReference (w : List (List α)) (numChannels nTicks : Nat) (noiseVar : α)
    (sx sy i j : Nat) : Option α :=
  refBlend (refMean w numChannels nTicks sx sy i j) (refVar w numChannels nTicks sx sy i j)
    noiseVar (at2 w i j)

/-- The 3×3 scenario array of the specification. -/
def scenario3x3 : List (List ℚ) := [[1, 1, 1], [1, 10, 1], [1, 1, 1]]

/-- A 2×2 array with four different samples. -/
def ramp2x2 : List (List ℚ) := [[1, 2], [3, 4]]

/-- A 2×2 array of identical samples. -/
def flat2x2 : List (List ℚ) := [[3, 3], [3, 3]]

/-- A median for concrete evaluations: the upper middle element of the sorted sequence. -/
def upperMedian (l : List ℚ) : ℚ :=
  (l.mergeSort (fun a b => decide (a ≤ b))).getD (l.length / 2) 0

/-- A 1×1 array. -/
def single1x1 : List (List ℚ) := [[5]]

/-- The surrogate `S = secondMoment - 2 * mean * median + mean^2` of the window of cell
`(i, j)` (specification), the median being `computeMedian` of the gathered samples. -/
def starSurrogate (computeMedian : List α → α) (w : List (List α))
    (numChannels nTicks sx sy i j : Nat) : α :=
  refSecondMoment w numChannels nTicks sx sy i j
    - 2 * refMean w numChannels nTicks sx sy i j *
      computeMedian (gatherX w numChannels nTicks sx sy i j)
    + refMean w numChannels nTicks sx sy i j ^ 2

/-- The noise variance of `MMWFStar` (specification): `computeMedian` of the surrogates of
all `numChannels * nTicks` cells, taken row by row. -/
def starNoiseReference (computeMedian : List α → α) (w : List (List α))
    (numChannels nTicks sx sy : Nat) : α :=
  computeMedian ((List.range numChannels).flatMap fun i =>
    (List.range nTicks).map fun j => starSurrogate computeMedian w numChannels nTicks sx sy i j)

/-- Reference definition of `MMWFStar` at cell `(i, j)` (specification): the blend rule with
flat estimate the local median, variance the surrogate of the cell and noise variance the
array-wide median of the surrogates. -/
def starReference (computeMedian : List α → α) (w : List (List α))
    (numChannels nTicks sx sy i j : Nat) : Option α :=
  refBlend (computeMedian (gatherX w numChannels nTicks sx sy i j))
    (starSurrogate computeMedian w numChannels nTicks sx sy i j)
    (starNoiseReference computeMedian w numChannels nTicks sx sy) (at2 w i j)

/-- Reference definition of `MMWF` at cell `(i, j)` (specification): the blend rule with flat
estimate `computeMedian` of the gathered samples and the local variance of the Lee filter. -/
def mmwfReference (computeMedian : List α → α) (w : List (List α)) (numChannels nTicks : Nat)
    (noiseVar : α) (sx sy i j : Nat) : Option α :=
  refBlend (computeMedian (gatherX w numChannels nTicks sx sy i j))
    (refVar w numChannels nTicks sx sy i j) noiseVar (at2 w i j)

/-- How a call leaves a reference argument: its content `args` after the call, and the
exception the call was left by, if any. -/
structure Outcome (ε σ : Type) where
  args : σ
  thrown : Option ε

/-- The outcome of a call of a filter template for the argument `deconvolvedWaveform`, whose
content before the call is `out`.  The one statement that throws, `waveLessCoherent.at(0)`
(lines 50, 137, 223, 349), precedes the first statement that touches the argument (lines
54, 141, 227, 353), which therefore keeps its content when the call is left by the
exception. -/
def filterOutcome (out : List (List (Option α)))
    (r : Except Failure (List (List (Option α)))) : Outcome Failure (List (List (Option α))) :=
  match r with
  | Except.ok res => { args := res, thrown := none }
  | Except.error e => { args := out, thrown := some e }

/-- An array has `numChannels` rows of `nTicks` entries each. -/
def HasShape {β : Type} (res : List (List β)) (numChannels nTicks : Nat) : Prop :=
  res.length = numChannels ∧ ∀ row ∈ res, row.length = nTicks

/-! ### `ICARUSFFT<T>` (`src/icarussigproc/ICARUSFFT.h`) -/

/-- `std::complex<T>`. -/
structure Cpx (α : Type) where
  re : α
  im : α
  deriving DecidableEq, Repr

/-- `std::complex<T>(0., 0.)`. -/
def Cpx.zero : Cpx α :=
  { re := 0, im := 0 }

/-- `std::conj`. -/
def Cpx.conj (z : Cpx α) : Cpx α :=
  { re := z.re, im := -z.im }

/-- `std::multiplies<std::complex<T>>`. -/
def Cpx.mul (z k : Cpx α) : Cpx α :=
  { re := z.re * k.re - z.im * k.im, im := z.re * k.im + z.im * k.re }

/-- The two `std::runtime_error`s of `ICARUSFFT` (lines 86 and 122, line 105). -/
inductive FFTFailure where
  | timeVectorSize
  | frequencyVectorSize
  deriving DecidableEq, Repr

/-- An engine `ICARUSFFT<T>` constructed with `numTimeSamples` (lines 59-70): both local
vectors have this size.  `r2c` and `c2r` are what the library calls
`fftw_execute_dft_r2c(fForwardPlan, in, out)` and `fftw_execute_dft_c2r(fInversePlan, in, out)`
store in `out`: `numTimeSamples / 2 + 1` bins computed from `numTimeSamples` samples, and
`numTimeSamples` samples computed from the first `numTimeSamples / 2 + 1` bins of `in`.  The
library is not part of the sources: both are parameters. -/
structure ICARUSFFT (α : Type) where
  numTimeSamples : Nat
  r2c : List α → List (Cpx α)
  c2r : List (Cpx α) → List α

/-- What the library documents of its two transforms for a plan of size `n`: the sizes of
their outputs, and that the backward transform of the forward transform is the input
multiplied by `n` (the transforms are not normalised). -/
def FFTWContract (E : ICARUSFFT α) : Prop :=
  (∀ x : List α, x.length = E.numTimeSamples →
    (E.r2c x).length = E.numTimeSamples / 2 + 1) ∧
  (∀ f : List (Cpx α), f.length = E.numTimeSamples / 2 + 1 →
    (E.c2r f).length = E.numTimeSamples) ∧
  (∀ x : List α, x.length = E.numTimeSamples →
    E.c2r (E.r2c x) = x.map fun v => (E.numTimeSamples : α) * v)

/-- Storing the values `p` through `v.data()`: they replace the first entries of `v`. -/
def writeData {β : Type} (v p : List β) : List β :=
  p.take v.length ++ v.drop p.length

/-- `ICARUSFFT<T>::forwardFFT(timeVec, frequencyVec)` (lines 83-100): the outcome for the
argument `frequencyVec` (`timeVec` is only read). -/
def ICARUSFFT.forwardFFT (E : ICARUSFFT α) (timeVec : List α) (frequencyVec : List (Cpx α)) :
    Outcome FFTFailure (List (Cpx α)) :=
  if timeVec.length ≠ E.numTimeSamples then
    { args := frequencyVec, thrown := some FFTFailure.timeVectorSize }
  else
    let resized := resize frequencyVec timeVec.length Cpx.zero
    let transformed := writeData resized (E.r2c timeVec)
    let vecSize := timeVec.length
    let nyquistBin := vecSize / 2 + 1
    let reflected := (List.range' nyquistBin (timeVec.length - nyquistBin)).foldl
      (fun f idx => f.set idx (Cpx.conj (f.getD (vecSize - idx) Cpx.zero))) transformed
    { args := reflected, thrown := none }

/-- `ICARUSFFT<T>::inverseFFT(frequencyVec, timeVec)` (lines 102-117): the outcome for the
argument `timeVec` (`frequencyVec` is only read: the plan preserves its input). -/
def ICARUSFFT.inverseFFT (E : ICARUSFFT α) (frequencyVec : List (Cpx α)) (timeVec : List α) :
    Outcome FFTFailure (List α) :=
  if frequencyVec.length < E.numTimeSamples then
    { args := timeVec, thrown := some FFTFailure.frequencyVectorSize }
  else
    let resized := resize timeVec frequencyVec.length 0
    let transformed := writeData resized
      (E.c2r (frequencyVec.take (E.numTimeSamples / 2 + 1)))
    let normFactor : α := 1 / (transformed.length : α)
    { args := transformed.map fun v => normFactor * v, thrown := none }

/-- `std::transform(frequencyVec.begin(), frequencyVec.end(), kernel.begin(),
frequencyVec.begin(), std::multiplies<std::complex<T>>())` (line 131).  The default stands
for the undefined value read from a kernel shorter than the frequency vector. -/
def multiplyByKernel (frequencyVec kernel : List (Cpx α)) : List (Cpx α) :=
  (List.range frequencyVec.length).map fun idx =>
    Cpx.mul (frequencyVec.getD idx Cpx.zero) (kernel.getD idx Cpx.zero)

/-- The private `ICARUSFFT<T>::convolute(timeVec, kernel)` (lines 119-137): the outcome for
the argument `timeVec`. -/
def ICARUSFFT.convoluteCommon (E : ICARUSFFT α) (timeVec : List α) (kernel : List (Cpx α)) :
    Outcome FFTFailure (List α) :=
  if timeVec.length ≠ E.numTimeSamples then
    { args := timeVec, thrown := some FFTFailure.timeVectorSize }
  else
    let frequencyVec := List.replicate timeVec.length (Cpx.zero : Cpx α)
    match E.forwardFFT timeVec frequencyVec with
    | { args := _, thrown := some e } => { args := timeVec, thrown := some e }
    | { args := transformed, thrown := none } =>
      E.inverseFFT (multiplyByKernel transformed kernel) timeVec

/-- The rotation of `ICARUSFFT<T>::convolute` (lines 145-158); `timeOffset` is assumed to
lie in `[-timeVec.size(), timeVec.size()]`, the iterator ranges being undefined otherwise. -/
def rotateConvolute (timeVec : List α) (timeOffset : Int) : List α :=
  if timeOffset ≤ 0 then
    let temp := timeVec.take (-timeOffset).toNat
    let erased := timeVec.drop (-timeOffset).toNat
    erased ++ temp
  else
    let temp := timeVec.drop (timeVec.length - timeOffset.toNat)
    let erased := timeVec.take (timeVec.length - timeOffset.toNat)
    temp ++ erased

/-- The rotation of `ICARUSFFT<T>::deconvolute` (lines 169-182); `timeOffset` is assumed to
lie in `[-timeVec.size(), timeVec.size()]`. -/
def rotateDeconvolute (timeVec : List α) (timeOffset : Int) : List α :=
  if timeOffset ≤ 0 then
    let temp := timeVec.drop (timeVec.length - (-timeOffset).toNat)
    let erased := timeVec.take (timeVec.length - (-timeOffset).toNat)
    temp ++ erased
  else
    let temp := timeVec.take timeOffset.toNat
    let erased := timeVec.drop timeOffset.toNat
    erased ++ temp

/-- `ICARUSFFT<T>::convolute(timeVec, kernel, timeOffset)` (lines 139-161): the outcome for
the argument `timeVec`. -/
def ICARUSFFT.convolute (E : ICARUSFFT α) (timeVec : List α) (kernel : List (Cpx α))
    (timeOffset : Int) : Outcome FFTFailure (List α) :=
  match E.convoluteCommon timeVec kernel with
  | { args := left, thrown := some e } => { args := left, thrown := some e }
  | { args := convolved, thrown := none } =>
    { args := rotateConvolute convolved timeOffset, thrown := none }

/-- `ICARUSFFT<T>::deconvolute(timeVec, kernel, timeOffset)` (lines 163-185): the outcome for
the argument `timeVec`. -/
def ICARUSFFT.deconvolute (E : ICARUSFFT α) (timeVec : List α) (kernel : List (Cpx α))
    (timeOffset : Int) : Outcome FFTFailure (List α) :=
  match E.convoluteCommon timeVec kernel with
  | { args := left, thrown := some e } => { args := left, thrown := some e }
  | { args := convolved, thrown := none } =>
    { args := rotateDeconvolute convolved timeOffset, thrown := none }

/-- `ICARUSFFT<T>::getFFTPower(inputVec, outputPowerVec)` (lines 187-206): the outcome for
the argument `outputPowerVec` (`inputVec` is a `const` reference).  `cabs` is `std::abs` of
a complex number. -/
def ICARUSFFT.getFFTPower (E : ICARUSFFT α) (cabs : Cpx α → α) (inputVec : List α)
    (outputPowerVec : List α) : Outcome FFTFailure (List α) :=
  let fftOutputVec := List.replicate inputVec.length (Cpx.zero : Cpx α)
  let locInputVec := inputVec
  match E.forwardFFT locInputVec fftOutputVec with
  | { args := _, thrown := some e } => { args := outputPowerVec, thrown := some e }
  | { args := transformed, thrown := none } =>
    let halfFFTDataSize := inputVec.length / 2 + 1
    let resized := resize outputPowerVec halfFFTDataSize 0
    { args := writeData resized ((transformed.take halfFFTDataSize).map cabs), thrown := none }

/-- A concrete engine of size 4 over the rationals: the discrete Fourier transform of four
samples, `X_k = Σ_n x_n (-i)^(k n)` for `k = 0, 1, 2`, and the backward transform of a
half spectrum of three bins. -/
def engine4 : ICARUSFFT ℚ :=
  { numTimeSamples := 4
    r2c := fun x =>
      match x with
      | [a, b, c, d] =>
        [{ re := a + b + c + d, im := 0 }, { re := a - c, im := d - b },
          { re := a - b + c - d, im := 0 }]
      | _ => [Cpx.zero, Cpx.zero, Cpx.zero]
    c2r := fun f =>
      match f with
      | [f0, f1, f2] =>
        [f0.re + f2.re + 2 * f1.re, f0.re - f2.re - 2 * f1.im,
          f0.re + f2.re - 2 * f1.re, f0.re - f2.re + 2 * f1.im]
      | _ => [0, 0, 0, 0] }

/-- The magnitude of a complex number with one vanishing part, for concrete evaluations. -/
def axisAbs (z : Cpx ℚ) : ℚ :=
  |z.re| + |z.im|

/-- The kernel of four bins equal to the complex number 1. -/
def onesKernel4 : List (Cpx ℚ) :=
  List.replicate 4 { re := 1, im := 0 }

/-- The window of cell `(i, j)` before it is clipped to the array: the index pairs between
the bounds `lbx ≤ ix < ubx` and `lby ≤ iy < uby` of lines 62-65, which may lie outside
the array. -/
def unclippedWindow (sx sy i j : Nat) : Finset (Int × Int) :=
  Finset.Ico ((i : Int) - ((sx / 2 : Nat) : Int)) ((i : Int) + ((sx / 2 : Nat) : Int)) ×ˢ
    Finset.Ico ((j : Int) - ((sy / 2 : Nat) : Int)) ((j : Int) + ((sy / 2 : Nat) : Int))

/-- The index pairs the gathering loops of cell `(i, j)` visit, as a set of integer pairs. -/
def gatheredIndices (numChannels nTicks sx sy i j : Nat) : Finset (Int × Int) :=
  (windowIndices numChannels nTicks sx sy i j).toFinset.image
    fun p => ((p.1 : Int), (p.2 : Int))

/-- The vector `weight` of `filterLeeEnhanced<T>` when the gathering loops are left (lines
375-384), before the normalising loop: one weight `w` per gathered sample. -/
def enhancedRawWeights (w : List (List α)) (numChannels nTicks : Nat) (noiseVar : α)
    (sx sy : Nat) (a epsilon : α) (i j : Nat) : Option (List α) :=
  let x := gatherX w numChannels nTicks sx sy i j
  (enhancedEps epsilon noiseVar).bind fun eps =>
    allFinite (x.map fun v => enhancedWeight a eps (at2 w i j) v)

/-! ### The instantiation `T = short` of the window moments -/

/-- Conversion of an `int` value to `short`: the value modulo `2^16` in `[-32768, 32767]`. -/
def toShort (v : Int) : Int :=
  (v + 32768) % 65536 - 32768

/-- Conversion of a `double` in the range of `short` to `short`: truncation towards zero. -/
def doubleToShort (q : ℚ) : Int :=
  if 0 ≤ q then Int.floor q else Int.ceil q

/-- `waveLessCoherent[ix][iy]` for an array of `short`. -/
def at2Short (w : List (List Int)) (ix iy : Nat) : Int :=
  (w.getD ix []).getD iy 0

/-- The vector `x` of `filterLee<short>` (line 76). -/
def gatherXShort (w : List (List Int)) (numChannels nTicks sx sy i j : Nat) : List Int :=
  (windowIndices numChannels nTicks sx sy i j).map fun p => at2Short w p.1 p.2

/-- The vector `xsq` of `filterLee<short>` (lines 72 and 77): the product of two `short`s is
an `int`, which `push_back` converts to the element type `short` of the vector. -/
def gatherXsqShort (w : List (List Int)) (numChannels nTicks sx sy i j : Nat) : List Int :=
  (windowIndices numChannels nTicks sx sy i j).map fun p =>
    toShort (at2Short w p.1 p.2 * at2Short w p.1 p.2)

/-- The variable `localSquare` of `filterLee<short>` (line 81): the sum of `xsq`, accumulated
in `double`, divided by the number of samples and converted to `short`; there is no value
for an empty window. -/
def localSquareShort (w : List (List Int)) (numChannels nTicks sx sy i j : Nat) :
    Option Int :=
  let x := gatherXShort w numChannels nTicks sx sy i j
  let xsq := gatherXsqShort w numChannels nTicks sx sy i j
  if x.length = 0 then none
  else some (doubleToShort (((xsq.foldl (fun acc v => acc + v) 0 : Int) : ℚ) / (x.length : ℚ)))

/-- The mean of the squares of the gathered samples, truncated to an integer. -/
def meanOfSquaresShort (w : List (List Int)) (numChannels nTicks sx sy i j : Nat) :
    Option Int :=
  let x := gatherXShort w numChannels nTicks sx sy i j
  if x.length = 0 then none
  else some (doubleToShort ((((x.map fun v => v * v).sum : Int) : ℚ) / (x.length : ℚ)))

/-- A 2×2 array of `short` samples, all 200. -/
def short2x2 : List (List Int) := [[200, 200], [200, 200]]

/-- The iterator range `temp.assign` copies in the rotation of `convolute` (lines 149 and
155), as offsets from `timeVec.begin()`: `[0, -timeOffset)` for `timeOffset ≤ 0` and
`[size - timeOffset, size)` otherwise. -/
def convoluteSlice (size : Nat) (timeOffset : Int) : Int × Int :=
  if timeOffset ≤ 0 then (0, -timeOffset) else ((size : Int) - timeOffset, (size : Int))

/-- The iterator range `temp.assign` copies in the rotation of `deconvolute` (lines 173 and
179), as offsets from `timeVec.begin()`: `[size + timeOffset, size)` for `timeOffset ≤ 0`
and `[0, timeOffset)` otherwise. -/
def deconvoluteSlice (size : Nat) (timeOffset : Int) : Int × Int :=
  if timeOffset ≤ 0 then ((size : Int) + timeOffset, (size : Int)) else (0, timeOffset)

/-! ### `WaveformParamsAlg` (`src/icarussigproc/WaveformParamsAlg.cxx`) -/

/-- `std::round`: the nearest integer, halves away from zero. -/
def cround [FloorRing α] (x : α) : Int :=
  if 0 ≤ x then Int.floor (x + 1 / 2) else Int.ceil (x - 1 / 2)

/-- What the library documents of `std::sqrt` on the numbers that are not negative; the
function is a parameter of the routines below. -/
def SqrtContract (sqrt : α → α) : Prop :=
  ∀ x : α, 0 ≤ x → 0 ≤ sqrt x ∧ sqrt x * sqrt x = x

/-- `std::max(0., q)`, that is `(0. < q) ? q : 0.`, of a quotient `q`.  The non-finite
quotient met in these routines is the NaN of `0. / 0`, for which the comparison is false. -/
def zeroMax (q : Option α) : α :=
  match q with
  | none => 0
  | some v => max 0 v

/-- The histogram state of lines 127-129: `frequencyVec`, `mpCount`, `mpVal`. -/
structure Histogram where
  frequencyVec : List Int
  mpCount : Int
  mpVal : Int

/-- One iteration of the histogram loop (lines 131-142) for the sample `val`. -/
def histogramStep [FloorRing α] (minVal : Int) (h : Histogram) (val : α) : Histogram :=
  let intVal := cround val - minVal
  let frequencyVec :=
    h.frequencyVec.set intVal.toNat (h.frequencyVec.getD intVal.toNat 0 + 1)
  if frequencyVec.getD intVal.toNat 0 > h.mpCount then
    { frequencyVec := frequencyVec, mpCount := frequencyVec.getD intVal.toNat 0,
      mpVal := intVal }
  else
    { frequencyVec := frequencyVec, mpCount := h.mpCount, mpVal := h.mpVal }

/-- One iteration of the averaging loop (lines 149-155) for the bin `idx`, on the pair
`(meanSum, meanCnt)`. -/
def meanStep (minVal range : Int) (frequencyVec : List Int) (acc : Int × Int) (idx : Int) :
    Int × Int :=
  if idx < 0 ∨ idx ≥ range then acc
  else
    (acc.1 + (idx + minVal) * frequencyVec.getD idx.toNat 0,
      acc.2 + frequencyVec.getD idx.toNat 0)

/-- The pair `(meanSum, meanCnt)` of lines 121-155 (the same as lines 61-95) for a waveform
with first sample `first` and further samples `rest`. -/
def meanSums [FloorRing α] (first : α) (rest : List α) : Int × Int :=
  let minVal := Int.floor (rest.foldl min first)
  let maxVal := Int.ceil (rest.foldl max first)
  let range := maxVal - minVal + 1
  let h := (first :: rest).foldl (histogramStep minVal)
    { frequencyVec := List.replicate range.toNat 0, mpCount := 0, mpVal := 0 }
  let binRange := min 16 (range / 2 + 1)
  (List.range (2 * binRange + 1).toNat).foldl
    (fun (acc : Int × Int) (k : Nat) =>
      meanStep minVal range h.frequencyVec acc (h.mpVal - binRange + (k : Int)))
    (0, 0)

/-- The value `aveVal = float(meanSum) / float(meanCnt)` of line 157 (and of line 97); there
is no value for an empty waveform, whose iterators line 123 must not dereference. -/
def mostProbableMean [FloorRing α] (rawWaveform : List α) : Option α :=
  match rawWaveform with
  | [] => none
  | first :: rest => fdiv (((meanSums first rest).1 : Int) : α) (((meanSums first rest).2 : Int) : α)

/-- What `getMeanAndTruncRms` leaves in its five reference arguments. -/
structure TruncRms (α : Type) where
  rawWaveform : List α
  aveVal : α
  rmsVal : α
  rmsTrunc : α
  numBins : Int

/-- `WaveformParamsAlg::getMeanAndTruncRms` (lines 112-177); `none` when the pedestal is
not a finite number. -/
def getMeanAndTruncRms [FloorRing α] (sqrt : α → α) (rawWaveform : List α) :
    Option (TruncRms α) :=
  (mostProbableMean rawWaveform).bind fun aveVal =>
    let subtracted := rawWaveform.map fun v => v - aveVal
    let adcLessPedVec := subtracted
    let rmsVal := sqrt (zeroMax
      (fdiv (inner_product adcLessPedVec adcLessPedVec) (adcLessPedVec.length : α)))
    let kept := adcLessPedVec.filter fun val => !decide (|val| > 5 / 2 * rmsVal)
    let numBins : Int := (kept.length : Int)
    let rmsTrunc := sqrt (zeroMax (fdiv (inner_product kept kept) ((numBins : Int) : α)))
    some { rawWaveform := subtracted, aveVal := aveVal, rmsVal := rmsVal,
           rmsTrunc := rmsTrunc, numBins := numBins }

/-- The invariant of the histogram loop for `range` bins: the counts are not negative and at
most `mpCount`, and once `mpCount` is positive `mpVal` is a bin holding `mpCount`. -/
def HistogramInvariant (range : Int) (h : Histogram) : Prop :=
  h.frequencyVec.length = range.toNat ∧
  (∀ k, 0 ≤ h.frequencyVec.getD k 0) ∧
  (∀ k, h.frequencyVec.getD k 0 ≤ h.mpCount) ∧
  (0 < h.mpCount → 0 ≤ h.mpVal ∧ h.mpVal < range ∧
    h.frequencyVec.getD h.mpVal.toNat 0 = h.mpCount)

/-! ### `WaveformParamsAlg::getTruncatedRMS` -/

/-- The functor `std::bind(std::minus<short>(), _1, pedestal)` of line 40:
`std::minus<short>::operator()` takes two `short` arguments, so the sample and the pedestal
are both converted to `short` before the subtraction, and the difference is returned as a
`short`. -/
def minusShort (x pedestal : ℚ) : Int :=
  toShort (doubleToShort x - doubleToShort pedestal)

/-- The routine `WaveformParamsAlg::getTruncatedRMS` (WaveformParamsAlg.cxx, lines 29-51) over
exact arithmetic, with the square root as a parameter. The waveform and the pedestal are only
read; the result is the value left in `truncRms`. The sort of line 43 orders by absolute
value; `int minNumBins = 0.6 * rawWaveform.size()` truncates; `std::max(0., q)` is 0 when the
quotient `q` is not a number (`minNumBins = 0`). -/
def getTruncatedRMS (sqrt : ℚ → ℚ) (rawWaveform : List ℚ) (pedestal : ℚ) : ℚ :=
  let adcLessPedVec : List ℚ := rawWaveform.map fun x => ((minusShort x pedestal : Int) : ℚ)
  let sorted := adcLessPedVec.insertionSort fun left right => |left| ≤ |right|
  let minNumBins : Int := Int.floor ((3 / 5 : ℚ) * (rawWaveform.length : ℚ))
  let truncRms :=
    inner_product (sorted.take minNumBins.toNat) (sorted.take minNumBins.toNat)
  sqrt (zeroMax (fdiv truncRms ((minNumBins : Int) : ℚ)))

/-- Reference definition in the words of the specification: the mean of the
`floor(0.6 * n)` smallest values of `(x - pedestal)^2` over the samples `x`, the deviations
being the exact differences. -/
def truncatedMeanSquareReference (rawWaveform : List ℚ) (pedestal : ℚ) : Option ℚ :=
  let squares := (rawWaveform.map fun x => (x - pedestal) ^ 2).insertionSort (· ≤ ·)
  let m : Nat := (Int.floor ((3 / 5 : ℚ) * (rawWaveform.length : ℚ))).toNat
  fdiv (squares.take m).sum (m : ℚ)

end Defs

/-! ## The cell loops -/

theorem foldl_update_range {β : Type} (G : Nat → β → β) (d : β) (k : Nat) (r : List β) :
    ((List.range k).foldl (fun r j => r.set j (G j (r.getD j d))) r).length = r.length ∧
    ∀ t, ((List.range k).foldl (fun r j => r.set j (G j (r.getD j d))) r)[t]? =
      if t < k then (r[t]?).map (G t) else r[t]? := by
  induction k with
  | zero => simp
  | succ k ih =>
    obtain ⟨hlen, hget⟩ := ih
    rw [List.range_succ, List.foldl_append]
    simp only [List.foldl_cons, List.foldl_nil]
    refine ⟨by rw [List.length_set]; exact hlen, fun t => ?_⟩
    rw [List.getElem?_set]
    by_cases htk : k = t
    · subst htk
      simp only [if_true, hlen, lt_add_iff_pos_right, zero_lt_one]
      rw [List.getD_eq_getElem?_getD, hget k]
      simp only [lt_self_iff_false, if_false]
      by_cases hk : k < r.length
      · simp [hk, List.getElem?_eq_getElem hk]
      · simp [hk, List.getElem?_eq_none (not_lt.mp hk)]
    · simp only [htk, if_false]
      rw [hget t]
      by_cases h1 : t < k
      · simp [h1, Nat.lt_succ_of_lt h1]
      · have : ¬ t < k + 1 := by omega
        simp [h1, this]

/-- Filling a row of length `m` entry by entry gives the row of the new entries. -/
theorem fillRow_eq {β : Type} (c : Nat → β) (m : Nat) (row : List β) (hrow : row.length = m) :
    (List.range m).foldl (fun r j => r.set j (c j)) row = (List.range m).map c := by
  have h := foldl_update_range (fun j _ => c j) (c 0) m row
  apply List.ext_getElem?
  intro t
  rw [h.2 t]
  by_cases ht : t < m
  · have ht2 : t < row.length := by omega
    simp [ht, List.getElem?_eq_getElem ht2]
  · have ht2 : row.length ≤ t := by omega
    have ht3 : (List.range m)[t]? = none := List.getElem?_eq_none (by simp; omega)
    simp [ht, List.getElem?_eq_none ht2, ht3]

theorem fillCells_inner {β : Type} (c : Nat → β) (i k : Nat) (o : List (List β)) :
    (List.range k).foldl (fun o j => set2 o i j (c j)) o =
      o.set i ((List.range k).foldl (fun r j => r.set j (c j)) (o.getD i [])) := by
  induction k with
  | zero =>
    simp only [List.range_zero, List.foldl_nil]
    apply List.ext_getElem?
    intro t
    rw [List.getElem?_set]
    by_cases hit : i = t
    · subst hit
      by_cases hi : i < o.length
      · simp [hi, List.getD_eq_getElem?_getD, List.getElem?_eq_getElem hi]
      · simp [hi, List.getElem?_eq_none (not_lt.mp hi)]
    · simp [hit]
  | succ k ih =>
    rw [List.range_succ, List.foldl_append, List.foldl_append, ih]
    simp only [List.foldl_cons, List.foldl_nil, set2]
    by_cases hi : i < o.length
    · rw [List.set_set]
      congr 1
      simp [List.getD_eq_getElem?_getD, List.getElem?_set, hi]
    · have h1 : ∀ (v : List β), o.set i v = o := fun v =>
        List.set_eq_of_length_le (not_lt.mp hi)
      rw [h1, h1, h1]

theorem fillCells_eq_table {β : Type} (out : List (List β)) (n m : Nat) (cell : Nat → Nat → β)
    (hlen : out.length = n) (hrows : ∀ row ∈ out, row.length = m) :
    fillCells out n m cell = table n m cell := by
  unfold fillCells
  have hfun : (fun (o : List (List β)) (i : Nat) =>
      (List.range m).foldl (fun o j => set2 o i j (cell i j)) o) =
      (fun o i => o.set i ((fun i row => (List.range m).foldl (fun r j => r.set j (cell i j)) row)
        i (o.getD i []))) := by
    funext o i
    exact fillCells_inner (cell i) i m o
  rw [hfun]
  have h := foldl_update_range
    (fun i row => (List.range m).foldl (fun r j => r.set j (cell i j)) row) [] n out
  apply List.ext_getElem?
  intro t
  rw [h.2 t]
  by_cases ht : t < n
  · have ht2 : t < out.length := by omega
    have hr : (out[t]).length = m := hrows _ (List.getElem_mem ht2)
    simp [ht, table, List.getElem?_eq_getElem ht2, fillRow_eq (cell t) m _ hr]
  · have ht2 : out.length ≤ t := by omega
    have ht3 : (List.range n)[t]? = none := List.getElem?_eq_none (by simp; omega)
    simp only [ht, table, List.getElem?_eq_none ht2, List.getElem?_map, ht3]
    simp

section Structure

variable {α : Type} [LinearOrderedField α]

theorem length_resize {β : Type} (v : List β) (n : Nat) (d : β) :
    (resize v n d).length = n := by
  simp only [resize, List.length_append, List.length_take, List.length_replicate]
  omega

theorem resizeOutput_length (out : List (List (Option α))) (n m : Nat) :
    (resizeOutput out n m).length = n := by
  simp [resizeOutput, length_resize]

theorem resizeOutput_rows (out : List (List (Option α))) (n m : Nat) :
    ∀ row ∈ resizeOutput out n m, row.length = m := by
  intro row hrow
  simp only [resizeOutput, List.mem_map] at hrow
  obtain ⟨r, _, rfl⟩ := hrow
  exact length_resize r m _

/-- On a non-empty input whose first row has `nTicks` entries, `filterLee<T>` returns
and its output is the table of the cell values. -/
theorem filterLee_eq_table (out : List (List (Option α))) (w : List (List α)) (noiseVar : α)
    (sx sy nTicks : Nat) (hne : w ≠ []) (hrect : ∀ r ∈ w, r.length = nTicks) :
    filterLee out w noiseVar sx sy = Except.ok (table w.length nTicks
      (fun i j => leeCell w w.length nTicks noiseVar sx sy i j)) := by
  cases w with
  | nil => exact absurd rfl hne
  | cons row0 rest =>
    have h0 : row0.length = nTicks := hrect row0 (List.mem_cons_self _ _)
    simp only [filterLee, h0]
    rw [fillCells_eq_table _ _ _ _ (resizeOutput_length _ _ _) (resizeOutput_rows _ _ _)]

end Structure

section Window

variable {α : Type} [LinearOrderedField α]

theorem mem_windowIndices (n m sx sy i j : Nat) (p : Nat × Nat) :
    p ∈ windowIndices n m sx sy i j ↔ p ∈ refWindow n m sx sy i j := by
  obtain ⟨a, b⟩ := p
  simp only [windowIndices, refWindow, lowerBound, upperBound, List.mem_flatMap, List.mem_map,
    List.mem_range', Finset.mem_filter, Finset.mem_product, Finset.mem_range, Prod.mk.injEq]
  constructor
  · rintro ⟨ix, ⟨k, hk, rfl⟩, iy, ⟨l, hl, rfl⟩, rfl, rfl⟩
    omega
  · rintro ⟨⟨ha, hb⟩, h1, h2, h3, h4⟩
    refine ⟨a, ⟨a - (max ((i : Int) - ((sx / 2 : Nat) : Int)) 0).toNat, ?_, ?_⟩,
      b, ⟨b - (max ((j : Int) - ((sy / 2 : Nat) : Int)) 0).toNat, ?_, ?_⟩, rfl, rfl⟩ <;> omega

theorem nodup_windowIndices (n m sx sy i j : Nat) : (windowIndices n m sx sy i j).Nodup := by
  unfold windowIndices
  exact List.Nodup.product (List.nodup_range' _ _) (List.nodup_range' _ _)

theorem windowIndices_toFinset (n m sx sy i j : Nat) :
    (windowIndices n m sx sy i j).toFinset = refWindow n m sx sy i j := by
  ext p
  rw [List.mem_toFinset, mem_windowIndices]

theorem accumulate_eq_sum (x : List α) : accumulate x = x.sum := by
  unfold accumulate
  rw [List.sum_eq_foldl]

theorem self_mem_refWindow (n m sx sy i j : Nat) (hi : i < n) (hj : j < m)
    (hsx : 2 ≤ sx) (hsy : 2 ≤ sy) : (i, j) ∈ refWindow n m sx sy i j := by
  simp only [refWindow, Finset.mem_filter, Finset.mem_product, Finset.mem_range]
  omega

end Window

section LeeReference

variable {α : Type} [LinearOrderedField α]

theorem table_congr {β : Type} (n m : Nat) (f g : Nat → Nat → β)
    (h : ∀ i, i < n → ∀ j, j < m → f i j = g i j) : table n m f = table n m g := by
  unfold table
  apply List.map_congr_left
  intro i hi
  apply List.map_congr_left
  intro j hj
  exact h i (List.mem_range.mp hi) j (List.mem_range.mp hj)

theorem accumulate_gatherX (w : List (List α)) (n m sx sy i j : Nat) :
    accumulate (gatherX w n m sx sy i j) = ∑ p ∈ refWindow n m sx sy i j, at2 w p.1 p.2 := by
  rw [accumulate_eq_sum, gatherX, ← windowIndices_toFinset,
    List.sum_toFinset _ (nodup_windowIndices n m sx sy i j)]

theorem accumulate_gatherXsq (w : List (List α)) (n m sx sy i j : Nat) :
    accumulate (gatherXsq w n m sx sy i j) =
      ∑ p ∈ refWindow n m sx sy i j, at2 w p.1 p.2 ^ 2 := by
  rw [accumulate_eq_sum, gatherXsq, ← windowIndices_toFinset,
    List.sum_toFinset _ (nodup_windowIndices n m sx sy i j)]
  simp only [pow_two]

theorem length_gatherX (w : List (List α)) (n m sx sy i j : Nat) :
    (gatherX w n m sx sy i j).length = (refWindow n m sx sy i j).card := by
  rw [gatherX, List.length_map, ← windowIndices_toFinset,
    List.toFinset_card_of_nodup (nodup_windowIndices n m sx sy i j)]

theorem card_refWindow_ne_zero (n m sx sy i j : Nat) (hi : i < n) (hj : j < m)
    (hsx : 2 ≤ sx) (hsy : 2 ≤ sy) : ((refWindow n m sx sy i j).card : α) ≠ 0 := by
  have h := Finset.card_pos.mpr ⟨(i, j), self_mem_refWindow n m sx sy i j hi hj hsx hsy⟩
  exact_mod_cast h.ne'

theorem fdiv_of_ne_zero (a b : α) (hb : b ≠ 0) : fdiv a b = some (a / b) := by
  simp [fdiv, hb]

theorem leeStats_eq_ref (w : List (List α)) (n m sx sy i j : Nat) (hi : i < n) (hj : j < m)
    (hsx : 2 ≤ sx) (hsy : 2 ≤ sy) :
    leeStats w n m sx sy i j = some (refMean w n m sx sy i j, refVar w n m sx sy i j) := by
  have hc := card_refWindow_ne_zero (α := α) n m sx sy i j hi hj hsx hsy
  simp only [leeStats, accumulate_gatherX, accumulate_gatherXsq, length_gatherX,
    fdiv_of_ne_zero _ _ hc, Option.some_bind, refMean, refVar, refSecondMoment, pow_two]

theorem blend_eq_refBlend (F V s2 obs : α) : blend F V s2 obs = refBlend F V s2 obs := by
  unfold blend refBlend fdiv
  by_cases h : s2 > V
  · simp [h]
  · by_cases hV : V = 0
    · simp [h, hV]
    · simp [h, hV]

theorem leeCell_eq_reference (w : List (List α)) (n m : Nat) (noiseVar : α) (sx sy i j : Nat)
    (hi : i < n) (hj : j < m) (hsx : 2 ≤ sx) (hsy : 2 ≤ sy) :
    leeCell w n m noiseVar sx sy i j = leeReference w n m noiseVar sx sy i j := by
  simp only [leeCell, leeStats_eq_ref w n m sx sy i j hi hj hsx hsy, Option.some_bind,
    blend_eq_refBlend, leeReference]

/-- C1: on every rectangular array with at least one channel, for every noise variance
and every window `sx, sy ≥ 2`, `filterLee<T>` returns, and its output holds at every cell
`(i, j)` the reference value: `F` if `s2 > V`, otherwise `F + (1 - s2 / V) * (in[i][j] - F)`,
with `F` the arithmetic mean and `V` the mean of squares minus `F^2` over exactly the
samples with `max(i - sx/2, 0) ≤ ix < min(i + sx/2, numChannels)` and
`max(j - sy/2, 0) ≤ iy < min(j + sy/2, nTicks)`. -/
theorem filterLee_reference (out : List (List (Option α))) (w : List (List α)) (noiseVar : α)
    (sx sy nTicks : Nat) (hne : w ≠ []) (hrect : ∀ r ∈ w, r.length = nTicks)
    (hsx : 2 ≤ sx) (hsy : 2 ≤ sy) :
    filterLee out w noiseVar sx sy = Except.ok (table w.length nTicks
      (fun i j => leeReference w w.length nTicks noiseVar sx sy i j)) := by
  rw [filterLee_eq_table out w noiseVar sx sy nTicks hne hrect]
  congr 1
  apply table_congr
  intro i hi j hj
  exact leeCell_eq_reference w w.length nTicks noiseVar sx sy i j hi hj hsx hsy

end LeeReference

section Blend

variable {α : Type} [LinearOrderedField α]

theorem refVar_nonneg (w : List (List α)) (n m sx sy i j : Nat) :
    0 ≤ refVar w n m sx sy i j := by
  unfold refVar refSecondMoment refMean
  rcases Nat.eq_zero_or_pos (refWindow n m sx sy i j).card with h0 | hpos
  · simp [h0]
  · have hc : (0 : α) < ((refWindow n m sx sy i j).card : α) := by exact_mod_cast hpos
    have hcs := sq_sum_le_card_mul_sum_sq (s := refWindow n m sx sy i j)
      (f := fun p => at2 w p.1 p.2)
    rw [sub_nonneg, div_pow, div_le_div_iff₀ (by positivity) hc]
    nlinarith [hcs, hc]

theorem blend_of_gt (F V s2 obs : α) (h : s2 > V) : blend F V s2 obs = some F := by
  simp [blend, h]

theorem refBlend_zero_noise (F V obs : α) (hV : 0 ≤ V) :
    refBlend F V 0 obs = if V = 0 then none else some obs := by
  unfold refBlend
  have h : ¬ (0 > V) := not_lt.mpr hV
  by_cases hV0 : V = 0
  · simp [hV0]
  · simp [h, hV0]

theorem mmwfStats_eq_ref (computeMedian : List α → α) (w : List (List α)) (n m sx sy i j : Nat)
    (hi : i < n) (hj : j < m) (hsx : 2 ≤ sx) (hsy : 2 ≤ sy) :
    mmwfStats computeMedian w n m sx sy i j =
      some (computeMedian (gatherX w n m sx sy i j), refVar w n m sx sy i j) := by
  have hc := card_refWindow_ne_zero (α := α) n m sx sy i j hi hj hsx hsy
  simp only [mmwfStats, accumulate_gatherX, accumulate_gatherXsq, length_gatherX,
    fdiv_of_ne_zero _ _ hc, Option.some_bind, refMean, refVar, refSecondMoment, pow_two]

/-- On a non-empty input whose first row has `nTicks` entries, `MMWF<T>` returns and its
output is the table of the cell values. -/
theorem MMWF_eq_table (computeMedian : List α → α) (out : List (List (Option α)))
    (w : List (List α)) (noiseVar : α) (sx sy nTicks : Nat) (hne : w ≠ [])
    (hrect : ∀ r ∈ w, r.length = nTicks) :
    MMWF computeMedian out w noiseVar sx sy = Except.ok (table w.length nTicks
      (fun i j => mmwfCell computeMedian w w.length nTicks noiseVar sx sy i j)) := by
  cases w with
  | nil => exact absurd rfl hne
  | cons row0 rest =>
    have h0 : row0.length = nTicks := hrect row0 (List.mem_cons_self _ _)
    simp only [MMWF, h0]
    rw [fillCells_eq_table _ _ _ _ (resizeOutput_length _ _ _) (resizeOutput_rows _ _ _)]

/-- On a non-empty input whose first row has `nTicks` entries, `filterLeeEnhanced<T>`
returns and its output is the table of the cell values. -/
theorem filterLeeEnhanced_eq_table (out : List (List (Option α))) (w : List (List α))
    (noiseVar : α) (sx sy : Nat) (a epsilon : α) (nTicks : Nat) (hne : w ≠ [])
    (hrect : ∀ r ∈ w, r.length = nTicks) :
    filterLeeEnhanced out w noiseVar sx sy a epsilon = Except.ok (table w.length nTicks
      (fun i j => enhancedCell w w.length nTicks noiseVar sx sy a epsilon i j)) := by
  cases w with
  | nil => exact absurd rfl hne
  | cons row0 rest =>
    have h0 : row0.length = nTicks := hrect row0 (List.mem_cons_self _ _)
    simp only [filterLeeEnhanced, h0]
    rw [fillCells_eq_table _ _ _ _ (resizeOutput_length _ _ _) (resizeOutput_rows _ _ _)]

/-- Where the noise variance exceeds the local variance of every cell, `filterLee<T>`
outputs the local mean of every cell. -/
theorem filterLee_flattens (out : List (List (Option α))) (w : List (List α)) (noiseVar : α)
    (sx sy nTicks : Nat) (hne : w ≠ []) (hrect : ∀ r ∈ w, r.length = nTicks)
    (hsx : 2 ≤ sx) (hsy : 2 ≤ sy)
    (hV : ∀ i, i < w.length → ∀ j, j < nTicks → noiseVar > refVar w w.length nTicks sx sy i j) :
    filterLee out w noiseVar sx sy = Except.ok (table w.length nTicks
      (fun i j => some (refMean w w.length nTicks sx sy i j))) := by
  rw [filterLee_eq_table out w noiseVar sx sy nTicks hne hrect]
  congr 1
  apply table_congr
  intro i hi j hj
  simp only [leeCell, leeStats_eq_ref w w.length nTicks sx sy i j hi hj hsx hsy,
    Option.some_bind, blend_of_gt _ _ _ _ (hV i hi j hj)]

/-- Where the noise variance exceeds the local variance of every cell, `MMWF<T>` outputs
the local median of every cell. -/
theorem MMWF_flattens (computeMedian : List α → α) (out : List (List (Option α)))
    (w : List (List α)) (noiseVar : α)
    (sx sy nTicks : Nat) (hne : w ≠ []) (hrect : ∀ r ∈ w, r.length = nTicks)
    (hsx : 2 ≤ sx) (hsy : 2 ≤ sy)
    (hV : ∀ i, i < w.length → ∀ j, j < nTicks → noiseVar > refVar w w.length nTicks sx sy i j) :
    MMWF computeMedian out w noiseVar sx sy = Except.ok (table w.length nTicks
      (fun i j => some (computeMedian (gatherX w w.length nTicks sx sy i j)))) := by
  rw [MMWF_eq_table computeMedian out w noiseVar sx sy nTicks hne hrect]
  congr 1
  apply table_congr
  intro i hi j hj
  simp only [mmwfCell, mmwfStats_eq_ref computeMedian w w.length nTicks sx sy i j hi hj hsx hsy,
    Option.some_bind, blend_of_gt _ _ _ _ (hV i hi j hj)]

end Blend

section Star

variable {α : Type} [LinearOrderedField α]

theorem table_getD {β : Type} (n m : Nat) (f : Nat → Nat → β) (d : β) (i j : Nat)
    (hi : i < n) (hj : j < m) : ((table n m f).getD i []).getD j d = f i j := by
  simp [table, List.getD_eq_getElem?_getD, hi, hj]

theorem starPass1_inner (computeMedian : List α → α) (w : List (List α))
    (n m sx sy i : Nat) (js : List Nat) (st : StarState α) :
    js.foldl (fun st j =>
        ({ localMedians := set2 st.localMedians i j
              (some (starStats computeMedian w n m sx sy i j).1)
           localVarTemp := st.localVarTemp ++ [(starStats computeMedian w n m sx sy i j).2]
           localVars := set2 st.localVars i j (starStats computeMedian w n m sx sy i j).2 } :
          StarState α)) st =
      { localMedians := js.foldl (fun o j => set2 o i j
            (some (starStats computeMedian w n m sx sy i j).1)) st.localMedians
        localVars := js.foldl (fun o j => set2 o i j
            (starStats computeMedian w n m sx sy i j).2) st.localVars
        localVarTemp := st.localVarTemp ++
          js.map (fun j => (starStats computeMedian w n m sx sy i j).2) } := by
  induction js generalizing st with
  | nil => simp
  | cons j js ih => simp [List.foldl_cons, ih]

theorem starPass1_outer (computeMedian : List α → α) (w : List (List α))
    (n m sx sy : Nat) (is js : List Nat) (st : StarState α) :
    is.foldl (fun st i => js.foldl (fun st j =>
        ({ localMedians := set2 st.localMedians i j
              (some (starStats computeMedian w n m sx sy i j).1)
           localVarTemp := st.localVarTemp ++ [(starStats computeMedian w n m sx sy i j).2]
           localVars := set2 st.localVars i j (starStats computeMedian w n m sx sy i j).2 } :
          StarState α)) st) st =
      { localMedians := is.foldl (fun o i => js.foldl (fun o j => set2 o i j
            (some (starStats computeMedian w n m sx sy i j).1)) o) st.localMedians
        localVars := is.foldl (fun o i => js.foldl (fun o j => set2 o i j
            (starStats computeMedian w n m sx sy i j).2) o) st.localVars
        localVarTemp := st.localVarTemp ++
          is.flatMap (fun i => js.map (fun j => (starStats computeMedian w n m sx sy i j).2)) } := by
  induction is generalizing st with
  | nil => simp
  | cons i is ih =>
    rw [List.foldl_cons, starPass1_inner, ih]
    simp [List.foldl_cons, List.flatMap_cons]

/-- The state after the first pass of `MMWFStar<T>`. -/
theorem starPass1_eq (computeMedian : List α → α) (w : List (List α)) (n m sx sy : Nat) :
    starPass1 computeMedian w n m sx sy (starInit n m) =
      { localMedians := table n m (fun i j => some (starStats computeMedian w n m sx sy i j).1)
        localVars := table n m (fun i j => (starStats computeMedian w n m sx sy i j).2)
        localVarTemp := (List.range n).flatMap (fun i =>
          (List.range m).map (fun j => (starStats computeMedian w n m sx sy i j).2)) } := by
  unfold starPass1
  rw [starPass1_outer]
  have h1 := fillCells_eq_table (resizeOutput ([] : List (List (Option α))) n m) n m
    (fun i j => some (starStats computeMedian w n m sx sy i j).1)
    (resizeOutput_length _ _ _) (resizeOutput_rows _ _ _)
  have h2 := fillCells_eq_table (resizeOutput ([] : List (List (Option α))) n m) n m
    (fun i j => (starStats computeMedian w n m sx sy i j).2)
    (resizeOutput_length _ _ _) (resizeOutput_rows _ _ _)
  unfold fillCells at h1 h2
  simp only [starInit, h1, h2, List.nil_append]

theorem starStats_eq_ref (computeMedian : List α → α) (w : List (List α)) (n m sx sy i j : Nat)
    (hi : i < n) (hj : j < m) (hsx : 2 ≤ sx) (hsy : 2 ≤ sy) :
    starStats computeMedian w n m sx sy i j =
      (computeMedian (gatherX w n m sx sy i j),
        some (starSurrogate computeMedian w n m sx sy i j)) := by
  have hc := card_refWindow_ne_zero (α := α) n m sx sy i j hi hj hsx hsy
  simp only [starStats, accumulate_gatherX, accumulate_gatherXsq, length_gatherX,
    fdiv_of_ne_zero _ _ hc, Option.some_bind, refMean, starSurrogate, refSecondMoment]

theorem flatMap_range_congr {β : Type} (n m : Nat) (f g : Nat → Nat → β)
    (h : ∀ i, i < n → ∀ j, j < m → f i j = g i j) :
    ((List.range n).flatMap fun i => (List.range m).map fun j => f i j) =
      ((List.range n).flatMap fun i => (List.range m).map fun j => g i j) := by
  have ht := table_congr n m f g h
  unfold table at ht
  unfold List.flatMap
  rw [ht]

theorem medianOfValues_map_some {β : Type} (computeMedian : List β → β) (l : List β) :
    medianOfValues computeMedian (l.map some) = some (computeMedian l) := by
  have h1 : (l.map some).all Option.isSome = true := by
    simp [List.all_eq_true]
  have h2 : (l.map some).filterMap id = l := by
    induction l with
    | nil => rfl
    | cons a t ih => simp [List.filterMap_cons, ih]
  simp only [medianOfValues, h1, h2, if_true]

theorem flatMap_map_some {β : Type} (n m : Nat) (g : Nat → Nat → β) :
    ((List.range n).flatMap fun i => (List.range m).map fun j => some (g i j)) =
      ((List.range n).flatMap fun i => (List.range m).map fun j => g i j).map some := by
  simp only [List.map_flatMap, List.map_map]
  rfl

end Star

section Enhanced

variable {α : Type} [LinearOrderedField α]

theorem allFinite_map_some {β γ : Type} (f : β → γ) (l : List β) :
    allFinite (l.map fun v => some (f v)) = some (l.map f) := by
  induction l with
  | nil => rfl
  | cons b t ih => simp [allFinite, ih]

theorem sum_map_div (l : List α) (c : α) : (l.map fun v => v / c).sum = l.sum / c := by
  induction l with
  | nil => simp
  | cons b t ih => simp [ih, add_div]

theorem sum_pos_of_forall_pos (l : List α) (hne : l ≠ []) (hpos : ∀ v ∈ l, 0 < v) :
    0 < l.sum := by
  induction l with
  | nil => exact absurd rfl hne
  | cons b t ih =>
    rw [List.sum_cons]
    have hb : 0 < b := hpos b (List.mem_cons_self _ _)
    rcases t with _ | ⟨c, t'⟩
    · simpa using hb
    · have ht := ih (List.cons_ne_nil _ _) (fun v hv => hpos v (List.mem_cons_of_mem _ hv))
      linarith

theorem enhancedWeight_pos (a eps center neighbour : α) (ha : 0 < a) (heps : 0 ≤ eps) :
    enhancedWeight a eps center neighbour =
        some (1 / (1 + a * max eps ((center - neighbour) ^ 2))) ∧
      0 < 1 / (1 + a * max eps ((center - neighbour) ^ 2)) := by
  have hmax : 0 ≤ max eps ((center - neighbour) ^ 2) := le_max_of_le_left heps
  have hden : 0 < 1 + a * max eps ((center - neighbour) ^ 2) := by
    have := mul_nonneg ha.le hmax
    linarith
  refine ⟨?_, by positivity⟩
  simp only [enhancedWeight]
  exact fdiv_of_ne_zero _ _ hden.ne'

/-- For `a > 0` and a non-negative noise variance, at every cell of a rectangular array with
window `sx, sy ≥ 2`, the normalised weights of `filterLeeEnhanced<T>` are finite, positive,
one per gathered sample, and sum to 1. -/
theorem enhancedWeights_normalised (w : List (List α)) (n m : Nat) (noiseVar : α) (sx sy : Nat)
    (a epsilon : α) (i j : Nat) (hi : i < n) (hj : j < m) (hsx : 2 ≤ sx) (hsy : 2 ≤ sy)
    (ha : 0 < a) (hnoise : 0 ≤ noiseVar) :
    ∃ weight, enhancedWeights w n m noiseVar sx sy a epsilon i j = some weight ∧
      weight.length = (gatherX w n m sx sy i j).length ∧
      (∀ v ∈ weight, 0 < v) ∧ weight.sum = 1 := by
  have heps : (0 : α) ≤ epsilon ^ 2 * noiseVar := mul_nonneg (sq_nonneg _) hnoise
  have hx : gatherX w n m sx sy i j ≠ [] := by
    intro h
    have hl := length_gatherX w n m sx sy i j
    rw [h, List.length_nil] at hl
    have hc := card_refWindow_ne_zero (α := α) n m sx sy i j hi hj hsx hsy
    rw [← hl] at hc
    exact hc (by simp)
  have hraw : (gatherX w n m sx sy i j).map
      (fun v => enhancedWeight a (epsilon ^ 2 * noiseVar) (at2 w i j) v) =
      (gatherX w n m sx sy i j).map (fun v => some
        (1 / (1 + a * max (epsilon ^ 2 * noiseVar) ((at2 w i j - v) ^ 2)))) :=
    List.map_congr_left fun v _ => (enhancedWeight_pos a _ (at2 w i j) v ha heps).1
  have hposraw : ∀ v ∈ (gatherX w n m sx sy i j).map
      (fun v => 1 / (1 + a * max (epsilon ^ 2 * noiseVar) ((at2 w i j - v) ^ 2))), 0 < v := by
    intro v hv
    obtain ⟨u, _, rfl⟩ := List.mem_map.mp hv
    exact (enhancedWeight_pos a _ (at2 w i j) u ha heps).2
  have hnorm := sum_pos_of_forall_pos _ (by simpa using hx) hposraw
  have hdiv : ((gatherX w n m sx sy i j).map
      (fun v => 1 / (1 + a * max (epsilon ^ 2 * noiseVar) ((at2 w i j - v) ^ 2)))).map
        (fun wk => fdiv wk (accumulate ((gatherX w n m sx sy i j).map
          (fun v => 1 / (1 + a * max (epsilon ^ 2 * noiseVar) ((at2 w i j - v) ^ 2)))))) =
      ((gatherX w n m sx sy i j).map
      (fun v => 1 / (1 + a * max (epsilon ^ 2 * noiseVar) ((at2 w i j - v) ^ 2)))).map
        (fun wk => some (wk / ((gatherX w n m sx sy i j).map
          (fun v => 1 / (1 + a * max (epsilon ^ 2 * noiseVar) ((at2 w i j - v) ^ 2)))).sum)) :=
    List.map_congr_left fun v _ => by
      rw [accumulate_eq_sum]
      exact fdiv_of_ne_zero _ _ hnorm.ne'
  refine ⟨((gatherX w n m sx sy i j).map
      (fun v => 1 / (1 + a * max (epsilon ^ 2 * noiseVar) ((at2 w i j - v) ^ 2)))).map
        (fun wk => wk / ((gatherX w n m sx sy i j).map
          (fun v => 1 / (1 + a * max (epsilon ^ 2 * noiseVar) ((at2 w i j - v) ^ 2)))).sum),
    ?_, by simp, ?_, ?_⟩
  · simp only [enhancedWeights, enhancedEps, not_lt.mpr hnoise, if_false, Option.some_bind,
      hraw, allFinite_map_some, hdiv]
  · intro v hv
    obtain ⟨u, hu, rfl⟩ := List.mem_map.mp hv
    exact div_pos (hposraw u hu) hnorm
  · rw [sum_map_div, div_self hnorm.ne']

end Enhanced

section Shape

variable {α : Type} [LinearOrderedField α]

theorem table_hasShape {β : Type} (n m : Nat) (f : Nat → Nat → β) :
    HasShape (table n m f) n m := by
  constructor
  · simp [table]
  · intro row hrow
    simp only [table, List.mem_map] at hrow
    obtain ⟨i, _, rfl⟩ := hrow
    simp

/-- On a non-empty input whose first row has `nTicks` entries, `MMWFStar<T>` returns and its
output is the table of the cell values of the second pass. -/
theorem MMWFStar_eq_table (computeMedian : List α → α) (out : List (List (Option α)))
    (w : List (List α)) (sx sy nTicks : Nat) (hne : w ≠ [])
    (hrect : ∀ r ∈ w, r.length = nTicks) :
    MMWFStar computeMedian out w sx sy = Except.ok (table w.length nTicks
      (fun i j => starCell w (starPass1 computeMedian w w.length nTicks sx sy
          (starInit w.length nTicks))
        (medianOfValues computeMedian (starPass1 computeMedian w w.length nTicks sx sy
          (starInit w.length nTicks)).localVarTemp) i j)) := by
  cases w with
  | nil => exact absurd rfl hne
  | cons row0 rest =>
    have h0 : row0.length = nTicks := hrect row0 (List.mem_cons_self _ _)
    simp only [MMWFStar, h0]
    rw [fillCells_eq_table _ _ _ _ (resizeOutput_length _ _ _) (resizeOutput_rows _ _ _)]

end Shape

section EmptyWindow

variable {α : Type} [LinearOrderedField α]

theorem windowIndices_eq_nil (n m sx sy i j : Nat) (h : sx < 2 ∨ sy < 2) :
    windowIndices n m sx sy i j = [] := by
  apply List.eq_nil_iff_forall_not_mem.mpr
  intro p hp
  rw [mem_windowIndices] at hp
  simp only [refWindow, Finset.mem_filter, Finset.mem_product, Finset.mem_range] at hp
  omega

theorem gatherX_eq_nil (w : List (List α)) (n m sx sy i j : Nat) (h : sx < 2 ∨ sy < 2) :
    gatherX w n m sx sy i j = [] := by
  simp [gatherX, windowIndices_eq_nil n m sx sy i j h]

theorem fdiv_zero (v : α) : fdiv v 0 = none := by
  simp [fdiv]

theorem leeCell_eq_none (w : List (List α)) (n m : Nat) (noiseVar : α) (sx sy i j : Nat)
    (h : sx < 2 ∨ sy < 2) : leeCell w n m noiseVar sx sy i j = none := by
  simp [leeCell, leeStats, gatherX_eq_nil w n m sx sy i j h, fdiv_zero]

theorem mmwfCell_eq_none (computeMedian : List α → α) (w : List (List α)) (n m : Nat)
    (noiseVar : α) (sx sy i j : Nat) (h : sx < 2 ∨ sy < 2) :
    mmwfCell computeMedian w n m noiseVar sx sy i j = none := by
  simp [mmwfCell, mmwfStats, gatherX_eq_nil w n m sx sy i j h, fdiv_zero]

theorem enhancedCell_eq_none (w : List (List α)) (n m : Nat) (noiseVar : α) (sx sy : Nat)
    (a epsilon : α) (i j : Nat) (h : sx < 2 ∨ sy < 2) :
    enhancedCell w n m noiseVar sx sy a epsilon i j = none := by
  unfold enhancedCell enhancedStats enhancedWeights
  rw [gatherX_eq_nil w n m sx sy i j h]
  cases enhancedEps epsilon noiseVar with
  | none => rfl
  | some eps => simp [allFinite, accumulate, inner_product, fdiv_zero]

theorem starCell_eq_none (computeMedian : List α → α) (w : List (List α)) (n m sx sy : Nat)
    (noiseMedian : Option α) (i j : Nat) (hi : i < n) (hj : j < m) (h : sx < 2 ∨ sy < 2) :
    starCell w (starPass1 computeMedian w n m sx sy (starInit n m)) noiseMedian i j = none := by
  have hs : (starStats computeMedian w n m sx sy i j).2 = none := by
    simp [starStats, gatherX_eq_nil w n m sx sy i j h, fdiv_zero]
  cases noiseMedian with
  | none => rfl
  | some nm =>
    simp only [starCell, starPass1_eq, Option.some_bind, table_getD _ _ _ _ i j hi hj, hs,
      Option.none_bind]

end EmptyWindow

section Spectral

variable {α : Type} [LinearOrderedField α]

theorem length_writeData {β : Type} (v p : List β) : (writeData v p).length = v.length := by
  simp only [writeData, List.length_append, List.length_take, List.length_drop]
  omega

theorem writeData_of_length_le {β : Type} (v p : List β) (h : p.length ≤ v.length) :
    writeData v p = p ++ v.drop p.length := by
  simp [writeData, List.take_of_length_le h]

/-- The reflection loop: entries from `s` on are set, one after the other, to the conjugate
of an entry below `s`. -/
theorem reflect_loop (N s : Nat) (hs : N < 2 * s) (k : Nat) (f : List (Cpx α)) :
    ((List.range' s k).foldl
        (fun f idx => f.set idx (Cpx.conj (f.getD (N - idx) Cpx.zero))) f).length = f.length ∧
    ∀ t, ((List.range' s k).foldl
        (fun f idx => f.set idx (Cpx.conj (f.getD (N - idx) Cpx.zero))) f)[t]? =
      if s ≤ t ∧ t < s + k ∧ t < f.length then some (Cpx.conj (f.getD (N - t) Cpx.zero))
      else f[t]? := by
  induction k with
  | zero =>
    refine ⟨by simp, fun t => ?_⟩
    have : ¬ (s ≤ t ∧ t < s + 0 ∧ t < f.length) := by omega
    simp only [List.range'_zero, List.foldl_nil, this, if_false]
  | succ k ih =>
    obtain ⟨hlen, hget⟩ := ih
    rw [List.range'_concat, List.foldl_append]
    simp only [List.foldl_cons, List.foldl_nil, Nat.one_mul]
    refine ⟨by rw [List.length_set]; exact hlen, fun t => ?_⟩
    rw [List.getElem?_set, hlen]
    have hread : ((List.range' s k).foldl
        (fun f idx => f.set idx (Cpx.conj (f.getD (N - idx) Cpx.zero))) f).getD
          (N - (s + k)) Cpx.zero = f.getD (N - (s + k)) Cpx.zero := by
      rw [List.getD_eq_getElem?_getD, hget, List.getD_eq_getElem?_getD]
      have : ¬ (s ≤ N - (s + k) ∧ N - (s + k) < s + k ∧ N - (s + k) < f.length) := by omega
      simp [this]
    by_cases htk : s + k = t
    · subst htk
      rw [hread]
      by_cases hl : s + k < f.length
      · have : s ≤ s + k ∧ s + k < s + (k + 1) ∧ s + k < f.length := by omega
        simp [hl, this]
      · have : ¬ (s ≤ s + k ∧ s + k < s + (k + 1) ∧ s + k < f.length) := by omega
        simp [hl, this, List.getElem?_eq_none (not_lt.mp hl)]
    · simp only [htk, if_false]
      rw [hget]
      by_cases h1 : s ≤ t ∧ t < s + k ∧ t < f.length
      · have : s ≤ t ∧ t < s + (k + 1) ∧ t < f.length := by omega
        simp [h1, this]
      · have : ¬ (s ≤ t ∧ t < s + (k + 1) ∧ t < f.length) := by omega
        simp [h1, this]

/-- What `forwardFFT` leaves in the frequency vector, for a time vector of the length `N` of
the engine and a library transform that stores `N / 2 + 1` bins. -/
theorem forwardFFT_layout (E : ICARUSFFT α) (timeVec : List α) (frequencyVec : List (Cpx α))
    (hN : 0 < E.numTimeSamples) (hx : timeVec.length = E.numTimeSamples)
    (hr : (E.r2c timeVec).length = E.numTimeSamples / 2 + 1) :
    ∃ out, E.forwardFFT timeVec frequencyVec = { args := out, thrown := none } ∧
      out.length = E.numTimeSamples ∧
      (∀ k, k ≤ E.numTimeSamples / 2 → out[k]? = (E.r2c timeVec)[k]?) ∧
      (∀ k, E.numTimeSamples / 2 < k → k < E.numTimeSamples →
        out[k]? = (out[E.numTimeSamples - k]?).map Cpx.conj) := by
  have hcall : E.forwardFFT timeVec frequencyVec =
      { args := (List.range' (timeVec.length / 2 + 1)
          (timeVec.length - (timeVec.length / 2 + 1))).foldl
          (fun f idx => f.set idx (Cpx.conj (f.getD (timeVec.length - idx) Cpx.zero)))
          (writeData (resize frequencyVec timeVec.length Cpx.zero) (E.r2c timeVec)),
        thrown := none } := by
    simp only [ICARUSFFT.forwardFFT, hx, ne_eq, not_true_eq_false, if_false]
  rw [← hx] at hN hr ⊢
  have hle : (E.r2c timeVec).length ≤ (resize frequencyVec timeVec.length Cpx.zero).length := by
    rw [length_resize, hr]
    omega
  have hT : (writeData (resize frequencyVec timeVec.length Cpx.zero) (E.r2c timeVec)).length =
      timeVec.length := by
    rw [length_writeData, length_resize]
  have hloop := reflect_loop timeVec.length (timeVec.length / 2 + 1) (by omega)
    (timeVec.length - (timeVec.length / 2 + 1))
    (writeData (resize frequencyVec timeVec.length Cpx.zero) (E.r2c timeVec))
  refine ⟨_, hcall, ?_, ?_, ?_⟩
  · rw [hloop.1, hT]
  · intro k hk
    rw [hloop.2 k, if_neg (by omega), writeData_of_length_le _ _ hle,
      List.getElem?_append_left (by omega)]
  · intro k hk1 hk2
    rw [hloop.2 k, hloop.2 (timeVec.length - k), if_pos (by omega), if_neg (by omega),
      List.getD_eq_getElem?_getD]
    have h3 : timeVec.length - k <
        (writeData (resize frequencyVec timeVec.length Cpx.zero) (E.r2c timeVec)).length := by
      omega
    rw [List.getElem?_eq_getElem h3]
    rfl

/-- For a time vector of the length of the engine, `forwardFFT` returns and leaves a
frequency vector of that length, whatever the library transform stores. -/
theorem forwardFFT_length (E : ICARUSFFT α) (timeVec : List α) (frequencyVec : List (Cpx α))
    (hx : timeVec.length = E.numTimeSamples) :
    ∃ out, E.forwardFFT timeVec frequencyVec = { args := out, thrown := none } ∧
      out.length = E.numTimeSamples := by
  refine ⟨_, by simp only [ICARUSFFT.forwardFFT, hx, ne_eq, not_true_eq_false, if_false]; rfl,
    ?_⟩
  rw [← hx, (reflect_loop timeVec.length (timeVec.length / 2 + 1) (by omega) _ _).1,
    length_writeData, length_resize]

/-- For a frequency vector of at least the length of the engine, `inverseFFT` returns and
leaves a time vector of the length of the frequency vector. -/
theorem inverseFFT_length (E : ICARUSFFT α) (frequencyVec : List (Cpx α)) (timeVec : List α)
    (hf : E.numTimeSamples ≤ frequencyVec.length) :
    ∃ out, E.inverseFFT frequencyVec timeVec = { args := out, thrown := none } ∧
      out.length = frequencyVec.length := by
  refine ⟨_, by simp only [ICARUSFFT.inverseFFT, not_lt.mpr hf, if_false]; rfl, ?_⟩
  rw [List.length_map, length_writeData, length_resize]

theorem length_multiplyByKernel (f kernel : List (Cpx α)) :
    (multiplyByKernel f kernel).length = f.length := by
  simp [multiplyByKernel]

/-- For a time vector of the length of the engine, the common part of `convolute` and
`deconvolute` returns and leaves a time vector of that length. -/
theorem convoluteCommon_length (E : ICARUSFFT α) (timeVec : List α) (kernel : List (Cpx α))
    (hx : timeVec.length = E.numTimeSamples) :
    ∃ r, E.convoluteCommon timeVec kernel = { args := r, thrown := none } ∧
      r.length = E.numTimeSamples := by
  obtain ⟨out, hout, hlen⟩ := forwardFFT_length E timeVec
    (List.replicate timeVec.length (Cpx.zero : Cpx α)) hx
  obtain ⟨r, hr, hrlen⟩ := inverseFFT_length E (multiplyByKernel out kernel) timeVec
    (by rw [length_multiplyByKernel, hlen])
  refine ⟨r, ?_, by rw [hrlen, length_multiplyByKernel, hlen]⟩
  simp only [ICARUSFFT.convoluteCommon, hx, ne_eq, not_true_eq_false, if_false]
  rw [← hx, hout]
  exact hr

theorem rotateConvolute_eq_rotate {β : Type} (r : List β) (timeOffset : Int)
    (ht : timeOffset.natAbs ≤ r.length) :
    rotateConvolute r timeOffset =
      if timeOffset ≤ 0 then r.rotate timeOffset.natAbs
      else r.rotate (r.length - timeOffset.natAbs) := by
  unfold rotateConvolute
  by_cases h : timeOffset ≤ 0
  · have h1 : (-timeOffset).toNat = timeOffset.natAbs := by omega
    simp only [h, if_true, h1]
    rw [List.rotate_eq_drop_append_take ht]
  · have h1 : timeOffset.toNat = timeOffset.natAbs := by omega
    simp only [h, if_false, h1]
    rw [List.rotate_eq_drop_append_take (Nat.sub_le _ _)]

theorem rotateDeconvolute_eq_rotateConvolute_neg {β : Type} (r : List β) (timeOffset : Int) :
    rotateDeconvolute r timeOffset = rotateConvolute r (-timeOffset) := by
  unfold rotateDeconvolute rotateConvolute
  rcases lt_trichotomy timeOffset 0 with h | h | h
  · have h1 : timeOffset ≤ 0 := by omega
    have h2 : ¬ (-timeOffset ≤ 0) := by omega
    simp only [h1, h2, if_true, if_false]
  · subst h
    simp
  · have h1 : ¬ (timeOffset ≤ 0) := by omega
    have h2 : -timeOffset ≤ 0 := by omega
    simp only [h1, h2, if_true, if_false, neg_neg]

theorem map_getD_range {β : Type} (l : List β) (d : β) :
    (List.range l.length).map (fun idx => l.getD idx d) = l := by
  apply List.ext_getElem?
  intro t
  by_cases ht : t < l.length
  · simp [List.getElem?_range, ht, List.getD_eq_getElem?_getD]
  · have h1 : l.length ≤ t := not_lt.mp ht
    rw [List.getElem?_eq_none h1, List.getElem?_eq_none (by simpa using h1)]

theorem Cpx.mul_one_bin (z : Cpx α) : Cpx.mul z { re := 1, im := 0 } = z := by
  cases z
  simp [Cpx.mul]

/-- Multiplying bin by bin with a kernel of ones leaves the frequency vector as it is. -/
theorem multiplyByKernel_ones (f : List (Cpx α)) (n : Nat) (hn : f.length ≤ n) :
    multiplyByKernel f (List.replicate n { re := 1, im := 0 }) = f := by
  unfold multiplyByKernel
  have h : (List.range f.length).map (fun idx => Cpx.mul (f.getD idx Cpx.zero)
      ((List.replicate n ({ re := 1, im := 0 } : Cpx α)).getD idx Cpx.zero)) =
      (List.range f.length).map (fun idx => f.getD idx Cpx.zero) := by
    apply List.map_congr_left
    intro idx hidx
    have hlt : idx < n := lt_of_lt_of_le (List.mem_range.mp hidx) hn
    rw [List.getD_eq_getElem?_getD (List.replicate n _), List.getElem?_replicate]
    simp [hlt, Cpx.mul_one_bin]
  rw [h, map_getD_range]

/-- Under the contract of the library, `inverseFFT` undoes `forwardFFT`. -/
theorem inverseFFT_forwardFFT (E : ICARUSFFT α) (hC : FFTWContract E) (x : List α)
    (frequencyVec : List (Cpx α)) (timeVec : List α) (hx : x.length = E.numTimeSamples) :
    ∃ out, E.forwardFFT x frequencyVec = { args := out, thrown := none } ∧
      out.length = E.numTimeSamples ∧
      E.inverseFFT out timeVec = { args := x, thrown := none } := by
  obtain ⟨hr2c, -, hinv⟩ := hC
  rcases Nat.eq_zero_or_pos E.numTimeSamples with h0 | hN
  · obtain ⟨out, hout, hlen⟩ := forwardFFT_length E x frequencyVec hx
    refine ⟨out, hout, hlen, ?_⟩
    have hx0 : x = [] := List.length_eq_zero.mp (hx.trans h0)
    have hout0 : out = [] := List.length_eq_zero.mp (hlen.trans h0)
    subst hx0 hout0
    simp [ICARUSFFT.inverseFFT, h0, resize, writeData]
  · obtain ⟨out, hout, hlen, hlow, -⟩ := forwardFFT_layout E x frequencyVec hN hx (hr2c x hx)
    refine ⟨out, hout, hlen, ?_⟩
    have htake : out.take (E.numTimeSamples / 2 + 1) = E.r2c x := by
      apply List.ext_getElem?
      intro k
      by_cases hk : k < E.numTimeSamples / 2 + 1
      · rw [List.getElem?_take_of_lt hk, hlow k (by omega)]
      · rw [List.getElem?_take_eq_none (not_lt.mp hk),
          List.getElem?_eq_none (by rw [hr2c x hx]; exact not_lt.mp hk)]
    have hne : (E.numTimeSamples : α) ≠ 0 := by exact_mod_cast hN.ne'
    have hw : writeData (resize timeVec E.numTimeSamples 0)
        (x.map fun v => (E.numTimeSamples : α) * v) =
        x.map fun v => (E.numTimeSamples : α) * v := by
      rw [writeData_of_length_le _ _ (by simp [length_resize, hx])]
      simp [length_resize, hx]
    simp only [ICARUSFFT.inverseFFT, hlen, lt_self_iff_false, if_false, htake, hinv x hx]
    rw [hw]
    simp only [List.length_map, List.map_map, hx]
    congr 1
    conv_rhs => rw [← List.map_id x]
    apply List.map_congr_left
    intro v _
    simp only [Function.comp, id]
    field_simp

end Spectral

section Engine4

theorem engine4_contract : FFTWContract engine4 := by
  refine ⟨?_, ?_, ?_⟩
  · intro x hx
    rcases x with _ | ⟨a, _ | ⟨b, _ | ⟨c, _ | ⟨d, _ | ⟨e, t⟩⟩⟩⟩⟩ <;>
      simp [engine4] at hx ⊢
  · intro f hf
    rcases f with _ | ⟨a, _ | ⟨b, _ | ⟨c, _ | ⟨d, t⟩⟩⟩⟩ <;>
      simp [engine4] at hf ⊢
  · intro x hx
    rcases x with _ | ⟨a, _ | ⟨b, _ | ⟨c, _ | ⟨d, _ | ⟨e, t⟩⟩⟩⟩⟩ <;>
      simp [engine4] at hx ⊢
    refine ⟨?_, ?_, ?_, ?_⟩ <;> ring

end Engine4

section Power

variable {α : Type} [LinearOrderedField α]

/-- What `getFFTPower` leaves in the output vector, for an input of the length `N ≥ 1` of the
engine: the magnitudes of the first `N / 2 + 1` bins of the frequency vector that
`forwardFFT` makes of the input. -/
theorem getFFTPower_eq (E : ICARUSFFT α) (cabs : Cpx α → α) (inputVec outputPowerVec : List α)
    (hN : 0 < E.numTimeSamples) (hx : inputVec.length = E.numTimeSamples) :
    ∃ out, E.forwardFFT inputVec (List.replicate inputVec.length (Cpx.zero : Cpx α)) =
        { args := out, thrown := none } ∧
      E.getFFTPower cabs inputVec outputPowerVec =
        { args := (out.take (E.numTimeSamples / 2 + 1)).map cabs, thrown := none } := by
  obtain ⟨out, hout, hlen⟩ := forwardFFT_length E inputVec
    (List.replicate inputVec.length (Cpx.zero : Cpx α)) hx
  refine ⟨out, hout, ?_⟩
  have hw : writeData (resize outputPowerVec (E.numTimeSamples / 2 + 1) 0)
      ((out.take (E.numTimeSamples / 2 + 1)).map cabs) =
      (out.take (E.numTimeSamples / 2 + 1)).map cabs := by
    have hl : ((out.take (E.numTimeSamples / 2 + 1)).map cabs).length =
        E.numTimeSamples / 2 + 1 := by
      rw [List.length_map, List.length_take, hlen]
      omega
    rw [writeData_of_length_le _ _ (by rw [length_resize, hl]), hl, List.drop_of_length_le
      (by rw [length_resize]), List.append_nil]
  rw [hx] at hout
  simp only [ICARUSFFT.getFFTPower, hout, hx, hw]

end Power

section Convergence

variable {α : Type} [LinearOrderedField α]

/-- The blend for a positive local variance and a noise variance between 0 and it. -/
theorem blend_between (F V s2 obs : α) (hV : 0 < V) (h0 : 0 ≤ s2) (hle : s2 ≤ V) :
    ∃ out, blend F V s2 obs = some out ∧
      out - obs = -(s2 / V) * (obs - F) ∧
      |out - obs| ≤ s2 / V * |obs - F| ∧
      min F obs ≤ out ∧ out ≤ max F obs ∧
      (s2 = 0 → out = obs) := by
  have hq0 : 0 ≤ s2 / V := div_nonneg h0 hV.le
  have hq1 : s2 / V ≤ 1 := (div_le_one hV).mpr hle
  refine ⟨F + (1 - s2 / V) * (obs - F), ?_, by ring, ?_, ?_, ?_, ?_⟩
  · simp [blend, not_lt.mpr hle, fdiv, hV.ne']
  · have h : F + (1 - s2 / V) * (obs - F) - obs = -(s2 / V) * (obs - F) := by ring
    rw [h, abs_mul, abs_neg, abs_of_nonneg hq0]
  · rcases le_total F obs with h | h
    · rw [min_eq_left h]
      nlinarith [mul_nonneg (sub_nonneg.mpr hq1) (sub_nonneg.mpr h)]
    · rw [min_eq_right h]
      nlinarith [mul_nonneg hq0 (sub_nonneg.mpr h)]
  · rcases le_total F obs with h | h
    · rw [max_eq_right h]
      nlinarith [mul_nonneg hq0 (sub_nonneg.mpr h)]
    · rw [max_eq_left h]
      nlinarith [mul_nonneg (sub_nonneg.mpr hq1) (sub_nonneg.mpr h)]
  · intro hs
    rw [hs]
    simp

end Convergence

section Variance

variable {α : Type} [LinearOrderedField α]

/-- The local variance is the mean of the squared deviations from the local mean. -/
theorem card_mul_refVar (w : List (List α)) (n m sx sy i j : Nat)
    (hc : ((refWindow n m sx sy i j).card : α) ≠ 0) :
    ((refWindow n m sx sy i j).card : α) * refVar w n m sx sy i j =
      ∑ p ∈ refWindow n m sx sy i j, (at2 w p.1 p.2 - refMean w n m sx sy i j) ^ 2 := by
  have hsum : ∑ p ∈ refWindow n m sx sy i j, at2 w p.1 p.2 =
      ((refWindow n m sx sy i j).card : α) * refMean w n m sx sy i j := by
    unfold refMean
    field_simp
  have hexp : ∀ p : Nat × Nat, (at2 w p.1 p.2 - refMean w n m sx sy i j) ^ 2 =
      at2 w p.1 p.2 ^ 2 - 2 * refMean w n m sx sy i j * at2 w p.1 p.2 +
        refMean w n m sx sy i j ^ 2 := fun p => by ring
  simp only [hexp, Finset.sum_add_distrib, Finset.sum_sub_distrib, ← Finset.mul_sum, hsum,
    Finset.sum_const, nsmul_eq_mul]
  unfold refVar refSecondMoment
  field_simp
  ring

theorem refVar_eq_zero_iff (w : List (List α)) (n m sx sy i j : Nat)
    (hc : ((refWindow n m sx sy i j).card : α) ≠ 0) :
    refVar w n m sx sy i j = 0 ↔
      ∀ p ∈ refWindow n m sx sy i j, at2 w p.1 p.2 = refMean w n m sx sy i j := by
  have h := card_mul_refVar w n m sx sy i j hc
  constructor
  · intro h0
    rw [h0, mul_zero] at h
    have hz := (Finset.sum_eq_zero_iff_of_nonneg (fun p _ => sq_nonneg _)).mp h.symm
    intro p hp
    have := hz p hp
    exact sub_eq_zero.mp ((pow_eq_zero_iff (two_ne_zero)).mp this)
  · intro hall
    have hz : ∑ p ∈ refWindow n m sx sy i j,
        (at2 w p.1 p.2 - refMean w n m sx sy i j) ^ 2 = 0 :=
      Finset.sum_eq_zero fun p hp => by rw [hall p hp, sub_self]; ring
    rw [hz] at h
    exact (mul_eq_zero.mp h).resolve_left hc

theorem refMean_of_constant (w : List (List α)) (n m sx sy i j : Nat) (c : α)
    (hc : ((refWindow n m sx sy i j).card : α) ≠ 0)
    (hall : ∀ p ∈ refWindow n m sx sy i j, at2 w p.1 p.2 = c) :
    refMean w n m sx sy i j = c := by
  unfold refMean
  rw [Finset.sum_congr rfl hall, Finset.sum_const, nsmul_eq_mul]
  field_simp

theorem mem_gatherX (w : List (List α)) (n m sx sy i j : Nat) (v : α) :
    v ∈ gatherX w n m sx sy i j ↔ ∃ p ∈ refWindow n m sx sy i j, at2 w p.1 p.2 = v := by
  simp only [gatherX, List.mem_map, mem_windowIndices]

end Variance

section Rotation

theorem rotateDeconvolute_rotateConvolute {β : Type} (r : List β) (timeOffset : Int)
    (ht : timeOffset.natAbs ≤ r.length) :
    rotateDeconvolute (rotateConvolute r timeOffset) timeOffset = r := by
  have hlen : (rotateConvolute r timeOffset).length = r.length := by
    rw [rotateConvolute_eq_rotate r timeOffset ht]
    split <;> exact List.length_rotate _ _
  rw [rotateDeconvolute_eq_rotateConvolute_neg,
    rotateConvolute_eq_rotate _ (-timeOffset) (by rw [hlen, Int.natAbs_neg]; exact ht),
    rotateConvolute_eq_rotate r timeOffset ht, Int.natAbs_neg]
  rcases lt_trichotomy timeOffset 0 with h | h | h
  · rw [if_neg (by omega), if_pos (by omega), List.length_rotate, List.rotate_rotate]
    have : timeOffset.natAbs + (r.length - timeOffset.natAbs) = r.length := by omega
    rw [this, List.rotate_length]
  · subst h
    simp
  · rw [if_pos (by omega), if_neg (by omega), List.rotate_rotate]
    have : r.length - timeOffset.natAbs + timeOffset.natAbs = r.length := by omega
    rw [this, List.rotate_length]

theorem rotateConvolute_perm {β : Type} (r : List β) (timeOffset : Int)
    (ht : timeOffset.natAbs ≤ r.length) : List.Perm (rotateConvolute r timeOffset) r := by
  rw [rotateConvolute_eq_rotate r timeOffset ht]
  split <;> exact List.rotate_perm _ _

theorem rotateDeconvolute_perm {β : Type} (r : List β) (timeOffset : Int)
    (ht : timeOffset.natAbs ≤ r.length) : List.Perm (rotateDeconvolute r timeOffset) r := by
  rw [rotateDeconvolute_eq_rotateConvolute_neg]
  exact rotateConvolute_perm r (-timeOffset) (by rw [Int.natAbs_neg]; exact ht)

end Rotation

section TruncatedRms

variable {α : Type} [LinearOrderedField α]

theorem inner_product_self (l : List α) :
    inner_product l l = (l.map fun v => v * v).sum := by
  have h : ∀ (l : List α) (acc : α),
      (List.zip l l).foldl (fun acc p => acc + p.1 * p.2) acc =
        acc + (l.map fun v => v * v).sum := by
    intro l
    induction l with
    | nil => intro acc; simp
    | cons v t ih =>
      intro acc
      simp only [List.zip_cons_cons, List.foldl_cons, List.map_cons, List.sum_cons, ih]
      ring
  rw [inner_product, h, zero_add]

theorem sum_filter_add_sum_filter_not (l : List α) (p : α → Bool) (g : α → α) :
    ((l.filter p).map g).sum + ((l.filter fun v => !p v).map g).sum = (l.map g).sum := by
  induction l with
  | nil => simp
  | cons v t ih =>
    cases hp : p v
    · simp only [List.filter_cons, hp, Bool.not_false, if_true, List.map_cons,
        List.sum_cons, Bool.false_eq_true, if_false]
      rw [← ih]
      ring
    · simp only [List.filter_cons, hp, Bool.not_true, if_true, List.map_cons,
        List.sum_cons, Bool.false_eq_true, if_false]
      rw [← ih]
      ring

theorem length_filter_add_length_filter_not {β : Type} (l : List β) (p : β → Bool) :
    (l.filter p).length + (l.filter fun v => !p v).length = l.length := by
  induction l with
  | nil => simp
  | cons v t ih =>
    cases hp : p v
    · simp only [List.filter_cons, hp, Bool.not_false, if_true, List.length_cons,
        Bool.false_eq_true, if_false]
      omega
    · simp only [List.filter_cons, hp, Bool.not_true, if_true, List.length_cons,
        Bool.false_eq_true, if_false]
      omega

theorem length_mul_le_sum (l : List α) (g : α → α) (c : α) (h : ∀ v ∈ l, c ≤ g v) :
    (l.length : α) * c ≤ (l.map g).sum := by
  induction l with
  | nil => simp
  | cons v t ih =>
    have hv := h v (List.mem_cons_self _ _)
    have ht := ih fun u hu => h u (List.mem_cons_of_mem _ hu)
    simp only [List.length_cons, List.map_cons, List.sum_cons, Nat.cast_add, Nat.cast_one]
    linarith

theorem length_mul_lt_sum (l : List α) (g : α → α) (c : α) (hne : l ≠ [])
    (h : ∀ v ∈ l, c < g v) : (l.length : α) * c < (l.map g).sum := by
  cases l with
  | nil => exact absurd rfl hne
  | cons v t =>
    have hv := h v (List.mem_cons_self _ _)
    have ht := length_mul_le_sum t g c fun u hu => (h u (List.mem_cons_of_mem _ hu)).le
    simp only [List.length_cons, List.map_cons, List.sum_cons, Nat.cast_add, Nat.cast_one]
    linarith

theorem sqrt_mono_of_contract (sqrt : α → α) (hsqrt : SqrtContract sqrt) (x y : α)
    (hx : 0 ≤ x) (hxy : x ≤ y) : sqrt x ≤ sqrt y := by
  obtain ⟨hsx, hxx⟩ := hsqrt x hx
  obtain ⟨hsy, hyy⟩ := hsqrt y (hx.trans hxy)
  by_contra hlt
  have hlt' : sqrt y < sqrt x := not_le.mp hlt
  have := mul_self_lt_mul_self hsy hlt'
  linarith

/-- The heart of the truncation: among samples `vs` (at least one) whose mean square is `M`
and for a threshold `R ≥ 0` with `R * R = M`, those with `|v| ≤ 5/2 * R` are at least one,
and their mean square is at most `M`. -/
theorem truncated_mean_square_le (vs : List α) (hne : vs ≠ []) (R : α) (hR : 0 ≤ R)
    (hRR : R * R = (vs.map fun v => v * v).sum / (vs.length : α)) :
    1 ≤ (vs.filter fun v => !decide (|v| > 5 / 2 * R)).length ∧
    ((vs.filter fun v => !decide (|v| > 5 / 2 * R)).map fun v => v * v).sum /
        ((vs.filter fun v => !decide (|v| > 5 / 2 * R)).length : α) ≤
      (vs.map fun v => v * v).sum / (vs.length : α) := by
  have hn : (0 : α) < (vs.length : α) := by
    exact_mod_cast List.length_pos.mpr hne
  have hsum := sum_filter_add_sum_filter_not vs (fun v => !decide (|v| > 5 / 2 * R))
    (fun v => v * v)
  have hlen := length_filter_add_length_filter_not vs (fun v => !decide (|v| > 5 / 2 * R))
  have hlen' : ((vs.filter fun v => !decide (|v| > 5 / 2 * R)).length : α) +
      ((vs.filter fun v => !(!decide (|v| > 5 / 2 * R))).length : α) = (vs.length : α) := by
    exact_mod_cast hlen
  have hall : (vs.map fun v => v * v).sum = (vs.length : α) * (R * R) := by
    rw [hRR]
    field_simp
  have hbig : ∀ v ∈ vs.filter (fun v => !(!decide (|v| > 5 / 2 * R))), R * R < v * v := by
    intro v hv
    have hgt : |v| > 5 / 2 * R := by
      have := (List.mem_filter.mp hv).2
      simpa using this
    have h1 : R ≤ 5 / 2 * R := by linarith
    have h2 : R < |v| := lt_of_le_of_lt h1 hgt
    have h3 := mul_self_lt_mul_self hR h2
    rwa [abs_mul_abs_self] at h3
  have hrem := length_mul_le_sum (vs.filter fun v => !(!decide (|v| > 5 / 2 * R)))
    (fun v => v * v) (R * R) fun v hv => (hbig v hv).le
  have hk : 1 ≤ (vs.filter fun v => !decide (|v| > 5 / 2 * R)).length := by
    by_contra hzero
    have h0 : (vs.filter fun v => !decide (|v| > 5 / 2 * R)).length = 0 := by omega
    have hnil : vs.filter (fun v => !decide (|v| > 5 / 2 * R)) = [] :=
      List.length_eq_zero.mp h0
    have hfull : (vs.filter fun v => !(!decide (|v| > 5 / 2 * R))).length = vs.length := by
      omega
    have hne' : vs.filter (fun v => !(!decide (|v| > 5 / 2 * R))) ≠ [] := by
      intro h
      rw [h] at hfull
      exact hne (List.length_eq_zero.mp hfull.symm)
    have hstrict := length_mul_lt_sum _ (fun v => v * v) (R * R) hne' hbig
    rw [hnil] at hsum
    simp only [List.map_nil, List.sum_nil, zero_add] at hsum
    rw [hsum, hall, hfull] at hstrict
    exact lt_irrefl _ hstrict
  refine ⟨hk, ?_⟩
  have hkpos : (0 : α) < ((vs.filter fun v => !decide (|v| > 5 / 2 * R)).length : α) := by
    exact_mod_cast hk
  have hsplit : (vs.length : α) * (R * R) =
      ((vs.filter fun v => !decide (|v| > 5 / 2 * R)).length : α) * (R * R) +
        ((vs.filter fun v => !(!decide (|v| > 5 / 2 * R))).length : α) * (R * R) := by
    rw [← hlen']
    ring
  have hkept : ((vs.filter fun v => !decide (|v| > 5 / 2 * R)).map fun v => v * v).sum ≤
      ((vs.filter fun v => !decide (|v| > 5 / 2 * R)).length : α) * (R * R) := by
    linarith
  rw [div_le_div_iff₀ hkpos hn, hall]
  have := mul_le_mul_of_nonneg_right hkept hn.le
  linarith

theorem foldl_min_le (rest : List α) (first : α) :
    rest.foldl min first ≤ first ∧ ∀ v ∈ rest, rest.foldl min first ≤ v := by
  induction rest generalizing first with
  | nil => simp
  | cons u t ih =>
    obtain ⟨h1, h2⟩ := ih (min first u)
    refine ⟨h1.trans (min_le_left _ _), fun v hv => ?_⟩
    rcases List.mem_cons.mp hv with rfl | hv
    · exact h1.trans (min_le_right _ _)
    · exact h2 v hv

theorem le_foldl_max (rest : List α) (first : α) :
    first ≤ rest.foldl max first ∧ ∀ v ∈ rest, v ≤ rest.foldl max first := by
  induction rest generalizing first with
  | nil => simp
  | cons u t ih =>
    obtain ⟨h1, h2⟩ := ih (max first u)
    refine ⟨(le_max_left _ _).trans h1, fun v hv => ?_⟩
    rcases List.mem_cons.mp hv with rfl | hv
    · exact (le_max_right _ _).trans h1
    · exact h2 v hv

end TruncatedRms

section HistogramLoop

variable {α : Type} [LinearOrderedField α] [FloorRing α]

theorem floor_le_cround (x : α) : Int.floor x ≤ cround x := by
  unfold cround
  split
  · exact Int.floor_mono (by linarith)
  · rw [Int.le_ceil_iff]
    have := Int.floor_le x
    linarith

theorem cround_le_ceil (x : α) : cround x ≤ Int.ceil x := by
  unfold cround
  split
  · rw [Int.floor_le_iff]
    have := Int.le_ceil x
    linarith
  · exact Int.ceil_mono (by linarith)

/-- Every sample of a waveform falls in one of the `range` bins of the histogram. -/
theorem bin_in_range (first : α) (rest : List α) (v : α) (hv : v ∈ first :: rest) :
    0 ≤ cround v - Int.floor (rest.foldl min first) ∧
    cround v - Int.floor (rest.foldl min first) <
      Int.ceil (rest.foldl max first) - Int.floor (rest.foldl min first) + 1 := by
  have hmin : rest.foldl min first ≤ v := by
    rcases List.mem_cons.mp hv with rfl | h
    · exact (foldl_min_le rest _).1
    · exact (foldl_min_le rest first).2 v h
  have hmax : v ≤ rest.foldl max first := by
    rcases List.mem_cons.mp hv with rfl | h
    · exact (le_foldl_max rest _).1
    · exact (le_foldl_max rest first).2 v h
  have h1 := floor_le_cround v
  have h2 := cround_le_ceil v
  have h3 : Int.floor (rest.foldl min first) ≤ Int.floor v := Int.floor_mono hmin
  have h4 : Int.ceil v ≤ Int.ceil (rest.foldl max first) := Int.ceil_mono hmax
  omega

theorem getD_set_int (l : List Int) (b k : Nat) (v : Int) (hb : b < l.length) :
    (l.set b v).getD k 0 = if b = k then v else l.getD k 0 := by
  rw [List.getD_eq_getElem?_getD, List.getElem?_set, List.getD_eq_getElem?_getD]
  by_cases h : b = k
  · subst h
    simp [hb]
  · simp [h]

/-- One iteration of the histogram loop keeps the invariant and leaves `mpCount` positive,
for a sample that falls in one of the bins. -/
theorem histogramStep_invariant (minVal range : Int) (h : Histogram) (val : α)
    (hinv : HistogramInvariant range h) (h0 : 0 ≤ cround val - minVal)
    (h1 : cround val - minVal < range) :
    HistogramInvariant range (histogramStep minVal h val) ∧
      0 < (histogramStep minVal h val).mpCount := by
  obtain ⟨hlen, hnonneg, hle, hmp⟩ := hinv
  have hb : (cround val - minVal).toNat < h.frequencyVec.length := by
    rw [hlen]
    omega
  have hget := fun k =>
    getD_set_int h.frequencyVec (cround val - minVal).toNat k
      (h.frequencyVec.getD (cround val - minVal).toNat 0 + 1) hb
  have hself := hget (cround val - minVal).toNat
  rw [if_pos rfl] at hself
  have hb0 := hnonneg (cround val - minVal).toNat
  unfold histogramStep
  simp only [hself]
  by_cases hgt : h.frequencyVec.getD (cround val - minVal).toNat 0 + 1 > h.mpCount
  · rw [if_pos hgt]
    refine ⟨⟨by simp only [List.length_set]; exact hlen, ?_, ?_, ?_⟩, by simp only; omega⟩
    · intro k
      simp only [hget k]
      split
      · omega
      · exact hnonneg k
    · intro k
      simp only [hget k]
      split
      · exact le_refl _
      · have := hle k
        omega
    · intro _
      simp only [hself]
      exact ⟨h0, h1, trivial⟩
  · rw [if_neg hgt]
    have hpos : 0 < h.mpCount := by omega
    obtain ⟨hv0, hv1, hveq⟩ := hmp hpos
    refine ⟨⟨by simp only [List.length_set]; exact hlen, ?_, ?_, ?_⟩, hpos⟩
    · intro k
      simp only [hget k]
      split
      · omega
      · exact hnonneg k
    · intro k
      simp only [hget k]
      split
      · omega
      · exact hle k
    · intro _
      refine ⟨hv0, hv1, ?_⟩
      simp only [hget h.mpVal.toNat]
      split
      · rename_i heq
        rw [← heq] at hveq
        omega
      · exact hveq

theorem histogram_fold_invariant (minVal range : Int) (l : List α) (h : Histogram)
    (hinv : HistogramInvariant range h) (hpos : 0 < h.mpCount)
    (hl : ∀ v ∈ l, 0 ≤ cround v - minVal ∧ cround v - minVal < range) :
    HistogramInvariant range (l.foldl (histogramStep minVal) h) ∧
      0 < (l.foldl (histogramStep minVal) h).mpCount := by
  induction l generalizing h with
  | nil => exact ⟨hinv, hpos⟩
  | cons v t ih =>
    obtain ⟨hi, hp⟩ := histogramStep_invariant minVal range h v hinv
      (hl v (List.mem_cons_self _ _)).1 (hl v (List.mem_cons_self _ _)).2
    exact ih _ hi hp fun u hu => hl u (List.mem_cons_of_mem _ hu)

theorem empty_histogram_invariant (range : Int) :
    HistogramInvariant range
      { frequencyVec := List.replicate range.toNat 0, mpCount := 0, mpVal := 0 } := by
  refine ⟨by simp, ?_, ?_, ?_⟩
  · intro k
    simp only [List.getD_eq_getElem?_getD, List.getElem?_replicate]
    split <;> simp
  · intro k
    simp only [List.getD_eq_getElem?_getD, List.getElem?_replicate]
    split <;> simp
  · intro h
    simp at h

end HistogramLoop

section MeanLoop

variable {α : Type} [LinearOrderedField α] [FloorRing α]

/-- The averaging loop never decreases `meanCnt`, and adds the count of bin `mpVal` when it
comes to it. -/
theorem meanLoop_count (minVal range : Int) (frequencyVec : List Int) (mpVal binRange : Int)
    (hnonneg : ∀ k, 0 ≤ frequencyVec.getD k 0) (hbin : 0 ≤ binRange)
    (hv0 : 0 ≤ mpVal) (hv1 : mpVal < range) (ks : List Nat) (acc : Int × Int) :
    acc.2 ≤ (ks.foldl (fun (acc : Int × Int) (k : Nat) =>
        meanStep minVal range frequencyVec acc (mpVal - binRange + (k : Int))) acc).2 ∧
    (binRange.toNat ∈ ks →
      acc.2 + frequencyVec.getD mpVal.toNat 0 ≤ (ks.foldl (fun (acc : Int × Int) (k : Nat) =>
        meanStep minVal range frequencyVec acc (mpVal - binRange + (k : Int))) acc).2) := by
  induction ks generalizing acc with
  | nil => simp
  | cons k t ih =>
    have hstep : acc.2 ≤
        (meanStep minVal range frequencyVec acc (mpVal - binRange + (k : Int))).2 := by
      unfold meanStep
      split
      · exact le_refl _
      · have := hnonneg (mpVal - binRange + (k : Int)).toNat
        omega
    obtain ⟨h1, h2⟩ := ih (meanStep minVal range frequencyVec acc (mpVal - binRange + (k : Int)))
    simp only [List.foldl_cons]
    refine ⟨hstep.trans h1, fun hmem => ?_⟩
    rcases List.mem_cons.mp hmem with heq | hmem
    · have hidx : mpVal - binRange + (k : Int) = mpVal := by
        rw [← heq]
        omega
      have hval : acc.2 + frequencyVec.getD mpVal.toNat 0 ≤
          (meanStep minVal range frequencyVec acc (mpVal - binRange + (k : Int))).2 := by
        rw [hidx]
        unfold meanStep
        rw [if_neg (by omega)]
      exact hval.trans h1
    · have := h2 hmem
      omega

/-- For a waveform that is not empty `meanCnt` is positive. -/
theorem meanSums_count_pos (first : α) (rest : List α) : 0 < (meanSums first rest).2 := by
  have hrange := bin_in_range first rest
  obtain ⟨hi1, hp1⟩ := histogramStep_invariant (Int.floor (rest.foldl min first))
    (Int.ceil (rest.foldl max first) - Int.floor (rest.foldl min first) + 1)
    { frequencyVec := List.replicate
        (Int.ceil (rest.foldl max first) - Int.floor (rest.foldl min first) + 1).toNat 0,
      mpCount := 0, mpVal := 0 } first (empty_histogram_invariant _)
    (hrange first (List.mem_cons_self _ _)).1 (hrange first (List.mem_cons_self _ _)).2
  obtain ⟨⟨-, hnonneg, -, hmp⟩, hpos⟩ := histogram_fold_invariant
    (Int.floor (rest.foldl min first))
    (Int.ceil (rest.foldl max first) - Int.floor (rest.foldl min first) + 1) rest _ hi1 hp1
    (fun v hv => hrange v (List.mem_cons_of_mem _ hv))
  obtain ⟨hv0, hv1, hveq⟩ := hmp hpos
  have hr := hrange first (List.mem_cons_self _ _)
  have hbin : 1 ≤ min (16 : Int)
      ((Int.ceil (rest.foldl max first) - Int.floor (rest.foldl min first) + 1) / 2 + 1) :=
    le_min (by norm_num) (by omega)
  have hmem : (min (16 : Int)
      ((Int.ceil (rest.foldl max first) - Int.floor (rest.foldl min first) + 1) / 2 + 1)).toNat ∈
      List.range (2 * min (16 : Int)
        ((Int.ceil (rest.foldl max first) - Int.floor (rest.foldl min first) + 1) / 2 + 1)
          + 1).toNat := by
    rw [List.mem_range]
    omega
  have hcount := (meanLoop_count (Int.floor (rest.foldl min first))
    (Int.ceil (rest.foldl max first) - Int.floor (rest.foldl min first) + 1) _ _ _
    hnonneg (by omega) hv0 hv1 _ (0, 0)).2 hmem
  simp only [List.foldl_cons] at hveq hcount
  unfold meanSums
  simp only [List.foldl_cons]
  omega

/-- For a waveform that is not empty the pedestal `aveVal` is a finite number. -/
theorem mostProbableMean_finite (rawWaveform : List α) (hne : rawWaveform ≠ []) :
    ∃ aveVal, mostProbableMean rawWaveform = some aveVal := by
  cases rawWaveform with
  | nil => exact absurd rfl hne
  | cons first rest =>
    have hpos := meanSums_count_pos first rest
    have hcast : (((meanSums first rest).2 : Int) : α) ≠ 0 := by
      exact_mod_cast hpos.ne'
    exact ⟨_, fdiv_of_ne_zero _ _ hcast⟩

end MeanLoop

/-! ## Claims -/

/-- Witness of C1 on the array `[[1, 2], [3, 4]]` with noise variance 4 and window (2, 2). -/
theorem filterLee_reference_witness :
    ramp2x2 ≠ [] ∧ (∀ r ∈ ramp2x2, r.length = 2) ∧ 2 ≤ 2 ∧ 2 ≤ 2 ∧
    filterLee [] ramp2x2 4 2 2 = Except.ok (table 2 2
      (fun i j => leeReference ramp2x2 2 2 4 2 2 i j)) :=
  ⟨by simp [ramp2x2], by simp [ramp2x2], le_refl 2, le_refl 2,
    filterLee_reference [] ramp2x2 4 2 2 2 (by simp [ramp2x2]) (by simp [ramp2x2])
      (le_refl 2) (le_refl 2)⟩

/-- C2 (code defect): the public overloads of `filterLee` and `filterLeeEnhanced` hand
`(sx, sy, noiseVar)` to template parameters declared as `(noiseVar, sx, sy)`.  Called
with noise variance 4 and window (2, 2) on `[[1, 2], [3, 4]]`, they return what the
template returns for noise variance 2 and window (2, 4), which differs from what the
template returns for noise variance 4 and window (2, 2). -/
theorem public_overloads_permute_arguments :
    filterLeePublic [] ramp2x2 4 2 2 = filterLee [] ramp2x2 2 2 4 ∧
    filterLeePublic [] ramp2x2 4 2 2 =
      Except.ok [[some (3 / 2), some (3 / 2)], [some (5 / 2), some (5 / 2)]] ∧
    filterLee [] ramp2x2 4 2 2 =
      Except.ok [[some 1, some (3 / 2)], [some 2, some (5 / 2)]] ∧
    filterLeeEnhancedPublic [] ramp2x2 4 2 2 1 1 = filterLeeEnhanced [] ramp2x2 2 2 4 1 1 ∧
    filterLeeEnhancedPublic [] ramp2x2 4 2 2 1 1 =
      Except.ok [[some (3 / 4), some (3 / 4)], [some (2 / 3), some (85 / 116)]] ∧
    filterLeeEnhanced [] ramp2x2 4 2 2 1 1 =
      Except.ok [[some 1, some (3 / 4)], [some 1, some (19 / 28)]] := by
  refine ⟨?_, ?_, ?_, ?_, ?_, ?_⟩ <;> with_unfolding_all rfl

/-- C3 (code defect): for the scenario array with window (3, 3) the gathering loops at
the interior cell (1, 1) visit rows 0..1 and columns 0..1 only, four samples instead of
the nine of the centred neighbourhood; the local mean is 13/4, not the mean 2 of the
nine samples. -/
theorem window_not_centred :
    windowIndices 3 3 3 3 1 1 = [(0, 0), (0, 1), (1, 0), (1, 1)] ∧
    gatherX scenario3x3 3 3 3 3 1 1 = [1, 1, 1, 10] ∧
    leeStats scenario3x3 3 3 3 3 1 1 = some (13 / 4, 243 / 16) ∧
    leeCell scenario3x3 3 3 (1 / 10) 3 3 1 1 = some (448 / 45) ∧
    fdiv (accumulate scenario3x3.flatten) 9 = some 2 := by
  refine ⟨?_, ?_, ?_, ?_, ?_⟩ <;> with_unfolding_all rfl

/-- C4 (code defect, the one of C10): on the constant array `[[3, 3], [3, 3]]` with window
(2, 2), `a = 1`, `epsilon = 1` and noise variance 3, which exceeds the local variance the
code computes at every cell (0, 9/4, 9/4, 27/16), `filterLeeEnhanced<T>` outputs its
`localMean` everywhere, but this is the weighted mean divided once more by the number of
window samples: 3/2 and 3/4 where the weighted local mean of the window is 3. -/
theorem enhanced_flattens_to_divided_mean :
    enhancedStats flat2x2 2 2 3 2 2 1 1 0 0 = some (3, 0) ∧
    enhancedStats flat2x2 2 2 3 2 2 1 1 0 1 = some (3 / 2, 9 / 4) ∧
    enhancedStats flat2x2 2 2 3 2 2 1 1 1 0 = some (3 / 2, 9 / 4) ∧
    enhancedStats flat2x2 2 2 3 2 2 1 1 1 1 = some (3 / 4, 27 / 16) ∧
    enhancedWeights flat2x2 2 2 3 2 2 1 1 1 1 = some [1 / 4, 1 / 4, 1 / 4, 1 / 4] ∧
    inner_product (gatherX flat2x2 2 2 2 2 1 1) [1 / 4, 1 / 4, 1 / 4, 1 / 4] = 3 ∧
    filterLeeEnhanced [] flat2x2 3 2 2 1 1 =
      Except.ok [[some 3, some (3 / 2)], [some (3 / 2), some (3 / 4)]] := by
  refine ⟨?_, ?_, ?_, ?_, ?_, ?_, ?_⟩ <;> with_unfolding_all rfl

/-- C5 (counterexample): with noise variance 0 and window (2, 2) on `[[1, 2], [3, 4]]`, the
cell (1, 1) has local mean 5/2 and local variance 5/4, and `filterLee<T>` outputs the
observed sample 4 there, not the flat estimate 5/2. -/
theorem zero_noise_does_not_flatten :
    leeStats ramp2x2 2 2 2 2 1 1 = some (5 / 2, 5 / 4) ∧
    leeCell ramp2x2 2 2 0 2 2 1 1 = some 4 ∧
    filterLee [] ramp2x2 0 2 2 = Except.ok [[none, some 2], [some 3, some 4]] := by
  refine ⟨?_, ?_, ?_⟩ <;> with_unfolding_all rfl

/-- C5 (amended): on every rectangular array with at least one channel and for every window
`sx, sy ≥ 2`, `filterLee<T>` and `MMWF<T>` run with noise variance 0 return, and output at
every cell whose local variance is not 0 the observed sample itself; at a cell whose local
variance is 0 the quotient `0 / V` makes the output a non-finite value. -/
theorem zero_noise_returns_observed {α : Type} [LinearOrderedField α]
    (computeMedian : List α → α) (out : List (List (Option α))) (w : List (List α))
    (sx sy nTicks : Nat) (hne : w ≠ []) (hrect : ∀ r ∈ w, r.length = nTicks)
    (hsx : 2 ≤ sx) (hsy : 2 ≤ sy) :
    filterLee out w 0 sx sy = Except.ok (table w.length nTicks (fun i j =>
      if refVar w w.length nTicks sx sy i j = 0 then none else some (at2 w i j))) ∧
    MMWF computeMedian out w 0 sx sy = Except.ok (table w.length nTicks (fun i j =>
      if refVar w w.length nTicks sx sy i j = 0 then none else some (at2 w i j))) := by
  constructor
  · rw [filterLee_eq_table out w 0 sx sy nTicks hne hrect]
    congr 1
    apply table_congr
    intro i hi j hj
    simp only [leeCell, leeStats_eq_ref w w.length nTicks sx sy i j hi hj hsx hsy,
      Option.some_bind, blend_eq_refBlend, refBlend_zero_noise _ _ _ (refVar_nonneg _ _ _ _ _ _ _)]
  · rw [MMWF_eq_table computeMedian out w 0 sx sy nTicks hne hrect]
    congr 1
    apply table_congr
    intro i hi j hj
    simp only [mmwfCell, mmwfStats_eq_ref computeMedian w w.length nTicks sx sy i j hi hj hsx hsy,
      Option.some_bind, blend_eq_refBlend, refBlend_zero_noise _ _ _ (refVar_nonneg _ _ _ _ _ _ _)]

/-- Witness of the amended C5 on `[[1, 2], [3, 4]]` with window (2, 2). -/
theorem zero_noise_returns_observed_witness :
    ramp2x2 ≠ [] ∧ (∀ r ∈ ramp2x2, r.length = 2) ∧ 2 ≤ 2 ∧ 2 ≤ 2 ∧
    filterLee [] ramp2x2 0 2 2 = Except.ok (table 2 2 (fun i j =>
      if refVar ramp2x2 2 2 2 2 i j = 0 then none else some (at2 ramp2x2 i j))) ∧
    MMWF upperMedian [] ramp2x2 0 2 2 = Except.ok (table 2 2 (fun i j =>
      if refVar ramp2x2 2 2 2 2 i j = 0 then none else some (at2 ramp2x2 i j))) :=
  ⟨by simp [ramp2x2], by simp [ramp2x2], le_refl 2, le_refl 2,
    zero_noise_returns_observed upperMedian [] ramp2x2 2 2 2 (by simp [ramp2x2])
      (by simp [ramp2x2]) (le_refl 2) (le_refl 2)⟩

/-- C6 (code defect, the one of C3): with window (1, 1) both half windows are 0, the loops
`for ix in [i, i)` gather no sample at all, the local mean is `0.0 / 0`, and every variant
outputs a non-finite value instead of the input sample 5. -/
theorem unit_window_gathers_nothing :
    windowIndices 1 1 1 1 0 0 = [] ∧
    gatherX single1x1 1 1 1 1 0 0 = [] ∧
    leeStats single1x1 1 1 1 1 0 0 = none ∧
    filterLee [] single1x1 1 1 1 = Except.ok [[none]] ∧
    MMWF upperMedian [] single1x1 1 1 1 = Except.ok [[none]] ∧
    MMWFStar upperMedian [] single1x1 1 1 = Except.ok [[none]] ∧
    filterLeeEnhanced [] single1x1 1 1 1 1 1 = Except.ok [[none]] := by
  refine ⟨?_, ?_, ?_, ?_, ?_, ?_, ?_⟩ <;> with_unfolding_all rfl

/-- C10 (code defect): on the constant array `[[3, 3], [3, 3]]` with window (2, 2),
noise variance 1, `a = 1` and `epsilon = 1`, the window of cell (1, 1) holds four samples
3 with normalised weights 1/4 each, whose weighted mean is 3; the flat estimate the code
uses is 3/4 and its second moment 9/4, both divided once more by the sample count 4. -/
theorem enhanced_mean_divided_twice :
    gatherX flat2x2 2 2 2 2 1 1 = [3, 3, 3, 3] ∧
    enhancedWeights flat2x2 2 2 1 2 2 1 1 1 1 = some [1 / 4, 1 / 4, 1 / 4, 1 / 4] ∧
    inner_product (gatherX flat2x2 2 2 2 2 1 1) [1 / 4, 1 / 4, 1 / 4, 1 / 4] = 3 ∧
    inner_product (gatherXsq flat2x2 2 2 2 2 1 1) [1 / 4, 1 / 4, 1 / 4, 1 / 4] = 9 ∧
    enhancedStats flat2x2 2 2 1 2 2 1 1 1 1 = some (3 / 4, 9 / 4 - 3 / 4 * (3 / 4)) ∧
    enhancedCell flat2x2 2 2 2 2 2 1 1 1 1 = some (3 / 4) := by
  refine ⟨?_, ?_, ?_, ?_, ?_, ?_⟩ <;> with_unfolding_all rfl

/-- C7 (counterexample): on the constant array `[[3, 3], [3, 3]]` with window (2, 2) the cell
(0, 0) has local mean 3 and local variance exactly 0; with noise variance -1 the test
`noiseVar > localVar` fails, the quotient `-1 / 0` is evaluated, and the output of every
cell is a non-finite value, not the flat estimate 3. -/
theorem zero_variance_not_guarded :
    leeStats flat2x2 2 2 2 2 0 0 = some (3, 0) ∧
    fdiv (-1 : ℚ) 0 = none ∧
    leeCell flat2x2 2 2 (-1) 2 2 0 0 = none ∧
    filterLee [] flat2x2 (-1) 2 2 = Except.ok [[none, none], [none, none]] := by
  refine ⟨?_, ?_, ?_, ?_⟩ <;> with_unfolding_all rfl

/-- C7 (amended): in each of the four variants, a cell whose local variance is exactly 0 is
output as its flat estimate `F` when the noise variance is positive; when the noise
variance is zero or negative the quotient `s2 / 0` is evaluated and the output is a
non-finite value.  For `MMWFStar` the noise variance is the estimate `nm` of the array. -/
theorem zero_variance_blend {α : Type} [LinearOrderedField α] (computeMedian : List α → α)
    (w : List (List α)) (n m : Nat) (noiseVar : α) (sx sy : Nat) (a epsilon : α)
    (i j : Nat) (F : α) :
    (leeStats w n m sx sy i j = some (F, 0) →
      leeCell w n m noiseVar sx sy i j = if noiseVar > 0 then some F else none) ∧
    (mmwfStats computeMedian w n m sx sy i j = some (F, 0) →
      mmwfCell computeMedian w n m noiseVar sx sy i j =
        if noiseVar > 0 then some F else none) ∧
    (enhancedStats w n m noiseVar sx sy a epsilon i j = some (F, 0) →
      enhancedCell w n m noiseVar sx sy a epsilon i j =
        if noiseVar > 0 then some F else none) ∧
    (i < n → j < m → starStats computeMedian w n m sx sy i j = (F, some 0) →
      ∀ nm, medianOfValues computeMedian
          (starPass1 computeMedian w n m sx sy (starInit n m)).localVarTemp = some nm →
        starCell w (starPass1 computeMedian w n m sx sy (starInit n m))
          (medianOfValues computeMedian
            (starPass1 computeMedian w n m sx sy (starInit n m)).localVarTemp) i j =
          if nm > 0 then some F else none) := by
  have hb : ∀ (s2 obs : α), blend F 0 s2 obs = if s2 > 0 then some F else none := by
    intro s2 obs
    by_cases h : s2 > 0
    · simp [blend, h]
    · simp [blend, h, fdiv]
  refine ⟨?_, ?_, ?_, ?_⟩
  · intro h
    simp only [leeCell, h, Option.some_bind, hb]
  · intro h
    simp only [mmwfCell, h, Option.some_bind, hb]
  · intro h
    simp only [enhancedCell, h, Option.some_bind, hb]
  · intro hi hj h nm hnm
    rw [hnm]
    simp only [starCell, starPass1_eq, Option.some_bind, table_getD _ _ _ _ i j hi hj, h, hb]

/-- Witness of the amended C7: cell (0, 0) of the constant array `[[3, 3], [3, 3]]` with window
(2, 2) and noise variance 1 (for `MMWFStar` the noise estimate of the array is 0). -/
theorem zero_variance_blend_witness :
    (leeStats flat2x2 2 2 2 2 0 0 = some (3, 0) ∧
      leeCell flat2x2 2 2 1 2 2 0 0 = if (1 : ℚ) > 0 then some 3 else none) ∧
    (mmwfStats upperMedian flat2x2 2 2 2 2 0 0 = some (3, 0) ∧
      mmwfCell upperMedian flat2x2 2 2 1 2 2 0 0 = if (1 : ℚ) > 0 then some 3 else none) ∧
    (enhancedStats flat2x2 2 2 1 2 2 1 1 0 0 = some (3, 0) ∧
      enhancedCell flat2x2 2 2 1 2 2 1 1 0 0 = if (1 : ℚ) > 0 then some 3 else none) ∧
    (0 < 2 ∧ starStats upperMedian flat2x2 2 2 2 2 0 0 = (3, some 0) ∧
      medianOfValues upperMedian
        (starPass1 upperMedian flat2x2 2 2 2 2 (starInit 2 2)).localVarTemp = some 0 ∧
      starCell flat2x2 (starPass1 upperMedian flat2x2 2 2 2 2 (starInit 2 2))
        (medianOfValues upperMedian
          (starPass1 upperMedian flat2x2 2 2 2 2 (starInit 2 2)).localVarTemp) 0 0 =
        if (0 : ℚ) > 0 then some 3 else none) :=
  have h1 : leeStats flat2x2 2 2 2 2 0 0 = some (3, 0) := by with_unfolding_all rfl
  have h2 : mmwfStats upperMedian flat2x2 2 2 2 2 0 0 = some (3, 0) := by with_unfolding_all rfl
  have h3 : enhancedStats flat2x2 2 2 1 2 2 1 1 0 0 = some (3, 0) := by with_unfolding_all rfl
  have h4 : starStats upperMedian flat2x2 2 2 2 2 0 0 = (3, some 0) := by with_unfolding_all rfl
  have h5 : medianOfValues upperMedian
      (starPass1 upperMedian flat2x2 2 2 2 2 (starInit 2 2)).localVarTemp = some 0 := by
    with_unfolding_all rfl
  have h := zero_variance_blend upperMedian flat2x2 2 2 1 2 2 1 1 0 0 3
  ⟨⟨h1, h.1 h1⟩, ⟨h2, h.2.1 h2⟩, ⟨h3, h.2.2.1 h3⟩,
    ⟨by decide, h4, h5, h.2.2.2 (by decide) (by decide) h4 0 h5⟩⟩

/-- C8: on every rectangular array with at least one channel, for every noise variance and
every window `sx, sy ≥ 2`, `MMWF<T>` returns, and its output holds at every cell `M` if
`s2 > V` and otherwise `M + (1 - s2 / V) * (in[i][j] - M)`, with `M` the `computeMedian` of
the gathered window samples and `V` the local variance of the Lee filter; the value of a
cell is the one of `filterLee<T>` with `M` in place of the local mean as flat estimate. -/
theorem MMWF_reference {α : Type} [LinearOrderedField α] (computeMedian : List α → α)
    (out : List (List (Option α))) (w : List (List α)) (noiseVar : α) (sx sy nTicks : Nat)
    (hne : w ≠ []) (hrect : ∀ r ∈ w, r.length = nTicks) (hsx : 2 ≤ sx) (hsy : 2 ≤ sy) :
    MMWF computeMedian out w noiseVar sx sy = Except.ok (table w.length nTicks
      (fun i j => mmwfReference computeMedian w w.length nTicks noiseVar sx sy i j)) ∧
    ∀ i j, mmwfCell computeMedian w w.length nTicks noiseVar sx sy i j =
      (leeStats w w.length nTicks sx sy i j).bind fun s =>
        blend (computeMedian (gatherX w w.length nTicks sx sy i j)) s.2 noiseVar (at2 w i j) := by
  constructor
  · rw [MMWF_eq_table computeMedian out w noiseVar sx sy nTicks hne hrect]
    congr 1
    apply table_congr
    intro i hi j hj
    simp only [mmwfCell, mmwfStats_eq_ref computeMedian w w.length nTicks sx sy i j hi hj hsx hsy,
      Option.some_bind, blend_eq_refBlend, mmwfReference]
  · intro i j
    simp only [mmwfCell, mmwfStats, leeStats]
    generalize fdiv (accumulate (gatherX w w.length nTicks sx sy i j))
      ((gatherX w w.length nTicks sx sy i j).length : α) = localMean
    generalize fdiv (accumulate (gatherXsq w w.length nTicks sx sy i j))
      ((gatherX w w.length nTicks sx sy i j).length : α) = localSquare
    cases localMean <;> cases localSquare <;> rfl

/-- Witness of C8 on `[[1, 2], [3, 4]]` with noise variance 1 and window (2, 2). -/
theorem MMWF_reference_witness :
    ramp2x2 ≠ [] ∧ (∀ r ∈ ramp2x2, r.length = 2) ∧ 2 ≤ 2 ∧ 2 ≤ 2 ∧
    (MMWF upperMedian [] ramp2x2 1 2 2 = Except.ok (table 2 2
      (fun i j => mmwfReference upperMedian ramp2x2 2 2 1 2 2 i j)) ∧
    ∀ i j, mmwfCell upperMedian ramp2x2 2 2 1 2 2 i j =
      (leeStats ramp2x2 2 2 2 2 i j).bind fun s =>
        blend (upperMedian (gatherX ramp2x2 2 2 2 2 i j)) s.2 1 (at2 ramp2x2 i j)) :=
  ⟨by simp [ramp2x2], by simp [ramp2x2], le_refl 2, le_refl 2,
    MMWF_reference upperMedian [] ramp2x2 1 2 2 2 (by simp [ramp2x2]) (by simp [ramp2x2])
      (le_refl 2) (le_refl 2)⟩

/-- C9: on every rectangular array with at least one cell and for every window `sx, sy ≥ 2`,
`MMWFStar<T>` returns, and its output holds at every cell the blend rule with flat estimate
the local median of the cell, variance the surrogate
`S = secondMoment - 2 * mean * median + mean^2` of the cell's window, and noise variance
`computeMedian` of the surrogates of all `numChannels * nTicks` cells. -/
theorem MMWFStar_reference {α : Type} [LinearOrderedField α] (computeMedian : List α → α) (out : List (List (Option α)))
    (w : List (List α)) (sx sy nTicks : Nat) (hne : w ≠ [])
    (hrect : ∀ r ∈ w, r.length = nTicks) (hsx : 2 ≤ sx) (hsy : 2 ≤ sy) :
    MMWFStar computeMedian out w sx sy = Except.ok (table w.length nTicks
      (fun i j => starReference computeMedian w w.length nTicks sx sy i j)) := by
  cases w with
  | nil => exact absurd rfl hne
  | cons row0 rest =>
    have h0 : row0.length = nTicks := hrect row0 (List.mem_cons_self _ _)
    simp only [MMWFStar, h0]
    rw [fillCells_eq_table _ _ _ _ (resizeOutput_length _ _ _) (resizeOutput_rows _ _ _)]
    congr 1
    apply table_congr
    intro i hi j hj
    rw [starPass1_eq]
    have hflat := flatMap_range_congr (row0 :: rest).length nTicks
      (fun i j => (starStats computeMedian (row0 :: rest) (row0 :: rest).length nTicks sx sy i j).2)
      (fun i j => some (starSurrogate computeMedian (row0 :: rest) (row0 :: rest).length
        nTicks sx sy i j))
      (fun i hi j hj => by
        show (starStats computeMedian (row0 :: rest) (row0 :: rest).length nTicks sx sy i j).2 = _
        rw [starStats_eq_ref computeMedian _ _ _ sx sy i j hi hj hsx hsy])
    simp only [starCell, hflat, flatMap_map_some, medianOfValues_map_some, Option.some_bind,
      table_getD _ _ _ _ i j hi hj,
      starStats_eq_ref computeMedian _ _ _ sx sy i j hi hj hsx hsy, blend_eq_refBlend,
      starReference, starNoiseReference]


/-- Witness of C9 on `[[1, 2], [3, 4]]` with window (2, 2). -/
theorem MMWFStar_reference_witness :
    ramp2x2 ≠ [] ∧ (∀ r ∈ ramp2x2, r.length = 2) ∧ 2 ≤ 2 ∧ 2 ≤ 2 ∧
    MMWFStar upperMedian [] ramp2x2 2 2 = Except.ok (table 2 2
      (fun i j => starReference upperMedian ramp2x2 2 2 2 2 i j)) :=
  ⟨by simp [ramp2x2], by simp [ramp2x2], le_refl 2, le_refl 2,
    MMWFStar_reference upperMedian [] ramp2x2 2 2 2 (by simp [ramp2x2]) (by simp [ramp2x2])
      (le_refl 2) (le_refl 2)⟩

/-- C11: on every rectangular input with at least one channel, and whatever the previous
content and size of the output argument, each of the four filter templates returns and
leaves the output with exactly `numChannels` rows of exactly `nTicks` entries, the entry
`(i, j)` being the value the filter computed for cell `(i, j)`. -/
theorem output_has_input_shape {α : Type} [LinearOrderedField α] (computeMedian : List α → α)
    (out : List (List (Option α))) (w : List (List α)) (noiseVar : α) (sx sy : Nat)
    (a epsilon : α) (nTicks : Nat) (hne : w ≠ []) (hrect : ∀ r ∈ w, r.length = nTicks) :
    (∃ res, filterLee out w noiseVar sx sy = Except.ok res ∧ HasShape res w.length nTicks ∧
      res = table w.length nTicks (fun i j => leeCell w w.length nTicks noiseVar sx sy i j)) ∧
    (∃ res, MMWF computeMedian out w noiseVar sx sy = Except.ok res ∧
      HasShape res w.length nTicks ∧
      res = table w.length nTicks
        (fun i j => mmwfCell computeMedian w w.length nTicks noiseVar sx sy i j)) ∧
    (∃ res, MMWFStar computeMedian out w sx sy = Except.ok res ∧
      HasShape res w.length nTicks ∧
      res = table w.length nTicks
        (fun i j => starCell w (starPass1 computeMedian w w.length nTicks sx sy
            (starInit w.length nTicks))
          (medianOfValues computeMedian (starPass1 computeMedian w w.length nTicks sx sy
            (starInit w.length nTicks)).localVarTemp) i j)) ∧
    (∃ res, filterLeeEnhanced out w noiseVar sx sy a epsilon = Except.ok res ∧
      HasShape res w.length nTicks ∧
      res = table w.length nTicks
        (fun i j => enhancedCell w w.length nTicks noiseVar sx sy a epsilon i j)) :=
  ⟨⟨_, filterLee_eq_table out w noiseVar sx sy nTicks hne hrect, table_hasShape _ _ _, rfl⟩,
    ⟨_, MMWF_eq_table computeMedian out w noiseVar sx sy nTicks hne hrect,
      table_hasShape _ _ _, rfl⟩,
    ⟨_, MMWFStar_eq_table computeMedian out w sx sy nTicks hne hrect,
      table_hasShape _ _ _, rfl⟩,
    ⟨_, filterLeeEnhanced_eq_table out w noiseVar sx sy a epsilon nTicks hne hrect,
      table_hasShape _ _ _, rfl⟩⟩

/-- Witness of C11: the 2×2 array `[[1, 2], [3, 4]]` filtered into an output argument that
held one row of three entries before the call. -/
theorem output_has_input_shape_witness :
    ramp2x2 ≠ [] ∧ (∀ r ∈ ramp2x2, r.length = 2) ∧
    ((∃ res, filterLee [[some 7, none, some 9]] ramp2x2 1 3 3 = Except.ok res ∧
      HasShape res 2 2 ∧
      res = table 2 2 (fun i j => leeCell ramp2x2 2 2 1 3 3 i j)) ∧
    (∃ res, MMWF upperMedian [[some 7, none, some 9]] ramp2x2 1 3 3 = Except.ok res ∧
      HasShape res 2 2 ∧
      res = table 2 2 (fun i j => mmwfCell upperMedian ramp2x2 2 2 1 3 3 i j)) ∧
    (∃ res, MMWFStar upperMedian [[some 7, none, some 9]] ramp2x2 3 3 = Except.ok res ∧
      HasShape res 2 2 ∧
      res = table 2 2
        (fun i j => starCell ramp2x2 (starPass1 upperMedian ramp2x2 2 2 3 3 (starInit 2 2))
          (medianOfValues upperMedian
            (starPass1 upperMedian ramp2x2 2 2 3 3 (starInit 2 2)).localVarTemp) i j)) ∧
    (∃ res, filterLeeEnhanced [[some 7, none, some 9]] ramp2x2 1 3 3 1 1 = Except.ok res ∧
      HasShape res 2 2 ∧
      res = table 2 2 (fun i j => enhancedCell ramp2x2 2 2 1 3 3 1 1 i j))) :=
  ⟨by simp [ramp2x2], by simp [ramp2x2],
    output_has_input_shape upperMedian [[some 7, none, some 9]] ramp2x2 1 3 3 1 1 2
      (by simp [ramp2x2]) (by simp [ramp2x2])⟩

/-- C12: called with an input array that has no channels, each of the four filter templates
is left by the exception of `waveLessCoherent.at(0)` and the output argument keeps the
content it had before the call. -/
theorem empty_input_throws {α : Type} [LinearOrderedField α] (computeMedian : List α → α)
    (out : List (List (Option α))) (noiseVar : α) (sx sy : Nat) (a epsilon : α) :
    filterLee out [] noiseVar sx sy = Except.error Failure.outOfRange ∧
    MMWF computeMedian out [] noiseVar sx sy = Except.error Failure.outOfRange ∧
    MMWFStar computeMedian out [] sx sy = Except.error Failure.outOfRange ∧
    filterLeeEnhanced out [] noiseVar sx sy a epsilon = Except.error Failure.outOfRange ∧
    filterOutcome out (filterLee out [] noiseVar sx sy) =
      { args := out, thrown := some Failure.outOfRange } ∧
    filterOutcome out (MMWF computeMedian out [] noiseVar sx sy) =
      { args := out, thrown := some Failure.outOfRange } ∧
    filterOutcome out (MMWFStar computeMedian out [] sx sy) =
      { args := out, thrown := some Failure.outOfRange } ∧
    filterOutcome out (filterLeeEnhanced out [] noiseVar sx sy a epsilon) =
      { args := out, thrown := some Failure.outOfRange } :=
  ⟨rfl, rfl, rfl, rfl, rfl, rfl, rfl, rfl⟩

/-- C13 (counterexample): called on the 1×1 array `[[5]]` with window `sx = 0` or `sy = 0`,
the four filter templates do not fail: each returns normally and writes an output value. -/
theorem zero_window_not_rejected :
    filterLee [] single1x1 1 0 3 = Except.ok [[none]] ∧
    filterLee [] single1x1 1 3 0 = Except.ok [[none]] ∧
    MMWF upperMedian [] single1x1 1 0 3 = Except.ok [[none]] ∧
    MMWFStar upperMedian [] single1x1 0 3 = Except.ok [[none]] ∧
    filterLeeEnhanced [] single1x1 1 0 3 1 1 = Except.ok [[none]] := by
  refine ⟨?_, ?_, ?_, ?_, ?_⟩ <;> with_unfolding_all rfl

/-- C13 (amended): on every non-empty rectangular input, each of the four filter templates
called with `sx = 0` or `sy = 0` returns normally; its output has the shape of the input and
every entry of it is a non-finite value (no sample is gathered, the local mean is `0.0 / 0`). -/
theorem zero_window_returns_non_finite {α : Type} [LinearOrderedField α]
    (computeMedian : List α → α) (out : List (List (Option α))) (w : List (List α))
    (noiseVar : α) (sx sy : Nat) (a epsilon : α) (nTicks : Nat) (hne : w ≠ [])
    (hrect : ∀ r ∈ w, r.length = nTicks) (hwin : sx = 0 ∨ sy = 0) :
    filterLee out w noiseVar sx sy = Except.ok (table w.length nTicks (fun _ _ => none)) ∧
    MMWF computeMedian out w noiseVar sx sy =
      Except.ok (table w.length nTicks (fun _ _ => none)) ∧
    MMWFStar computeMedian out w sx sy =
      Except.ok (table w.length nTicks (fun _ _ => none)) ∧
    filterLeeEnhanced out w noiseVar sx sy a epsilon =
      Except.ok (table w.length nTicks (fun _ _ => none)) := by
  have h : sx < 2 ∨ sy < 2 := by omega
  refine ⟨?_, ?_, ?_, ?_⟩
  · rw [filterLee_eq_table out w noiseVar sx sy nTicks hne hrect]
    congr 1
    exact table_congr _ _ _ _ fun i _ j _ => leeCell_eq_none w _ _ noiseVar sx sy i j h
  · rw [MMWF_eq_table computeMedian out w noiseVar sx sy nTicks hne hrect]
    congr 1
    exact table_congr _ _ _ _ fun i _ j _ =>
      mmwfCell_eq_none computeMedian w _ _ noiseVar sx sy i j h
  · rw [MMWFStar_eq_table computeMedian out w sx sy nTicks hne hrect]
    congr 1
    exact table_congr _ _ _ _ fun i hi j hj =>
      starCell_eq_none computeMedian w _ _ sx sy _ i j hi hj h
  · rw [filterLeeEnhanced_eq_table out w noiseVar sx sy a epsilon nTicks hne hrect]
    congr 1
    exact table_congr _ _ _ _ fun i _ j _ =>
      enhancedCell_eq_none w _ _ noiseVar sx sy a epsilon i j h

/-- Witness of the amended C13 on `[[1, 2], [3, 4]]` with window (0, 3). -/
theorem zero_window_returns_non_finite_witness :
    ramp2x2 ≠ [] ∧ (∀ r ∈ ramp2x2, r.length = 2) ∧ ((0 : Nat) = 0 ∨ 3 = 0) ∧
    (filterLee [] ramp2x2 1 0 3 = Except.ok (table 2 2 (fun _ _ => none)) ∧
    MMWF upperMedian [] ramp2x2 1 0 3 = Except.ok (table 2 2 (fun _ _ => none)) ∧
    MMWFStar upperMedian [] ramp2x2 0 3 = Except.ok (table 2 2 (fun _ _ => none)) ∧
    filterLeeEnhanced [] ramp2x2 1 0 3 1 1 = Except.ok (table 2 2 (fun _ _ => none))) :=
  ⟨by simp [ramp2x2], by simp [ramp2x2], Or.inl rfl,
    zero_window_returns_non_finite upperMedian [] ramp2x2 1 0 3 1 1 2 (by simp [ramp2x2])
      (by simp [ramp2x2]) (Or.inl rfl)⟩

/-- C14: for an engine of length `N`, `forwardFFT` throws if and only if the time vector
does not have `N` entries, and then leaves the frequency-vector argument as it was; for such
a time vector `convolute`, `deconvolute` and `getFFTPower` are left by the same exception,
the time vector (for `getFFTPower`: the output vector) keeping its content. -/
theorem size_mismatch_fails_fast {α : Type} [LinearOrderedField α] (E : ICARUSFFT α)
    (cabs : Cpx α → α) (timeVec : List α) (frequencyVec kernel : List (Cpx α))
    (timeOffset : Int) (outputPowerVec : List α) :
    ((E.forwardFFT timeVec frequencyVec).thrown ≠ none ↔
      timeVec.length ≠ E.numTimeSamples) ∧
    (timeVec.length ≠ E.numTimeSamples →
      E.forwardFFT timeVec frequencyVec =
        { args := frequencyVec, thrown := some FFTFailure.timeVectorSize } ∧
      E.convolute timeVec kernel timeOffset =
        { args := timeVec, thrown := some FFTFailure.timeVectorSize } ∧
      E.deconvolute timeVec kernel timeOffset =
        { args := timeVec, thrown := some FFTFailure.timeVectorSize } ∧
      E.getFFTPower cabs timeVec outputPowerVec =
        { args := outputPowerVec, thrown := some FFTFailure.timeVectorSize }) := by
  constructor
  · by_cases h : timeVec.length = E.numTimeSamples
    · simp [ICARUSFFT.forwardFFT, h]
    · simp [ICARUSFFT.forwardFFT, h]
  · intro h
    have hf : ∀ f, E.forwardFFT timeVec f =
        { args := f, thrown := some FFTFailure.timeVectorSize } := by
      intro f
      simp [ICARUSFFT.forwardFFT, h]
    have hc : E.convoluteCommon timeVec kernel =
        { args := timeVec, thrown := some FFTFailure.timeVectorSize } := by
      simp [ICARUSFFT.convoluteCommon, h]
    refine ⟨hf _, ?_, ?_, ?_⟩
    · simp only [ICARUSFFT.convolute, hc]
    · simp only [ICARUSFFT.deconvolute, hc]
    · simp only [ICARUSFFT.getFFTPower, hf]

/-- Witness of C14: a time vector of three samples given to the engine of length 4. -/
theorem size_mismatch_fails_fast_witness :
    ([1, 2, 3] : List ℚ).length ≠ engine4.numTimeSamples ∧
    (((engine4.forwardFFT [1, 2, 3] [Cpx.zero]).thrown ≠ none ↔
      ([1, 2, 3] : List ℚ).length ≠ engine4.numTimeSamples) ∧
    (([1, 2, 3] : List ℚ).length ≠ engine4.numTimeSamples →
      engine4.forwardFFT [1, 2, 3] [Cpx.zero] =
        { args := [Cpx.zero], thrown := some FFTFailure.timeVectorSize } ∧
      engine4.convolute [1, 2, 3] onesKernel4 1 =
        { args := [1, 2, 3], thrown := some FFTFailure.timeVectorSize } ∧
      engine4.deconvolute [1, 2, 3] onesKernel4 1 =
        { args := [1, 2, 3], thrown := some FFTFailure.timeVectorSize } ∧
      engine4.getFFTPower axisAbs [1, 2, 3] [7] =
        { args := [7], thrown := some FFTFailure.timeVectorSize })) :=
  ⟨by decide, size_mismatch_fails_fast engine4 axisAbs [1, 2, 3] [Cpx.zero] onesKernel4 1 [7]⟩

/-- C15 (counterexample): the engine of length 4 rejects a frequency vector of
`4 / 2 + 1 = 3` bins, and leaves the time-vector argument as it was. -/
theorem half_spectrum_rejected :
    ([Cpx.zero, Cpx.zero, Cpx.zero] : List (Cpx ℚ)).length = engine4.numTimeSamples / 2 + 1 ∧
    engine4.inverseFFT [Cpx.zero, Cpx.zero, Cpx.zero] [9] =
      { args := [9], thrown := some FFTFailure.frequencyVectorSize } := by
  constructor <;> with_unfolding_all rfl

/-- C15 (amended): for an engine of length `N`, `inverseFFT` accepts every frequency vector
holding at least `N` complex bins and throws the size-mismatch error exactly for the vectors
shorter than `N`, leaving then the time-vector argument as it was. -/
theorem inverseFFT_accepts_iff {α : Type} [LinearOrderedField α] (E : ICARUSFFT α)
    (frequencyVec : List (Cpx α)) (timeVec : List α) :
    ((E.inverseFFT frequencyVec timeVec).thrown = none ↔
      E.numTimeSamples ≤ frequencyVec.length) ∧
    ((E.inverseFFT frequencyVec timeVec).thrown = some FFTFailure.frequencyVectorSize ↔
      frequencyVec.length < E.numTimeSamples) ∧
    (frequencyVec.length < E.numTimeSamples →
      E.inverseFFT frequencyVec timeVec =
        { args := timeVec, thrown := some FFTFailure.frequencyVectorSize }) := by
  by_cases h : frequencyVec.length < E.numTimeSamples
  · simp [ICARUSFFT.inverseFFT, h]
  · simp [ICARUSFFT.inverseFFT, h, not_lt.mp h]

/-- Witness of the amended C15: three bins given to the engine of length 4. -/
theorem inverseFFT_accepts_iff_witness :
    ([Cpx.zero, Cpx.zero, Cpx.zero] : List (Cpx ℚ)).length < engine4.numTimeSamples ∧
    engine4.inverseFFT [Cpx.zero, Cpx.zero, Cpx.zero] [9] =
      { args := [9], thrown := some FFTFailure.frequencyVectorSize } :=
  ⟨by decide,
    (inverseFFT_accepts_iff engine4 [Cpx.zero, Cpx.zero, Cpx.zero] [9]).2.2 (by decide)⟩

/-- C16: for an engine of length `N ≥ 1` whose library transform stores `N / 2 + 1` bins,
and for every real input of length `N`, `forwardFFT` returns and leaves a frequency vector
of length `N` whose bins `0 .. N / 2` are the half spectrum produced by the real-to-complex
transform and whose every bin `k` with `N / 2 < k < N` is the complex conjugate of bin
`N - k`. -/
theorem forwardFFT_output_layout {α : Type} [LinearOrderedField α] (E : ICARUSFFT α)
    (timeVec : List α) (frequencyVec : List (Cpx α)) (hC : FFTWContract E)
    (hN : 0 < E.numTimeSamples) (hx : timeVec.length = E.numTimeSamples) :
    ∃ out, E.forwardFFT timeVec frequencyVec = { args := out, thrown := none } ∧
      out.length = E.numTimeSamples ∧
      (∀ k, k ≤ E.numTimeSamples / 2 → out[k]? = (E.r2c timeVec)[k]?) ∧
      (∀ k, E.numTimeSamples / 2 < k → k < E.numTimeSamples →
        out[k]? = (out[E.numTimeSamples - k]?).map Cpx.conj) :=
  forwardFFT_layout E timeVec frequencyVec hN hx (hC.1 timeVec hx)

/-- Witness of C16: the samples `[1, 2, 3, 4]` given to the engine of length 4, the
frequency-vector argument holding one bin before the call. -/
theorem forwardFFT_output_layout_witness :
    FFTWContract engine4 ∧ 0 < engine4.numTimeSamples ∧
    ([1, 2, 3, 4] : List ℚ).length = engine4.numTimeSamples ∧
    ∃ out, engine4.forwardFFT [1, 2, 3, 4] [{ re := 5, im := 6 }] =
        { args := out, thrown := none } ∧
      out.length = engine4.numTimeSamples ∧
      (∀ k, k ≤ engine4.numTimeSamples / 2 → out[k]? = (engine4.r2c [1, 2, 3, 4])[k]?) ∧
      (∀ k, engine4.numTimeSamples / 2 < k → k < engine4.numTimeSamples →
        out[k]? = (out[engine4.numTimeSamples - k]?).map Cpx.conj) :=
  ⟨engine4_contract, by decide, rfl,
    forwardFFT_output_layout engine4 [1, 2, 3, 4] [{ re := 5, im := 6 }] engine4_contract
      (by decide) rfl⟩

/-- C17: under the contract of the library (the backward transform of the forward transform
is the input multiplied by `N`), for every real vector `x` of the length `N` of the engine
and whatever the two output arguments held, `forwardFFT` returns and `inverseFFT` applied to
its frequency vector returns and leaves a time vector equal to `x`. -/
theorem fft_round_trip {α : Type} [LinearOrderedField α] (E : ICARUSFFT α) (x : List α)
    (frequencyVec : List (Cpx α)) (timeVec : List α) (hC : FFTWContract E)
    (hx : x.length = E.numTimeSamples) :
    (E.forwardFFT x frequencyVec).thrown = none ∧
    E.inverseFFT (E.forwardFFT x frequencyVec).args timeVec = { args := x, thrown := none } ∧
    (E.inverseFFT (E.forwardFFT x frequencyVec).args timeVec).args.length =
      E.numTimeSamples := by
  obtain ⟨out, hout, -, hinv⟩ := inverseFFT_forwardFFT E hC x frequencyVec timeVec hx
  rw [hout, hinv]
  exact ⟨rfl, rfl, hx⟩

/-- Witness of C17: the samples `[1, 2, 3, 4]` through the engine of length 4. -/
theorem fft_round_trip_witness :
    FFTWContract engine4 ∧ ([1, 2, 3, 4] : List ℚ).length = engine4.numTimeSamples ∧
    (engine4.forwardFFT [1, 2, 3, 4] []).thrown = none ∧
    engine4.inverseFFT (engine4.forwardFFT [1, 2, 3, 4] []).args [9] =
      { args := [1, 2, 3, 4], thrown := none } ∧
    (engine4.inverseFFT (engine4.forwardFFT [1, 2, 3, 4] []).args [9]).args.length =
      engine4.numTimeSamples :=
  ⟨engine4_contract, rfl, fft_round_trip engine4 [1, 2, 3, 4] [] [9] engine4_contract rfl⟩

/-- C18: for every time vector of the length `N` of the engine, every kernel of at least `N`
bins and every offset `t` with `|t| ≤ N`, `convolute(timeVec, kernel, t)` returns and leaves
the result `r` of the two-argument `convolute` rotated: to the left by `|t|` for `t ≤ 0`
(`out[n] = r[(n + |t|) mod N]`), to the right by `t` for `t > 0`
(`out[n] = r[(n - t) mod N]`). -/
theorem convolute_rotation {α : Type} [LinearOrderedField α] (E : ICARUSFFT α)
    (timeVec : List α) (kernel : List (Cpx α)) (timeOffset : Int)
    (hx : timeVec.length = E.numTimeSamples) (_hk : E.numTimeSamples ≤ kernel.length)
    (ht : timeOffset.natAbs ≤ E.numTimeSamples) :
    ∃ r out, E.convoluteCommon timeVec kernel = { args := r, thrown := none } ∧
      r.length = E.numTimeSamples ∧
      E.convolute timeVec kernel timeOffset = { args := out, thrown := none } ∧
      out.length = E.numTimeSamples ∧
      (timeOffset ≤ 0 → ∀ n, n < E.numTimeSamples →
        out[n]? = r[(n + timeOffset.natAbs) % E.numTimeSamples]?) ∧
      (0 < timeOffset → ∀ n, n < E.numTimeSamples →
        out[n]? = r[(n + E.numTimeSamples - timeOffset.natAbs) % E.numTimeSamples]?) := by
  obtain ⟨r, hr, hlen⟩ := convoluteCommon_length E timeVec kernel hx
  have hrot := rotateConvolute_eq_rotate r timeOffset (by rw [hlen]; exact ht)
  refine ⟨r, rotateConvolute r timeOffset, hr, hlen, ?_, ?_, ?_, ?_⟩
  · simp only [ICARUSFFT.convolute, hr]
  · rw [hrot]
    split <;> rw [List.length_rotate, hlen]
  · intro h n hn
    rw [hrot, if_pos h, List.getElem?_rotate (by rw [hlen]; exact hn), hlen]
  · intro h n hn
    rw [hrot, if_neg (by omega), List.getElem?_rotate (by rw [hlen]; exact hn), hlen]
    congr 2
    omega

/-- Witness of C18: `[1, 2, 3, 4]` convolved with the kernel of ones by the engine of
length 4, with offset 1. -/
theorem convolute_rotation_witness :
    ([1, 2, 3, 4] : List ℚ).length = engine4.numTimeSamples ∧
    engine4.numTimeSamples ≤ onesKernel4.length ∧
    (1 : Int).natAbs ≤ engine4.numTimeSamples ∧
    ∃ r out, engine4.convoluteCommon [1, 2, 3, 4] onesKernel4 =
        { args := r, thrown := none } ∧
      r.length = engine4.numTimeSamples ∧
      engine4.convolute [1, 2, 3, 4] onesKernel4 1 = { args := out, thrown := none } ∧
      out.length = engine4.numTimeSamples ∧
      ((1 : Int) ≤ 0 → ∀ n, n < engine4.numTimeSamples →
        out[n]? = r[(n + (1 : Int).natAbs) % engine4.numTimeSamples]?) ∧
      (0 < (1 : Int) → ∀ n, n < engine4.numTimeSamples →
        out[n]? = r[(n + engine4.numTimeSamples - (1 : Int).natAbs) %
          engine4.numTimeSamples]?) :=
  ⟨rfl, by decide, by decide,
    convolute_rotation engine4 [1, 2, 3, 4] onesKernel4 1 rfl (by decide) (by decide)⟩

/-- C19: for every time vector of the length `N` of the engine, every kernel of at least `N`
bins and every offset `t` with `|t| ≤ N`, `deconvolute(timeVec, kernel, t)` leaves exactly
what `convolute(timeVec, kernel, -t)` leaves: both rotate the result `r` of the same
two-argument `convolute`, in opposite directions, and for `t = 0` both leave `r`. -/
theorem deconvolute_eq_convolute_neg {α : Type} [LinearOrderedField α] (E : ICARUSFFT α)
    (timeVec : List α) (kernel : List (Cpx α)) (timeOffset : Int)
    (hx : timeVec.length = E.numTimeSamples) (_hk : E.numTimeSamples ≤ kernel.length)
    (_ht : timeOffset.natAbs ≤ E.numTimeSamples) :
    E.deconvolute timeVec kernel timeOffset = E.convolute timeVec kernel (-timeOffset) ∧
    (∃ r, E.convoluteCommon timeVec kernel = { args := r, thrown := none } ∧
      E.convolute timeVec kernel timeOffset =
        { args := rotateConvolute r timeOffset, thrown := none } ∧
      E.deconvolute timeVec kernel timeOffset =
        { args := rotateDeconvolute r timeOffset, thrown := none } ∧
      E.convolute timeVec kernel 0 = { args := r, thrown := none } ∧
      E.deconvolute timeVec kernel 0 = { args := r, thrown := none }) := by
  obtain ⟨r, hr, -⟩ := convoluteCommon_length E timeVec kernel hx
  have hc : ∀ t, E.convolute timeVec kernel t =
      { args := rotateConvolute r t, thrown := none } := by
    intro t
    simp only [ICARUSFFT.convolute, hr]
  have hd : ∀ t, E.deconvolute timeVec kernel t =
      { args := rotateDeconvolute r t, thrown := none } := by
    intro t
    simp only [ICARUSFFT.deconvolute, hr]
  refine ⟨?_, r, hr, hc _, hd _, ?_, ?_⟩
  · rw [hc, hd, rotateDeconvolute_eq_rotateConvolute_neg]
  · rw [hc]
    simp [rotateConvolute]
  · rw [hd]
    simp [rotateDeconvolute]

/-- Witness of C19: `[1, 2, 3, 4]`, the kernel of ones and the engine of length 4, with
offset 1. -/
theorem deconvolute_eq_convolute_neg_witness :
    ([1, 2, 3, 4] : List ℚ).length = engine4.numTimeSamples ∧
    engine4.numTimeSamples ≤ onesKernel4.length ∧
    (1 : Int).natAbs ≤ engine4.numTimeSamples ∧
    engine4.deconvolute [1, 2, 3, 4] onesKernel4 1 =
      engine4.convolute [1, 2, 3, 4] onesKernel4 (-1) ∧
    (∃ r, engine4.convoluteCommon [1, 2, 3, 4] onesKernel4 = { args := r, thrown := none } ∧
      engine4.convolute [1, 2, 3, 4] onesKernel4 1 =
        { args := rotateConvolute r 1, thrown := none } ∧
      engine4.deconvolute [1, 2, 3, 4] onesKernel4 1 =
        { args := rotateDeconvolute r 1, thrown := none } ∧
      engine4.convolute [1, 2, 3, 4] onesKernel4 0 = { args := r, thrown := none } ∧
      engine4.deconvolute [1, 2, 3, 4] onesKernel4 0 = { args := r, thrown := none }) :=
  ⟨rfl, by decide, by decide,
    deconvolute_eq_convolute_neg engine4 [1, 2, 3, 4] onesKernel4 1 rfl (by decide)
      (by decide)⟩

/-- C20: under the contract of the library, for every real vector `x` of the length `N` of
the engine and the kernel whose `N` bins are the complex number 1, `convolute(x, kernel, 0)`
returns and leaves `x` equal to what `inverseFFT` makes of `forwardFFT(x)`, which is the
original `x`. -/
theorem convolute_ones_identity {α : Type} [LinearOrderedField α] (E : ICARUSFFT α)
    (x : List α) (frequencyVec : List (Cpx α)) (timeVec : List α) (hC : FFTWContract E)
    (hx : x.length = E.numTimeSamples) :
    E.convolute x (List.replicate E.numTimeSamples { re := 1, im := 0 }) 0 =
      { args := (E.inverseFFT (E.forwardFFT x frequencyVec).args timeVec).args,
        thrown := none } ∧
    E.convolute x (List.replicate E.numTimeSamples { re := 1, im := 0 }) 0 =
      { args := x, thrown := none } := by
  obtain ⟨out, hout, -, hinv⟩ := inverseFFT_forwardFFT E hC x frequencyVec timeVec hx
  obtain ⟨out', hout', hlen', hinv'⟩ := inverseFFT_forwardFFT E hC x
    (List.replicate x.length (Cpx.zero : Cpx α)) x hx
  have hcommon : E.convoluteCommon x (List.replicate E.numTimeSamples { re := 1, im := 0 }) =
      { args := x, thrown := none } := by
    simp only [ICARUSFFT.convoluteCommon, hx, ne_eq, not_true_eq_false, if_false]
    rw [← hx, hout']
    simp only []
    rw [hx, multiplyByKernel_ones out' _ hlen'.le, hinv']
  have hconv : E.convolute x (List.replicate E.numTimeSamples { re := 1, im := 0 }) 0 =
      { args := x, thrown := none } := by
    simp [ICARUSFFT.convolute, hcommon, rotateConvolute]
  rw [hout, hinv]
  exact ⟨hconv, hconv⟩

/-- Witness of C20: `[1, 2, 3, 4]` convolved with the kernel of ones by the engine of
length 4. -/
theorem convolute_ones_identity_witness :
    FFTWContract engine4 ∧ ([1, 2, 3, 4] : List ℚ).length = engine4.numTimeSamples ∧
    engine4.convolute [1, 2, 3, 4] (List.replicate engine4.numTimeSamples { re := 1, im := 0 })
        0 =
      { args := (engine4.inverseFFT (engine4.forwardFFT [1, 2, 3, 4] []).args [9]).args,
        thrown := none } ∧
    engine4.convolute [1, 2, 3, 4] (List.replicate engine4.numTimeSamples { re := 1, im := 0 })
        0 =
      { args := [1, 2, 3, 4], thrown := none } :=
  ⟨engine4_contract, rfl,
    convolute_ones_identity engine4 [1, 2, 3, 4] [] [9] engine4_contract rfl⟩

/-- C21: for an engine of length `N ≥ 1` under the contract of the library, for every input
of length `N` and whatever the output vector held, `getFFTPower` returns and leaves the
output vector with exactly `N / 2 + 1` entries, the entry `k` being the magnitude `std::abs`
of bin `k` of the frequency vector `forwardFFT` makes of the input, hence not negative.  The
input is a `const` reference: it is only read. -/
theorem getFFTPower_output {α : Type} [LinearOrderedField α] (E : ICARUSFFT α)
    (cabs : Cpx α → α) (inputVec outputPowerVec : List α) (frequencyVec : List (Cpx α))
    (hC : FFTWContract E) (hN : 0 < E.numTimeSamples)
    (hx : inputVec.length = E.numTimeSamples) (habs : ∀ z, 0 ≤ cabs z) :
    ∃ res, E.getFFTPower cabs inputVec outputPowerVec = { args := res, thrown := none } ∧
      res.length = E.numTimeSamples / 2 + 1 ∧
      (∀ k, k ≤ E.numTimeSamples / 2 →
        res[k]? = ((E.forwardFFT inputVec frequencyVec).args[k]?).map cabs) ∧
      (∀ v ∈ res, 0 ≤ v) := by
  obtain ⟨out, hout, hpow⟩ := getFFTPower_eq E cabs inputVec outputPowerVec hN hx
  obtain ⟨out0, hout0, hlen0, hlow0, -⟩ := forwardFFT_layout E inputVec
    (List.replicate inputVec.length (Cpx.zero : Cpx α)) hN hx (hC.1 inputVec hx)
  obtain ⟨out1, hout1, -, hlow1, -⟩ := forwardFFT_layout E inputVec frequencyVec hN hx
    (hC.1 inputVec hx)
  have hsame : out = out0 := by
    rw [hout] at hout0
    exact congrArg Outcome.args hout0
  subst hsame
  refine ⟨_, hpow, ?_, ?_, ?_⟩
  · rw [List.length_map, List.length_take, hlen0]
    omega
  · intro k hk
    rw [hout1, List.getElem?_map, List.getElem?_take_of_lt (by omega), hlow0 k hk, hlow1 k hk]
  · intro v hv
    obtain ⟨z, -, rfl⟩ := List.mem_map.mp hv
    exact habs z

/-- Witness of C21: the samples `[5, 1, 3, 1]`, whose half spectrum `10, 2, 6` is real, given
to the engine of length 4 with an output vector that held five entries. -/
theorem getFFTPower_output_witness :
    FFTWContract engine4 ∧ 0 < engine4.numTimeSamples ∧
    ([5, 1, 3, 1] : List ℚ).length = engine4.numTimeSamples ∧ (∀ z, 0 ≤ axisAbs z) ∧
    engine4.getFFTPower axisAbs [5, 1, 3, 1] [7, 7, 7, 7, 7] =
      { args := [10, 2, 6], thrown := none } ∧
    ∃ res, engine4.getFFTPower axisAbs [5, 1, 3, 1] [7, 7, 7, 7, 7] =
        { args := res, thrown := none } ∧
      res.length = engine4.numTimeSamples / 2 + 1 ∧
      (∀ k, k ≤ engine4.numTimeSamples / 2 →
        res[k]? = ((engine4.forwardFFT [5, 1, 3, 1] []).args[k]?).map axisAbs) ∧
      (∀ v ∈ res, 0 ≤ v) :=
  have habs : ∀ z : Cpx ℚ, 0 ≤ axisAbs z := fun z =>
    add_nonneg (abs_nonneg z.re) (abs_nonneg z.im)
  ⟨engine4_contract, by decide, rfl, habs, by with_unfolding_all rfl,
    getFFTPower_output engine4 axisAbs [5, 1, 3, 1] [7, 7, 7, 7, 7] [] engine4_contract
      (by decide) rfl habs⟩

/-- C22: in the Lee filter, MMWF and the enhanced Lee filter, at every cell whose flat
estimate and local variance are `F` and `V > 0`, and for every noise variance
`0 ≤ s2 ≤ V`, the output `out` is finite and `out - observed = -(s2 / V) * (observed - F)`,
so that `|out - observed| ≤ (s2 / V) * |observed - F|`, `out` lies between `F` and the
observed sample, and `out` is the observed sample when `s2 = 0`. -/
theorem blend_converges_to_observed {α : Type} [LinearOrderedField α]
    (computeMedian : List α → α) (w : List (List α)) (n m : Nat) (noiseVar : α) (sx sy : Nat)
    (a epsilon : α) (i j : Nat) (F V : α) (hV : 0 < V) (h0 : 0 ≤ noiseVar)
    (hle : noiseVar ≤ V) :
    (leeStats w n m sx sy i j = some (F, V) →
      ∃ out, leeCell w n m noiseVar sx sy i j = some out ∧
        out - at2 w i j = -(noiseVar / V) * (at2 w i j - F) ∧
        |out - at2 w i j| ≤ noiseVar / V * |at2 w i j - F| ∧
        min F (at2 w i j) ≤ out ∧ out ≤ max F (at2 w i j) ∧
        (noiseVar = 0 → out = at2 w i j)) ∧
    (mmwfStats computeMedian w n m sx sy i j = some (F, V) →
      ∃ out, mmwfCell computeMedian w n m noiseVar sx sy i j = some out ∧
        out - at2 w i j = -(noiseVar / V) * (at2 w i j - F) ∧
        |out - at2 w i j| ≤ noiseVar / V * |at2 w i j - F| ∧
        min F (at2 w i j) ≤ out ∧ out ≤ max F (at2 w i j) ∧
        (noiseVar = 0 → out = at2 w i j)) ∧
    (enhancedStats w n m noiseVar sx sy a epsilon i j = some (F, V) →
      ∃ out, enhancedCell w n m noiseVar sx sy a epsilon i j = some out ∧
        out - at2 w i j = -(noiseVar / V) * (at2 w i j - F) ∧
        |out - at2 w i j| ≤ noiseVar / V * |at2 w i j - F| ∧
        min F (at2 w i j) ≤ out ∧ out ≤ max F (at2 w i j) ∧
        (noiseVar = 0 → out = at2 w i j)) := by
  have hb := blend_between F V noiseVar (at2 w i j) hV h0 hle
  refine ⟨?_, ?_, ?_⟩
  · intro h
    simpa only [leeCell, h, Option.some_bind] using hb
  · intro h
    simpa only [mmwfCell, h, Option.some_bind] using hb
  · intro h
    simpa only [enhancedCell, h, Option.some_bind] using hb

/-- Witness of C22: cell (1, 1) of `[[1, 2], [3, 4]]` with window (2, 2), where the local
mean is 5/2, the local median 3 and the local variance 5/4 (for the enhanced filter with
`a = 1`, `epsilon = 1`: flat estimate 35/44 and local variance 4077/1936), and noise
variance 1/2. -/
theorem blend_converges_to_observed_witness :
    (0 : ℚ) < 5 / 4 ∧ (0 : ℚ) ≤ 1 / 2 ∧ (1 / 2 : ℚ) ≤ 5 / 4 ∧
    (leeStats ramp2x2 2 2 2 2 1 1 = some (5 / 2, 5 / 4) ∧
      ∃ out, leeCell ramp2x2 2 2 (1 / 2) 2 2 1 1 = some out ∧
        out - at2 ramp2x2 1 1 = -(1 / 2 / (5 / 4)) * (at2 ramp2x2 1 1 - 5 / 2) ∧
        |out - at2 ramp2x2 1 1| ≤ 1 / 2 / (5 / 4) * |at2 ramp2x2 1 1 - 5 / 2| ∧
        min (5 / 2) (at2 ramp2x2 1 1) ≤ out ∧ out ≤ max (5 / 2) (at2 ramp2x2 1 1) ∧
        ((1 / 2 : ℚ) = 0 → out = at2 ramp2x2 1 1)) ∧
    (mmwfStats upperMedian ramp2x2 2 2 2 2 1 1 = some (3, 5 / 4) ∧
      ∃ out, mmwfCell upperMedian ramp2x2 2 2 (1 / 2) 2 2 1 1 = some out ∧
        out - at2 ramp2x2 1 1 = -(1 / 2 / (5 / 4)) * (at2 ramp2x2 1 1 - 3) ∧
        |out - at2 ramp2x2 1 1| ≤ 1 / 2 / (5 / 4) * |at2 ramp2x2 1 1 - 3| ∧
        min 3 (at2 ramp2x2 1 1) ≤ out ∧ out ≤ max 3 (at2 ramp2x2 1 1) ∧
        ((1 / 2 : ℚ) = 0 → out = at2 ramp2x2 1 1)) ∧
    ((0 : ℚ) < 4077 / 1936 ∧ (1 / 2 : ℚ) ≤ 4077 / 1936 ∧
      enhancedStats ramp2x2 2 2 (1 / 2) 2 2 1 1 1 1 = some (35 / 44, 4077 / 1936) ∧
      ∃ out, enhancedCell ramp2x2 2 2 (1 / 2) 2 2 1 1 1 1 = some out ∧
        out - at2 ramp2x2 1 1 = -(1 / 2 / (4077 / 1936)) * (at2 ramp2x2 1 1 - 35 / 44) ∧
        |out - at2 ramp2x2 1 1| ≤ 1 / 2 / (4077 / 1936) * |at2 ramp2x2 1 1 - 35 / 44| ∧
        min (35 / 44) (at2 ramp2x2 1 1) ≤ out ∧ out ≤ max (35 / 44) (at2 ramp2x2 1 1) ∧
        ((1 / 2 : ℚ) = 0 → out = at2 ramp2x2 1 1)) :=
  have h1 : leeStats ramp2x2 2 2 2 2 1 1 = some (5 / 2, 5 / 4) := by with_unfolding_all rfl
  have h2 : mmwfStats upperMedian ramp2x2 2 2 2 2 1 1 = some (3, 5 / 4) := by
    with_unfolding_all rfl
  have h := blend_converges_to_observed upperMedian ramp2x2 2 2 (1 / 2) 2 2 1 1 1 1
    (5 / 2) (5 / 4) (by norm_num) (by norm_num) (by norm_num)
  have h' := blend_converges_to_observed upperMedian ramp2x2 2 2 (1 / 2) 2 2 1 1 1 1
    3 (5 / 4) (by norm_num) (by norm_num) (by norm_num)
  have h3 : enhancedStats ramp2x2 2 2 (1 / 2) 2 2 1 1 1 1 = some (35 / 44, 4077 / 1936) := by
    with_unfolding_all rfl
  have h'' := blend_converges_to_observed upperMedian ramp2x2 2 2 (1 / 2) 2 2 1 1 1 1
    (35 / 44) (4077 / 1936) (by norm_num) (by norm_num) (by norm_num)
  ⟨by norm_num, by norm_num, by norm_num, ⟨h1, h.1 h1⟩, ⟨h2, h'.2.1 h2⟩,
    ⟨by norm_num, by norm_num, h3, h''.2.2 h3⟩⟩

/-- C23: for every array shape, window and cell `(i, j)`, every index pair `(ix, iy)` the
gathering loops visit is in bounds, with `|ix - i| ≤ sx / 2` and `|iy - j| ≤ sy / 2`, no
pair is visited twice, the pairs visited are pairs of the unclipped window, and for a cell
whose unclipped window (`sx, sy ≥ 2`) reaches beyond the array they are a strict subset of
it.  In the scenario array with window (3, 3) the corner cell (0, 0) has the local mean 1,
not the mean 2 of the nine samples. -/
theorem window_clipped_to_array (n m sx sy i j : Nat) (hi : i < n) (hj : j < m) :
    (∀ p ∈ windowIndices n m sx sy i j, p.1 < n ∧ p.2 < m ∧
      |(p.1 : Int) - (i : Int)| ≤ ((sx / 2 : Nat) : Int) ∧
      |(p.2 : Int) - (j : Int)| ≤ ((sy / 2 : Nat) : Int)) ∧
    (windowIndices n m sx sy i j).Nodup ∧
    gatheredIndices n m sx sy i j ⊆ unclippedWindow sx sy i j ∧
    (2 ≤ sx → 2 ≤ sy → (i < sx / 2 ∨ n < i + sx / 2 ∨ j < sy / 2 ∨ m < j + sy / 2) →
      gatheredIndices n m sx sy i j ⊂ unclippedWindow sx sy i j) ∧
    (leeStats scenario3x3 3 3 3 3 0 0 = some (1, 0) ∧
      fdiv (accumulate scenario3x3.flatten) 9 = some 2) := by
  have hmem : ∀ p ∈ windowIndices n m sx sy i j, p.1 < n ∧ p.2 < m ∧
      (i : Int) - ((sx / 2 : Nat) : Int) ≤ (p.1 : Int) ∧
      (p.1 : Int) < (i : Int) + ((sx / 2 : Nat) : Int) ∧
      (j : Int) - ((sy / 2 : Nat) : Int) ≤ (p.2 : Int) ∧
      (p.2 : Int) < (j : Int) + ((sy / 2 : Nat) : Int) := by
    intro p hp
    rw [mem_windowIndices] at hp
    simp only [refWindow, Finset.mem_filter, Finset.mem_product, Finset.mem_range] at hp
    omega
  have hsub : gatheredIndices n m sx sy i j ⊆ unclippedWindow sx sy i j := by
    intro q hq
    simp only [gatheredIndices, Finset.mem_image, List.mem_toFinset] at hq
    obtain ⟨p, hp, rfl⟩ := hq
    have h := hmem p hp
    simp only [unclippedWindow, Finset.mem_product, Finset.mem_Ico]
    omega
  have hnot : ∀ q : Int × Int, (q.1 < 0 ∨ (n : Int) ≤ q.1 ∨ q.2 < 0 ∨ (m : Int) ≤ q.2) →
      q ∉ gatheredIndices n m sx sy i j := by
    intro q hq hin
    simp only [gatheredIndices, Finset.mem_image, List.mem_toFinset] at hin
    obtain ⟨p, hp, rfl⟩ := hin
    have h := hmem p hp
    simp only at hq
    omega
  refine ⟨?_, nodup_windowIndices n m sx sy i j, hsub, ?_, ?_⟩
  · intro p hp
    have h := hmem p hp
    refine ⟨h.1, h.2.1, abs_le.mpr ?_, abs_le.mpr ?_⟩ <;> omega
  · intro hsx hsy hclip
    refine Finset.ssubset_iff_subset_ne.mpr ⟨hsub, ?_⟩
    have hin : ∀ q : Int × Int,
        ((i : Int) - ((sx / 2 : Nat) : Int) ≤ q.1 ∧ q.1 < (i : Int) + ((sx / 2 : Nat) : Int) ∧
        (j : Int) - ((sy / 2 : Nat) : Int) ≤ q.2 ∧ q.2 < (j : Int) + ((sy / 2 : Nat) : Int)) →
        q ∈ unclippedWindow sx sy i j := by
      intro q hq
      simp only [unclippedWindow, Finset.mem_product, Finset.mem_Ico]
      omega
    intro heq
    rcases hclip with h | h | h | h
    · exact hnot ((i : Int) - ((sx / 2 : Nat) : Int), (j : Int)) (by simp only; omega)
        (heq ▸ hin _ (by simp only; omega))
    · exact hnot ((n : Int), (j : Int)) (by simp only; omega)
        (heq ▸ hin _ (by simp only; omega))
    · exact hnot ((i : Int), (j : Int) - ((sy / 2 : Nat) : Int)) (by simp only; omega)
        (heq ▸ hin _ (by simp only; omega))
    · exact hnot ((i : Int), (m : Int)) (by simp only; omega)
        (heq ▸ hin _ (by simp only; omega))
  · constructor <;> with_unfolding_all rfl

/-- Witness of C23: the corner cell (0, 0) of a 3×3 array with window (3, 3). -/
theorem window_clipped_to_array_witness :
    0 < 3 ∧ 2 ≤ 3 ∧ (0 < 3 / 2 ∨ 3 < 0 + 3 / 2 ∨ 0 < 3 / 2 ∨ 3 < 0 + 3 / 2) ∧
    windowIndices 3 3 3 3 0 0 = [(0, 0)] ∧
    gatheredIndices 3 3 3 3 0 0 ⊂ unclippedWindow 3 3 0 0 ∧
    (∀ p ∈ windowIndices 3 3 3 3 0 0, p.1 < 3 ∧ p.2 < 3 ∧
      |(p.1 : Int) - ((0 : Nat) : Int)| ≤ ((3 / 2 : Nat) : Int) ∧
      |(p.2 : Int) - ((0 : Nat) : Int)| ≤ ((3 / 2 : Nat) : Int)) :=
  ⟨by decide, by decide, Or.inl (by decide), by decide,
    (window_clipped_to_array 3 3 3 3 0 0 (by decide) (by decide)).2.2.2.1 (by decide)
      (by decide) (Or.inl (by decide)),
    (window_clipped_to_array 3 3 3 3 0 0 (by decide) (by decide)).1⟩

/-- C24 (counterexample): on the constant array `[[3, 3], [3, 3]]` with window (2, 2),
`a = 1` and tolerance `epsilon = 2`, the four unnormalised weights of cell (1, 1) are 1/13
for noise variance 3 and 1/5 for noise variance 1, where the formula with the tolerance
itself, `1 / (1 + a * max(epsilon, 0))`, gives 1/3 whatever the noise variance. -/
theorem weight_floor_depends_on_noise :
    enhancedEps (2 : ℚ) 3 = some 12 ∧
    enhancedRawWeights flat2x2 2 2 3 2 2 1 2 1 1 = some [1 / 13, 1 / 13, 1 / 13, 1 / 13] ∧
    enhancedRawWeights flat2x2 2 2 1 2 2 1 2 1 1 = some [1 / 5, 1 / 5, 1 / 5, 1 / 5] ∧
    (1 : ℚ) / (1 + 1 * max 2 ((3 - 3) ^ 2)) = 1 / 3 := by
  refine ⟨?_, ?_, ?_, ?_⟩ <;> with_unfolding_all rfl

/-- C24 (amended): for `a > 0` and a noise variance that is not negative, the unnormalised
weight `filterLeeEnhanced<T>` gives at cell `(i, j)` to a gathered neighbour `v` is
`1 / (1 + a * max(eps, (in[i][j] - v)^2))` with `eps = (epsilon * sqrt(noiseVar))^2`, that is
`epsilon^2 * noiseVar`; the weights the filter uses are these, each divided by their sum. -/
theorem enhanced_weight_formula {α : Type} [LinearOrderedField α] (w : List (List α))
    (n m : Nat) (noiseVar : α) (sx sy : Nat) (a epsilon : α) (i j : Nat) (ha : 0 < a)
    (hnoise : 0 ≤ noiseVar) :
    enhancedRawWeights w n m noiseVar sx sy a epsilon i j =
      some ((gatherX w n m sx sy i j).map fun v =>
        1 / (1 + a * max (epsilon ^ 2 * noiseVar) ((at2 w i j - v) ^ 2))) ∧
    enhancedWeights w n m noiseVar sx sy a epsilon i j =
      (enhancedRawWeights w n m noiseVar sx sy a epsilon i j).bind fun weight =>
        allFinite (weight.map fun wk => fdiv wk (accumulate weight)) := by
  have heps : (0 : α) ≤ epsilon ^ 2 * noiseVar := mul_nonneg (sq_nonneg _) hnoise
  have hraw : (gatherX w n m sx sy i j).map
      (fun v => enhancedWeight a (epsilon ^ 2 * noiseVar) (at2 w i j) v) =
      (gatherX w n m sx sy i j).map (fun v => some
        (1 / (1 + a * max (epsilon ^ 2 * noiseVar) ((at2 w i j - v) ^ 2)))) :=
    List.map_congr_left fun v _ => (enhancedWeight_pos a _ (at2 w i j) v ha heps).1
  constructor
  · simp only [enhancedRawWeights, enhancedEps, not_lt.mpr hnoise, if_false, Option.some_bind,
      hraw, allFinite_map_some]
  · unfold enhancedWeights enhancedRawWeights
    cases enhancedEps epsilon noiseVar with
    | none => rfl
    | some eps => rfl

/-- Witness of the amended C24: cell (1, 1) of `[[1, 2], [3, 4]]` with window (2, 2),
`a = 1`, `epsilon = 2` and noise variance 3. -/
theorem enhanced_weight_formula_witness :
    (0 : ℚ) < 1 ∧ (0 : ℚ) ≤ 3 ∧
    enhancedRawWeights ramp2x2 2 2 3 2 2 1 2 1 1 =
      some ((gatherX ramp2x2 2 2 2 2 1 1).map fun v =>
        1 / (1 + 1 * max (2 ^ 2 * 3) ((at2 ramp2x2 1 1 - v) ^ 2))) ∧
    enhancedWeights ramp2x2 2 2 3 2 2 1 2 1 1 =
      (enhancedRawWeights ramp2x2 2 2 3 2 2 1 2 1 1).bind fun weight =>
        allFinite (weight.map fun wk => fdiv wk (accumulate weight)) :=
  ⟨by norm_num, by norm_num,
    enhanced_weight_formula ramp2x2 2 2 3 2 2 1 2 1 1 (by norm_num) (by norm_num)⟩

/-- C25 (code defect): in `filterLee<short>` on the 2×2 array of samples 200 with window
(2, 2), the four squares stored in `xsq` for cell (1, 1) are `40000` reduced modulo `2^16`,
that is -25536, and the local second moment is -25536, where the mean of the squared
samples is 40000. -/
theorem short_squares_wrap :
    gatherXShort short2x2 2 2 2 2 1 1 = [200, 200, 200, 200] ∧
    gatherXsqShort short2x2 2 2 2 2 1 1 = [-25536, -25536, -25536, -25536] ∧
    localSquareShort short2x2 2 2 2 2 1 1 = some (-25536) ∧
    meanOfSquaresShort short2x2 2 2 2 2 1 1 = some 40000 ∧
    toShort (200 * 200) = -25536 := by
  refine ⟨?_, ?_, ?_, ?_, ?_⟩ <;> with_unfolding_all rfl

/-- C26: over exact arithmetic, on every array shape, for every window `sx, sy ≥ 2` and every
cell, the window `filterLee<T>` gathers holds the cell itself and so is not empty, the local
variance `V = (mean of squares) - (mean)^2` is not negative, `V = 0` exactly when all the
samples of the window are equal, and for every positive noise variance a cell whose window
is constant is output as that constant. -/
theorem local_variance_nonneg {α : Type} [LinearOrderedField α] (w : List (List α))
    (n m sx sy i j : Nat) (hi : i < n) (hj : j < m) (hsx : 2 ≤ sx) (hsy : 2 ≤ sy) :
    (i, j) ∈ windowIndices n m sx sy i j ∧
    gatherX w n m sx sy i j ≠ [] ∧
    leeStats w n m sx sy i j = some (refMean w n m sx sy i j, refVar w n m sx sy i j) ∧
    0 ≤ refVar w n m sx sy i j ∧
    (refVar w n m sx sy i j = 0 ↔
      ∀ u ∈ gatherX w n m sx sy i j, ∀ v ∈ gatherX w n m sx sy i j, u = v) ∧
    (∀ c s2 : α, (∀ v ∈ gatherX w n m sx sy i j, v = c) → 0 < s2 →
      leeCell w n m s2 sx sy i j = some c) := by
  have hself := self_mem_refWindow n m sx sy i j hi hj hsx hsy
  have hc := card_refWindow_ne_zero (α := α) n m sx sy i j hi hj hsx hsy
  have hstats := leeStats_eq_ref w n m sx sy i j hi hj hsx hsy
  have hconst : ∀ c : α, (∀ v ∈ gatherX w n m sx sy i j, v = c) →
      refMean w n m sx sy i j = c ∧ refVar w n m sx sy i j = 0 := by
    intro c hall
    have hall' : ∀ p ∈ refWindow n m sx sy i j, at2 w p.1 p.2 = c := fun p hp =>
      hall _ ((mem_gatherX w n m sx sy i j _).mpr ⟨p, hp, rfl⟩)
    have hmean := refMean_of_constant w n m sx sy i j c hc hall'
    exact ⟨hmean, (refVar_eq_zero_iff w n m sx sy i j hc).mpr fun p hp => by
      rw [hall' p hp, hmean]⟩
  refine ⟨(mem_windowIndices n m sx sy i j (i, j)).mpr hself, ?_, hstats,
    refVar_nonneg w n m sx sy i j, ?_, ?_⟩
  · intro hnil
    have hmem := (mem_gatherX w n m sx sy i j (at2 w i j)).mpr ⟨(i, j), hself, rfl⟩
    rw [hnil] at hmem
    exact List.not_mem_nil _ hmem
  · constructor
    · intro h0 u hu v hv
      obtain ⟨p, hp, rfl⟩ := (mem_gatherX w n m sx sy i j u).mp hu
      obtain ⟨q, hq, rfl⟩ := (mem_gatherX w n m sx sy i j v).mp hv
      have hall := (refVar_eq_zero_iff w n m sx sy i j hc).mp h0
      rw [hall p hp, hall q hq]
    · intro hall
      have hcell := (mem_gatherX w n m sx sy i j (at2 w i j)).mpr ⟨(i, j), hself, rfl⟩
      exact (hconst (at2 w i j) fun v hv => hall v hv _ hcell).2
  · intro c s2 hall hs2
    obtain ⟨hmean, hvar⟩ := hconst c hall
    simp only [leeCell, hstats, Option.some_bind, hmean, hvar]
    exact blend_of_gt c 0 s2 _ hs2

/-- Witness of C26: cell (1, 1) of the constant array `[[3, 3], [3, 3]]` with window (2, 2)
and noise variance 1. -/
theorem local_variance_nonneg_witness :
    1 < 2 ∧ 2 ≤ 2 ∧ (∀ v ∈ gatherX flat2x2 2 2 2 2 1 1, v = 3) ∧ (0 : ℚ) < 1 ∧
    (1, 1) ∈ windowIndices 2 2 2 2 1 1 ∧
    0 ≤ refVar flat2x2 2 2 2 2 1 1 ∧
    leeCell flat2x2 2 2 1 2 2 1 1 = some 3 :=
  have hg : ∀ v ∈ gatherX flat2x2 2 2 2 2 1 1, v = 3 := by
    have hx : gatherX flat2x2 2 2 2 2 1 1 = [3, 3, 3, 3] := by with_unfolding_all rfl
    rw [hx]
    simp
  have h := local_variance_nonneg flat2x2 2 2 2 2 1 1 (by decide) (by decide) (by decide)
    (by decide)
  ⟨by decide, by decide, hg, by norm_num, h.1, h.2.2.2.1, h.2.2.2.2.2 3 1 hg (by norm_num)⟩

/-- C27: for every time vector of the length `N` of the engine and every offset `t` with
`|t| ≤ N`, `convolute` and `deconvolute` return and leave the result `r` of the two-argument
`convolute` rotated by their rotation steps; each rotation step keeps the length `N` and the
multiset of the samples of `r`, the slice it copies lies within the vector, and the rotation
of `deconvolute` for `t` applied to the rotation of `convolute` for `t` gives back `r`. -/
theorem rotation_is_permutation {α : Type} [LinearOrderedField α] (E : ICARUSFFT α)
    (timeVec : List α) (kernel : List (Cpx α)) (timeOffset : Int)
    (hx : timeVec.length = E.numTimeSamples) (ht : timeOffset.natAbs ≤ E.numTimeSamples) :
    ∃ r, E.convoluteCommon timeVec kernel = { args := r, thrown := none } ∧
      r.length = E.numTimeSamples ∧
      E.convolute timeVec kernel timeOffset =
        { args := rotateConvolute r timeOffset, thrown := none } ∧
      E.deconvolute timeVec kernel timeOffset =
        { args := rotateDeconvolute r timeOffset, thrown := none } ∧
      (rotateConvolute r timeOffset).length = E.numTimeSamples ∧
      (rotateDeconvolute r timeOffset).length = E.numTimeSamples ∧
      List.Perm (rotateConvolute r timeOffset) r ∧
      List.Perm (rotateDeconvolute r timeOffset) r ∧
      (0 ≤ (convoluteSlice r.length timeOffset).1 ∧
        (convoluteSlice r.length timeOffset).1 ≤ (convoluteSlice r.length timeOffset).2 ∧
        (convoluteSlice r.length timeOffset).2 ≤ (r.length : Int)) ∧
      (0 ≤ (deconvoluteSlice r.length timeOffset).1 ∧
        (deconvoluteSlice r.length timeOffset).1 ≤ (deconvoluteSlice r.length timeOffset).2 ∧
        (deconvoluteSlice r.length timeOffset).2 ≤ (r.length : Int)) ∧
      rotateDeconvolute (rotateConvolute r timeOffset) timeOffset = r := by
  obtain ⟨r, hr, hlen⟩ := convoluteCommon_length E timeVec kernel hx
  have ht' : timeOffset.natAbs ≤ r.length := by rw [hlen]; exact ht
  refine ⟨r, hr, hlen, ?_, ?_, ?_, ?_, rotateConvolute_perm r timeOffset ht',
    rotateDeconvolute_perm r timeOffset ht', ?_, ?_,
    rotateDeconvolute_rotateConvolute r timeOffset ht'⟩
  · simp only [ICARUSFFT.convolute, hr]
  · simp only [ICARUSFFT.deconvolute, hr]
  · rw [(rotateConvolute_perm r timeOffset ht').length_eq, hlen]
  · rw [(rotateDeconvolute_perm r timeOffset ht').length_eq, hlen]
  · unfold convoluteSlice
    split <;> simp only <;> omega
  · unfold deconvoluteSlice
    split <;> simp only <;> omega

/-- Witness of C27: `[1, 2, 3, 4]` convolved with the kernel of ones by the engine of
length 4 and rotated with offset 1: `[4, 1, 2, 3]` by `convolute`, `[2, 3, 4, 1]` by
`deconvolute`. -/
theorem rotation_is_permutation_witness :
    ([1, 2, 3, 4] : List ℚ).length = engine4.numTimeSamples ∧
    (1 : Int).natAbs ≤ engine4.numTimeSamples ∧
    engine4.convolute [1, 2, 3, 4] onesKernel4 1 = { args := [4, 1, 2, 3], thrown := none } ∧
    engine4.deconvolute [1, 2, 3, 4] onesKernel4 1 =
      { args := [2, 3, 4, 1], thrown := none } ∧
    ∃ r, engine4.convoluteCommon [1, 2, 3, 4] onesKernel4 = { args := r, thrown := none } ∧
      r.length = engine4.numTimeSamples ∧
      engine4.convolute [1, 2, 3, 4] onesKernel4 1 =
        { args := rotateConvolute r 1, thrown := none } ∧
      engine4.deconvolute [1, 2, 3, 4] onesKernel4 1 =
        { args := rotateDeconvolute r 1, thrown := none } ∧
      (rotateConvolute r 1).length = engine4.numTimeSamples ∧
      (rotateDeconvolute r 1).length = engine4.numTimeSamples ∧
      List.Perm (rotateConvolute r 1) r ∧
      List.Perm (rotateDeconvolute r 1) r ∧
      (0 ≤ (convoluteSlice r.length 1).1 ∧
        (convoluteSlice r.length 1).1 ≤ (convoluteSlice r.length 1).2 ∧
        (convoluteSlice r.length 1).2 ≤ (r.length : Int)) ∧
      (0 ≤ (deconvoluteSlice r.length 1).1 ∧
        (deconvoluteSlice r.length 1).1 ≤ (deconvoluteSlice r.length 1).2 ∧
        (deconvoluteSlice r.length 1).2 ≤ (r.length : Int)) ∧
      rotateDeconvolute (rotateConvolute r 1) 1 = r :=
  ⟨rfl, by decide, by with_unfolding_all rfl, by with_unfolding_all rfl,
    rotation_is_permutation engine4 [1, 2, 3, 4] onesKernel4 1 rfl (by decide)⟩

/-- C28: over exact arithmetic, with a square root that is not negative and squares to its
argument, for every waveform that is not empty `getMeanAndTruncRms` returns finite values,
replaces the waveform by `waveform - aveVal`, returns in `numBins` the number of the
pedestal-subtracted samples `v` with `|v| ≤ 2.5 * rmsVal`, which is at least 1, and returns
`rmsTrunc ≤ rmsVal`. -/
theorem truncated_rms_le_rms {α : Type} [LinearOrderedField α] [FloorRing α]
    (sqrt : α → α) (rawWaveform : List α) (hsqrt : SqrtContract sqrt)
    (hne : rawWaveform ≠ []) :
    ∃ res, getMeanAndTruncRms sqrt rawWaveform = some res ∧
      res.rawWaveform = rawWaveform.map (fun v => v - res.aveVal) ∧
      res.numBins =
        ((res.rawWaveform.filter fun v => decide (|v| ≤ 5 / 2 * res.rmsVal)).length : Int) ∧
      1 ≤ res.numBins ∧
      res.rmsTrunc ≤ res.rmsVal := by
  obtain ⟨aveVal, have_ave⟩ := mostProbableMean_finite rawWaveform hne
  have hvs : rawWaveform.map (fun v => v - aveVal) ≠ [] := by
    intro h
    exact hne (List.map_eq_nil_iff.mp h)
  have hn : ((rawWaveform.map fun v => v - aveVal).length : α) ≠ 0 := by
    have := List.length_pos.mpr hvs
    exact_mod_cast this.ne'
  have hnpos : (0 : α) < ((rawWaveform.map fun v => v - aveVal).length : α) := by
    have := List.length_pos.mpr hvs
    exact_mod_cast this
  have hsq_nonneg : ∀ l : List α, 0 ≤ (l.map fun v => v * v).sum := fun l =>
    List.sum_nonneg fun x hx => by
      obtain ⟨v, -, rfl⟩ := List.mem_map.mp hx
      exact mul_self_nonneg v
  have hM : 0 ≤ ((rawWaveform.map fun v => v - aveVal).map fun v => v * v).sum /
      ((rawWaveform.map fun v => v - aveVal).length : α) :=
    div_nonneg (hsq_nonneg _) hnpos.le
  obtain ⟨hR, hRR⟩ := hsqrt _ hM
  obtain ⟨hk, hT⟩ := truncated_mean_square_le (rawWaveform.map fun v => v - aveVal) hvs _ hR hRR
  have hkne : ((((rawWaveform.map fun v => v - aveVal).filter fun v =>
      !decide (|v| > 5 / 2 * sqrt (((rawWaveform.map fun v => v - aveVal).map
        fun v => v * v).sum / ((rawWaveform.map fun v => v - aveVal).length : α)))).length :
          Nat) : α) ≠ 0 := by
    have : 0 < ((rawWaveform.map fun v => v - aveVal).filter fun v =>
      !decide (|v| > 5 / 2 * sqrt (((rawWaveform.map fun v => v - aveVal).map
        fun v => v * v).sum / ((rawWaveform.map fun v => v - aveVal).length : α)))).length := hk
    exact_mod_cast this.ne'
  have hfilter : ∀ (l : List α) (c : α), (l.filter fun v => !decide (|v| > c)) =
      l.filter fun v => decide (|v| ≤ c) := by
    intro l c
    apply List.filter_congr
    intro v _
    by_cases h : |v| > c
    · simp [h]
    · simp [h, not_lt.mp h]
  refine ⟨_, by
    simp only [getMeanAndTruncRms, have_ave, Option.some_bind, inner_product_self,
      fdiv_of_ne_zero _ _ hn, zeroMax, max_eq_right hM]
    rfl, rfl, ?_, ?_, ?_⟩
  · simp only [hfilter]
  · simp only
    exact_mod_cast hk
  · simp only [Int.cast_natCast]
    simp only [fdiv_of_ne_zero _ _ hkne, zeroMax]
    have hT0 : 0 ≤ (((rawWaveform.map fun v => v - aveVal).filter fun v =>
        !decide (|v| > 5 / 2 * sqrt (((rawWaveform.map fun v => v - aveVal).map
          fun v => v * v).sum / ((rawWaveform.map fun v => v - aveVal).length : α)))).map
            fun v => v * v).sum /
        (((rawWaveform.map fun v => v - aveVal).filter fun v =>
          !decide (|v| > 5 / 2 * sqrt (((rawWaveform.map fun v => v - aveVal).map
            fun v => v * v).sum / ((rawWaveform.map fun v => v - aveVal).length : α)))).length :
              α) :=
      div_nonneg (hsq_nonneg _) (Nat.cast_nonneg _)
    rw [max_eq_right hT0]
    exact sqrt_mono_of_contract sqrt hsqrt _ _ hT0 hT

/-- Witness of C28: the waveform `[1, 1, 1, 5]` over the real numbers with their square
root. -/
theorem truncated_rms_le_rms_witness :
    SqrtContract Real.sqrt ∧ ([1, 1, 1, 5] : List ℝ) ≠ [] ∧
    ∃ res, getMeanAndTruncRms Real.sqrt ([1, 1, 1, 5] : List ℝ) = some res ∧
      res.rawWaveform = ([1, 1, 1, 5] : List ℝ).map (fun v => v - res.aveVal) ∧
      res.numBins =
        ((res.rawWaveform.filter fun v => decide (|v| ≤ 5 / 2 * res.rmsVal)).length : Int) ∧
      1 ≤ res.numBins ∧
      res.rmsTrunc ≤ res.rmsVal :=
  have hs : SqrtContract Real.sqrt := fun x hx => ⟨Real.sqrt_nonneg x, Real.mul_self_sqrt hx⟩
  ⟨hs, by simp, truncated_rms_le_rms Real.sqrt [1, 1, 1, 5] hs (by simp)⟩

/-- C29 (code defect): on the waveform `[0.5, 0.5]` with pedestal 0, `getTruncatedRMS`
subtracts with `std::minus<short>`, so both deviations are 0 instead of 0.5, and the routine
returns `sqrt 0` for every square root, where the mean of the `floor(0.6 * 2) = 1` smallest
values of `(x - pedestal)^2` is 1/4. -/
theorem truncated_rms_rounds_samples :
    ([1 / 2, 1 / 2] : List ℚ).map (fun x => minusShort x 0) = [0, 0] ∧
    (∀ sqrt : ℚ → ℚ, getTruncatedRMS sqrt [1 / 2, 1 / 2] 0 = sqrt 0) ∧
    truncatedMeanSquareReference [1 / 2, 1 / 2] 0 = some (1 / 4) := by
  refine ⟨?_, ?_, ?_⟩
  · with_unfolding_all rfl
  · intro sqrt
    with_unfolding_all rfl
  · with_unfolding_all rfl

end icarussigproc
